import Mathlib

/-! # go-bodyshop: directory assembly (`GenerateCar`) and stream commitment (`CalculateCommp`)

A shallow embedding of `go-bodyshop/util/graphsplit.go` and
`go-bodyshop/util/stream-commp.go`, and what the embedding shows about the
directory assembly, the file node build and the speculative parse.

Conventions of the embedding.

* Go strings are byte strings; they are embedded as `List Char` (`Str`).
* Byte slices and byte streams are `List Nat` (each entry a byte value).
* A Go call that can end in a run-time panic or in `log.Fatal` returns an
  `Outcome`.
* Functions of imported Go packages are embedded from the semantics of those
  packages (`path.Clean`, `strings.Split`, `binary.Uvarint`, `io.CopyN`, ...);
  the hash and codec primitives (`format.MakeLink`, `cbor.DecodeInto`,
  `commp.Calc.Digest`) are parameters of the definitions that use them.
* The workers that build the file nodes are run one after the other.
* The memory that the Go runtime can obtain for one allocation is a parameter
  (`memLimit`) of the definitions that allocate from a length read off the
  stream.

The definitions come first: the embedding of the source, then the notions the
statements and proofs use. The theorems follow: the evaluation of the source at
particular inputs and the closed form of `GenerateCar`, the loop "build dir
tree" over a given map of file nodes (its invariant, the idempotence of
`path.Clean`), and the varint framing of an archive with the speculative parse.
-/

namespace Bodyshop

/-! ## Strings and the `path` package -/

/-- Go `string`, as the list of its bytes. -/
abbrev Str := List Char

/-- How a Go call ends: a value, a returned `error`, a run-time panic, or the
end of the process in `log.Fatal` or in a fatal error of the Go runtime. -/
inductive Outcome (α : Type) where
  | ok : α → Outcome α
  | error : String → Outcome α
  | panic : String → Outcome α
  | fatal : String → Outcome α
  deriving DecidableEq, Repr

/-- Go `strings.HasPrefix(s, p)`. -/
def stringsHasPrefix : Str → Str → Bool
  | _, [] => true
  | [], _ :: _ => false
  | c :: s, d :: p => if c = d then stringsHasPrefix s p else false

/-- Go `strings.Split(s, sep)` for a one-byte separator: the pieces between
the separators, `[""]` for the empty string. -/
def stringsSplit (sep : Char) : Str → List Str
  | [] => [[]]
  | c :: t =>
    if c = sep then [] :: stringsSplit sep t
    else
      match stringsSplit sep t with
      | [] => [[c]]
      | h :: r => (c :: h) :: r

/-- The inner loop of the `..` case of `path.Clean`: starting from write index
`w`, step back while `w > dotdot` and `out[w]` is not a slash. -/
def cleanBacktrack (out : Str) (dotdot : Nat) : Nat → Nat
  | 0 => 0
  | w + 1 =>
    if dotdot < w + 1 ∧ out.getD (w + 1) '/' ≠ '/' then cleanBacktrack out dotdot w
    else w + 1

/-- The scanning loop `for r < n` of Go `path.Clean`. The list argument is
`path[r:]`, `out` is the written part of the buffer and `dotdot` the index
below which the buffer may not be cut. The flag is `true` while the default
case is copying a path element byte by byte. -/
def cleanLoop (rooted : Bool) : Bool → Str → Str → Nat → Str
  | _, [], out, _ => out
  | true, c :: t, out, dotdot =>
    if c = '/' then cleanLoop rooted false t out dotdot
    else cleanLoop rooted true t (out ++ [c]) dotdot
  | false, c :: t, out, dotdot =>
    if c = '/' then
      -- empty path element
      cleanLoop rooted false t out dotdot
    else if c = '.' ∧ (t = [] ∨ t.head? = some '/') then
      -- . element
      cleanLoop rooted false t out dotdot
    else
      match t with
      | d :: t2 =>
        if c = '.' ∧ d = '.' ∧ (t2 = [] ∨ t2.head? = some '/') then
          -- .. element: remove to last /
          if dotdot < out.length then
            cleanLoop rooted false t2
              (out.take (cleanBacktrack out dotdot (out.length - 1))) dotdot
          else if rooted then
            cleanLoop rooted false t2 out dotdot
          else
            let out1 := if 0 < out.length then out ++ ['/'] else out
            cleanLoop rooted false t2 (out1 ++ ['.', '.']) (out1.length + 2)
        else
          -- real path element: add slash if needed, copy element
          let out1 :=
            if (rooted ∧ out.length ≠ 1) ∨ (¬ rooted ∧ out.length ≠ 0) then out ++ ['/']
            else out
          cleanLoop rooted true (d :: t2) (out1 ++ [c]) dotdot
      | [] =>
        let out1 :=
          if (rooted ∧ out.length ≠ 1) ∨ (¬ rooted ∧ out.length ≠ 0) then out ++ ['/']
          else out
        cleanLoop rooted true [] (out1 ++ [c]) dotdot

/-- Go `path.Clean`. -/
def pathClean (path : Str) : Str :=
  match path with
  | [] => ['.']
  | c :: t =>
    let out :=
      if c = '/' then cleanLoop true false t ['/'] 1
      else cleanLoop false false (c :: t) [] 0
    if out = [] then ['.'] else out

/-- The directory part of Go `path.Split`: everything up to and including the
last slash. -/
def pathSplitDir (path : Str) : Str :=
  (path.reverse.dropWhile (fun c => c ≠ '/')).reverse

/-- Go `path.Dir`. -/
def pathDir (path : Str) : Str := pathClean (pathSplitDir path)

/-! ## `graphsplit.go` -/

/-- The fields of `Finfo` that `GenerateCar` and `BuildFileNode` read; `Info`
is `none` for a nil `os.FileInfo` and otherwise holds `Info.Size()`. -/
structure Finfo where
  Path : Str
  Name : Str
  Info : Option Nat
  SeekStart : Int
  SeekEnd : Int
  deriving DecidableEq, Repr

/-- The loop of `getDirKey`, with `n` iterations left (so `j = i - (n - 1)`).
`none` is the run-time panic of an index out of range. -/
def getDirKeyFrom (dirList : List Str) (i : Nat) : Nat → Str → Option Str
  | 0, key => some key
  | n + 1, key =>
    match dirList[i - n]? with
    | none => none
    | some s => getDirKeyFrom dirList i n (key ++ s ++ (if i - n < i then ['.'] else []))

/-- Go `getDirKey(dirList, i)` for `i ≥ 0`. -/
def getDirKey (dirList : List Str) (i : Nat) : Option Str :=
  getDirKeyFrom dirList i (i + 1) []

/-- The key under which `GenerateCar` stores the root node. -/
def rootKey : Str := "root".toList

/-- Lines 143-160 of `GenerateCar`: the segment list `dirList` of one file,
from the already cleaned `parentPath`. -/
def deriveDirList (parentPath : Str) (itemPath : Str) : List Str :=
  let dirStr := pathDir itemPath
  let dirStr :=
    if parentPath = pathClean itemPath then []
    else if parentPath ≠ [] ∧ stringsHasPrefix dirStr parentPath = true then
      dirStr.drop parentPath.length
    else dirStr
  let dirStr := if stringsHasPrefix dirStr ['/'] = true then dirStr.drop 1 else dirStr
  if dirStr = [] then [] else stringsSplit '/' dirStr

/-- A link of a `ProtoNode` (`format.Link`). -/
structure Link (C : Type) where
  Name : Str
  Size : Nat
  Cid : C
  deriving DecidableEq, Repr

/-- The part of `dag.ProtoNode` the assembly reads and writes: the data bytes
and the links, in the order in which they were added. -/
structure ProtoNode (C : Type) where
  data : List Nat
  links : List (Link C)
  deriving DecidableEq, Repr

/-- The build-time map `dirNodeMap`. Every key holds a node object of its
own, so an in-place update of the node behind a key is an update of the map
at that key. -/
abbrev DirNodeMap (C : Type) := Str → Option (ProtoNode C)

/-- Assignment `m[key] = node`. -/
def DirNodeMap.set {C : Type} (m : DirNodeMap C) (key : Str) (node : ProtoNode C) :
    DirNodeMap C :=
  fun k => if k = key then some node else m k

/-- The node of `unixfs.EmptyDirNode()`: the UnixFS directory marker as data,
no links. -/
def EmptyDirNode {C : Type} : ProtoNode C := ⟨[8, 1], []⟩

/-- Go `isLinked`, on the links of the node. -/
def isLinkedIn {C : Type} : List (Link C) → Str → Bool
  | [], _ => false
  | lk :: rest, name => if lk.Name = name then true else isLinkedIn rest name

/-- Go `isLinked(node, name)`. -/
def isLinked {C : Type} (node : ProtoNode C) (name : Str) : Bool :=
  isLinkedIn node.links name

section Assembly

variable {C : Type}

/- `format.MakeLink`: the link (size and CID) of a node, a function of the
node's content; the name is set by the caller. -/
variable (MakeLink : ProtoNode C → Link C)

/-- The method `ProtoNode.AddNodeLink(name, that)`: append a link to `that`
under `name`; no check for a link of that name. -/
def AddNodeLink (n : ProtoNode C) (name : Str) (that : ProtoNode C) : ProtoNode C :=
  { n with links := n.links ++ [{ MakeLink that with Name := name }] }

/-- The method `ProtoNode.RemoveNodeLink(name)`: drop every link called `name`. -/
def RemoveNodeLink (n : ProtoNode C) (name : Str) : ProtoNode C :=
  { n with links := n.links.filter (fun l => decide (l.Name ≠ name)) }

/-- The method `ProtoNode.UpdateNodeLink(name, that)`: a copy of the node in
which the links called `name` are removed and a link to `that` is appended. -/
def UpdateNodeLink (n : ProtoNode C) (name : Str) (that : ProtoNode C) : ProtoNode C :=
  AddNodeLink MakeLink (RemoveNodeLink n name) name that

/-- The idiom `node, ok = dirNodeMap[key]; if !ok { node = EmptyDirNode();
dirNodeMap[key] = node }`. -/
def getOrCreate (m : DirNodeMap C) (key : Str) : ProtoNode C × DirNodeMap C :=
  match m key with
  | some node => (node, m)
  | none => (EmptyDirNode, m.set key EmptyDirNode)

/-- The body of one iteration of the inner loop of `GenerateCar`, lines
182-210, once `dir`, `dirKey` and `parentKey` are computed; `isLast` is the test
`i == len(dirList)-1`. `dirNode` is the content of the node behind the Go
pointer of that name at the moment the link to it is made. -/
def dirStepCore (dir dirKey parentKey : Str) (isLast : Bool) (name : Str)
    (fileNode : ProtoNode C) (m : DirNodeMap C) : DirNodeMap C :=
  let dirNode0 := (getOrCreate m dirKey).1
  let m1 := (getOrCreate m dirKey).2
  -- add file node to its nearest parent node
  let dirNode := if isLast = true then AddNodeLink MakeLink dirNode0 name fileNode else dirNode0
  let m2 := if isLast = true then m1.set dirKey dirNode else m1
  let parentNode := (getOrCreate m2 parentKey).1
  let m3 := (getOrCreate m2 parentKey).2
  if isLinked parentNode dir = true then
    m3.set parentKey (UpdateNodeLink MakeLink parentNode dir dirNode)
  else
    m3.set parentKey (AddNodeLink MakeLink parentNode dir dirNode)

/-- One iteration (index `i`) of the inner loop of `GenerateCar`, lines
172-211; an index out of range is a run-time panic. -/
def dirStep (dirList : List Str) (name : Str) (fileNode : ProtoNode C) (i : Nat)
    (m : DirNodeMap C) : Outcome (DirNodeMap C) :=
  match dirList[i]?, getDirKey dirList i,
      (if i = 0 then some rootKey else getDirKey dirList (i - 1)) with
  | some dir, some dirKey, some parentKey =>
    .ok (dirStepCore MakeLink dir dirKey parentKey (decide (i = dirList.length - 1)) name
      fileNode m)
  | _, _, _ => .panic "index out of range"

/-- The inner loop `for ; i >= 0; i--` with `n` iterations left (`i = n - 1`). -/
def dirLoop (dirList : List Str) (name : Str) (fileNode : ProtoNode C) :
    Nat → DirNodeMap C → Outcome (DirNodeMap C)
  | 0, m => .ok m
  | i + 1, m =>
    match dirStep MakeLink dirList name fileNode i m with
    | .ok m1 => dirLoop dirList name fileNode i m1
    | e => e

/-- Lines 165-211 of `GenerateCar`: the file node is linked under the root
when `dirList` is empty, and otherwise the inner loop runs from the deepest
segment up. -/
def placeFile (dirList : List Str) (name : Str) (fileNode : ProtoNode C)
    (m : DirNodeMap C) : Outcome (DirNodeMap C) :=
  if dirList.length = 0 then
    match m rootKey with
    | some rootNode => .ok (m.set rootKey (AddNodeLink MakeLink rootNode name fileNode))
    | none => .panic "nil pointer dereference"
  else dirLoop MakeLink dirList name fileNode dirList.length m

/-- The body of the loop "build dir tree" for one file, lines 143-211, after
`parentPath` has been cleaned. -/
def assembleItem (fileNodeMap : Str → Option (ProtoNode C)) (parentPath : Str)
    (m : DirNodeMap C) (item : Finfo) : Outcome (DirNodeMap C) :=
  match fileNodeMap item.Path with
  | none => .panic "unexpected, missing file node"
  | some fileNode => placeFile MakeLink (deriveDirList parentPath item.Path) item.Name fileNode m

/-- The loop "build dir tree" of `GenerateCar`, lines 140-212; `parentPath`
is reassigned to its cleaned form in every iteration. -/
def assembleLoop (fileNodeMap : Str → Option (ProtoNode C)) :
    Str → DirNodeMap C → List Finfo → Outcome (DirNodeMap C)
  | _, m, [] => .ok m
  | parentPath, m, item :: rest =>
    let parentPath := pathClean parentPath
    match assembleItem MakeLink fileNodeMap parentPath m item with
    | .ok m1 => assembleLoop fileNodeMap parentPath m1 rest
    | e => e

/-- The map `dirNodeMap` as `GenerateCar` sets it up: the empty root node
under `rootKey`. -/
def initialDirNodeMap : DirNodeMap C :=
  DirNodeMap.set (fun _ => none) rootKey EmptyDirNode

/-- The directory assembly of `GenerateCar`: the final `dirNodeMap`. -/
def assemble (fileNodeMap : Str → Option (ProtoNode C)) (parentPath : Str)
    (fileList : List Finfo) : Outcome (DirNodeMap C) :=
  assembleLoop MakeLink fileNodeMap parentPath initialDirNodeMap fileList

end Assembly

/-- The struct `fileSlice`; `r` is the content of the open file. -/
structure fileSlice where
  r : List Nat
  offset : Int
  start : Int
  stop : Int
  fileSize : Int

/-- The method `fileSlice.Read(p)`, for a buffer of `len` bytes: the body is
`panic("implement me")`. -/
def fileSlice.Read (_f : fileSlice) (_len : Nat) : Outcome (List Nat) :=
  .panic "implement me"

/-- The reader `r` of `BuildFileNode`: the open file, or a `fileSlice` over it. -/
inductive FileReader where
  | file : List Nat → FileReader
  | slice : fileSlice → FileReader

/-- Whether the reader implements `files.FileInfo` (the methods `AbsPath()` and
`Stat() os.FileInfo`): neither `*os.File` nor `*fileSlice` does. -/
def FileReader.isFileInfo : FileReader → Bool
  | .file _ => false
  | .slice _ => false

/-- `UnixfsChunkSize`. -/
def UnixfsChunkSize : Nat := 2 ^ 20

/-- The error `ErrMissingFsRef` of `go-unixfs/importer/helpers`. -/
def ErrMissingFsRef : String := "missing file path or URL, can not create filestore reference"

/-- The method `DagBuilderParams.New(spl)` of `go-unixfs/importer/helpers`, as
far as it can fail: with `NoCopy` set, a splitter whose reader is no
`files.FileInfo` is refused with `ErrMissingFsRef`; nothing is read. -/
def DagBuilderParamsNew (NoCopy : Bool) (r : FileReader) : Outcome FileReader :=
  if NoCopy = true ∧ r.isFileInfo = false then .error ErrMissingFsRef else .ok r

/-- What the size splitter obtains from the reader when the layout asks for
the first chunk: it fills its buffer through `Read`; an `*os.File` yields the
file content. -/
def readThrough : FileReader → Outcome (List Nat)
  | .file content => .ok content
  | .slice f => f.Read UnixfsChunkSize

/-- A value of the interface type `ipld.Node`: a `*dag.ProtoNode`, or a node
of another type (with `RawLeaves` set, the raw leaf of a file of one chunk). -/
inductive IpldNode (C : Type) where
  | proto : ProtoNode C → IpldNode C
  | other : IpldNode C

section Build

variable {C : Type}

/- `format.MakeLink`, as above. -/
variable (MakeLink : ProtoNode C → Link C)

/- The file system: the content of the file at a path, `none` when `os.Open`
fails. -/
variable (openFile : Str → Option (List Nat))

/- `balanced.Layout` over the size splitter: the node built from the bytes
read, or an error. -/
variable (Layout : List Nat → Outcome (IpldNode C))

/-- The worker of a file panics: the file opens, the entry carries a byte
range, and `item.Info` is nil, so `item.Info.Size()` dereferences nil. -/
def workerPanics (item : Finfo) : Bool :=
  (openFile item.Path).isSome && decide (item.SeekStart > 0 ∨ item.SeekEnd > 0)
    && item.Info.isNone

/-- Go `BuildFileNode(item, ...)`. The parameters of the builder are those of
lines 269-275, with `NoCopy: true`. -/
def BuildFileNode (item : Finfo) : Outcome (IpldNode C) :=
  match openFile item.Path with
  | none => .error "open failed"
  | some content =>
    -- read all data of item
    let reader : Outcome FileReader :=
      if item.SeekStart > 0 ∨ item.SeekEnd > 0 then
        match item.Info with
        | some size => .ok (.slice ⟨content, 0, item.SeekStart, item.SeekEnd, size⟩)
        | none => .panic "nil pointer dereference"
      else .ok (.file content)
    match reader with
    | .ok r =>
      match DagBuilderParamsNew true r with
      | .ok r1 =>
        match readThrough r1 with
        | .ok bytes => Layout bytes
        | .error e => .error e
        | .panic e => .panic e
        | .fatal e => .fatal e
      | .error e => .error e
      | .panic e => .panic e
      | .fatal e => .fatal e
    | .error e => .error e
    | .panic e => .panic e
    | .fatal e => .fatal e

/-- The loop "build file node" of `GenerateCar`, lines 111-137, with the
workers run one after the other in list order: a failed build is logged and
its file left out of `fileNodeMap`, and so is a node that is no
`*dag.ProtoNode`; a panic in a worker ends the process. -/
def buildFileNodes : List Finfo → (Str → Option (ProtoNode C)) →
    Outcome (Str → Option (ProtoNode C))
  | [], fileNodeMap => .ok fileNodeMap
  | item :: rest, fileNodeMap =>
    match BuildFileNode openFile Layout item with
    | .ok (.proto fn) =>
      buildFileNodes rest (fun k => if k = item.Path then some fn else fileNodeMap k)
    | .ok .other => buildFileNodes rest fileNodeMap
    | .error _ => buildFileNodes rest fileNodeMap
    | .panic e => .panic e
    | .fatal e => .fatal e

/-- Go `GenerateCar`, lines 92-212: the map `dirNodeMap` after the loop "build
dir tree". `NumCPU` is the value of `runtime.NumCPU()`. The channel `pchan` has
the capacity `parallel` (at most `NumCPU`): a negative capacity makes
`make(chan ...)` panic, and with the capacity 0 every worker blocks in its
send, `wg.Wait()` does not return, and the runtime ends the process with the
fatal error of a deadlock. -/
def GenerateCarDirNodeMap (fileList : List Finfo) (parentPath : Str) (parallel NumCPU : Int) :
    Outcome (DirNodeMap C) :=
  let parallel := if parallel > NumCPU then NumCPU else parallel
  if parallel < 0 then .panic "makechan: size out of range"
  else if parallel = 0 ∧ fileList ≠ [] then .fatal "all goroutines are asleep - deadlock!"
  else
    match buildFileNodes openFile Layout fileList (fun _ => none) with
    | .ok fileNodeMap => assemble MakeLink fileNodeMap parentPath fileList
    | .error e => .error e
    | .panic e => .panic e
    | .fatal e => .fatal e

/-- Go `GenerateCar`, up to `rootNode = dirNodeMap[rootKey]` (line 220): the
root node of the assembled tree. The lines after it write the tree of this
root out and describe it; they add no way to a root. -/
def GenerateCar (fileList : List Finfo) (parentPath : Str) (parallel NumCPU : Int) :
    Outcome (ProtoNode C) :=
  match GenerateCarDirNodeMap MakeLink openFile Layout fileList parentPath parallel NumCPU with
  | .ok dirNodeMap =>
    match dirNodeMap rootKey with
    | some rootNode => .ok rootNode
    | none => .panic "nil pointer dereference"
  | .error e => .error e
  | .panic e => .panic e
  | .fatal e => .fatal e

end Build

/-! ## `stream-commp.go` -/

/-- The loop of Go `binary.Uvarint` over the rest of the buffer, at index `i`
with accumulator `x` and shift `s`. The second component is the byte count,
zero or negative for a buffer too small or a value that overflows 64 bits. -/
def uvarintLoop : List Nat → Nat → Nat → Nat → Nat × Int
  | [], _, _, _ => (0, 0)
  | b :: rest, i, x, s =>
    if i = 10 then (0, -((i : Int) + 1))
    else if b < 0x80 then
      if i = 9 ∧ b > 1 then (0, -((i : Int) + 1))
      else ((x ||| (b <<< s) % 2 ^ 64), (i : Int) + 1)
    else uvarintLoop rest (i + 1) (x ||| ((b &&& 0x7f) <<< s) % 2 ^ 64) (s + 7)

/-- Go `binary.Uvarint`. -/
def Uvarint (buf : List Nat) : Nat × Int := uvarintLoop buf 0 0 0

/-- The struct `CarHeader`; a root is the byte string of its CID. -/
structure CarHeader where
  Roots : List (List Nat)
  Version : Nat
  deriving DecidableEq, Repr

/-- The variables of the speculative parse, and the part of the stream not
yet read from `streamBuf`. -/
structure Scan where
  rest : List Nat
  streamLen : Nat
  blockCount : Nat
  brokenCar : Bool
  deriving DecidableEq, Repr

/-- The frame loop of `CalculateCommp`, lines 69-106. `none` when the fuel of
the embedding is used up. -/
def frameLoop : Nat → Scan → Option Scan
  | 0, _ => none
  | fuel + 1, sc =>
    -- Peek(10) ends in io.EOF when fewer than 10 bytes are left
    if sc.rest.length < 10 then some sc
    else
      let maybeNextFrameLen := sc.rest.take 10
      let frameLen := (Uvarint maybeNextFrameLen).1
      let viLen := (Uvarint maybeNextFrameLen).2
      if viLen ≤ 0 then
        -- car file with trailing garbage behind it
        some { sc with brokenCar := true }
      else if frameLen > 2 <<< 20 then
        -- anything over ~2MiB got to be a mistake
        some { sc with brokenCar := true }
      else
        let want := viLen.toNat + frameLen
        let actualFrameLen := min want sc.rest.length
        let sc1 := { sc with rest := sc.rest.drop want, streamLen := sc.streamLen + actualFrameLen }
        if actualFrameLen < want then
          -- truncated frame
          some { sc1 with brokenCar := true }
        else frameLoop fuel { sc1 with blockCount := sc1.blockCount + 1 }

/-- The constant `maxAlloc` of the Go runtime on 64-bit Linux (48 address
bits): the largest size of one allocation. -/
def maxAlloc : Nat := 2 ^ 48

/-- Go `make([]byte, n)` for `n` of type `uint64`: a length over `maxAlloc`
(among them every length that does not fit the type `int`) is a run-time
panic, and a length that the runtime cannot obtain from the system (more than
`memLimit` bytes) ends the process with the fatal error `out of memory`. -/
def makeSlice (memLimit : Nat) (n : Nat) : Outcome Unit :=
  if n > maxAlloc then .panic "makeslice: len out of range"
  else if n > memLimit then .fatal "runtime: out of memory"
  else .ok ()

/-- The speculative parse of `CalculateCommp`, lines 48-113: the scan
variables and `carHdr`. `none` when the fuel is used up. -/
def speculativeParse (memLimit : Nat) (DecodeInto : List Nat → Option CarHeader)
    (stream : List Nat) : Option (Outcome (Scan × Option CarHeader)) :=
  let sc0 : Scan := ⟨stream, 0, 0, false⟩
  if stream.length < 10 then some (.ok (sc0, none))
  else
    let maybeHeaderLen := stream.take 10
    let hdrLen := (Uvarint maybeHeaderLen).1
    let viLen := (Uvarint maybeHeaderLen).2
    if viLen > 0 ∧ hdrLen > 0 then
      let actualViLen := min viLen.toNat stream.length
      let sc1 : Scan := { sc0 with rest := stream.drop viLen.toNat, streamLen := actualViLen }
      if actualViLen < viLen.toNat then some (.ok (sc1, none))
      else
        match makeSlice memLimit hdrLen with
        | .ok _ =>
          let hdrBuf := sc1.rest.take hdrLen
          let actualHdrLen := min hdrLen sc1.rest.length
          let sc2 : Scan :=
            { sc1 with rest := sc1.rest.drop hdrLen, streamLen := sc1.streamLen + actualHdrLen }
          if actualHdrLen < hdrLen then some (.ok (sc2, none))
          else
            match DecodeInto hdrBuf with
            | none => some (.ok (sc2, none))
            | some carHdr =>
              if carHdr.Version = 1 then
                match frameLoop (sc2.rest.length + 1) sc2 with
                | some sc3 => some (.ok (sc3, some carHdr))
                | none => none
              else some (.ok (sc2, some carHdr))
        | .error e => some (.error e)
        | .panic e => some (.panic e)
        | .fatal e => some (.fatal e)
    else some (.ok (sc0, none))

/-- What `CalculateCommp` reports on standard error, with the CID it returns. -/
structure Report (K : Type) where
  commCid : K
  streamLen : Nat
  unpaddedSize : Nat
  paddedSize : Nat
  carHdr : Option CarHeader
  brokenCar : Bool
  blockCount : Nat
  deriving DecidableEq, Repr

section Commp

variable {D K : Type}

/- The bytes that the Go runtime can obtain for one allocation. -/
variable (memLimit : Nat)

/- `cbor.DecodeInto(hdrBuf, carHdr)`: the decoded header, `none` on error. -/
variable (DecodeInto : List Nat → Option CarHeader)

/- `commp.Calc`: the raw commitment and the padded size of all bytes written,
`none` when `Digest()` returns an error. -/
variable (Digest : List Nat → Option (D × Nat))

/- `commcid.DataCommitmentV1ToCID`, `none` on error. -/
variable (DataCommitmentV1ToCID : D → Option K)

/-- Go `CalculateCommp(reader)` over a reader that yields `stream` and then
`io.EOF`. `none` when the fuel of the embedding is used up. -/
def CalculateCommp (stream : List Nat) : Option (Outcome (Report K)) :=
  match speculativeParse memLimit DecodeInto stream with
  | none => none
  | some (.ok (sc, carHdr)) =>
    -- read out remainder into the hasher, if any
    let n := sc.rest.length
    let streamLen := sc.streamLen + n
    match Digest stream with
    | none => some (.fatal "Digest")
    | some (rawCommP, paddedSize) =>
      match DataCommitmentV1ToCID rawCommP with
      | none => some (.fatal "DataCommitmentV1ToCID")
      | some commCid =>
        some (.ok ⟨commCid, streamLen, paddedSize / 128 * 127, paddedSize, carHdr,
          sc.brokenCar, sc.blockCount⟩)
  | some (.error e) => some (.error e)
  | some (.panic e) => some (.panic e)
  | some (.fatal e) => some (.fatal e)

end Commp

/-! ## The writer side of the framing -/

/-- Go `binary.PutUvarint`: the varint encoding of `x`, in at most `fuel`
bytes (ten bytes hold every 64-bit value). -/
def putUvarint : Nat → Nat → List Nat
  | 0, _ => []
  | fuel + 1, x => if x < 0x80 then [x] else (x % 0x80 + 0x80) :: putUvarint fuel (x / 0x80)

/-! ## Symbolic nodes and identifiers -/

/-- A symbolic content identifier: the content it was made from. Distinct
contents have distinct identifiers. -/
inductive SymCid where
  | mk : List Nat → List (Str × SymCid) → SymCid

/-- The links of a node as (name, identifier) pairs. -/
def symLinks : List (Link SymCid) → List (Str × SymCid)
  | [] => []
  | l :: rest => (l.Name, l.Cid) :: symLinks rest

/-- A collision-free `MakeLink`: the identifier is the node content itself. -/
def symMakeLink (n : ProtoNode SymCid) : Link SymCid :=
  ⟨[], 0, SymCid.mk n.data (symLinks n.links)⟩

/-- A file entry without byte range. -/
def plainFile (path name : String) : Finfo := ⟨path.toList, name.toList, some 5, 0, 0⟩

/-- A file node holding the given bytes as one raw leaf. -/
def leafNode (bytes : List Nat) : ProtoNode SymCid := ⟨bytes, []⟩

/-- A layout that succeeds with a `*dag.ProtoNode` holding the bytes. -/
def protoLayout (bytes : List Nat) : Outcome (IpldNode SymCid) := .ok (.proto (leafNode bytes))

/-- The three files of scenario A. -/
def scenarioFiles : List Finfo :=
  [plainFile "a.txt" "a.txt", plainFile "dir/b.txt" "b.txt", plainFile "dir/sub/c.txt" "c.txt"]

/-- The link names of the node under a key, `none` when the key is absent or
the assembly did not return. -/
def linkNamesAt {C : Type} (r : Outcome (DirNodeMap C)) (key : String) : Option (List String) :=
  match r with
  | .ok m => (m key.toList).map (fun n => n.links.map (fun l => String.mk l.Name))
  | _ => none

/-- The ten bytes that `binary.Uvarint` decodes to `2^64 - 1`. -/
def hugeHeaderLen : List Nat := [255, 255, 255, 255, 255, 255, 255, 255, 255, 1]

/-! ## The loop "build dir tree" over a given map of file nodes: directory keys in closed form -/

/-- The segments joined with dots: the key `getDirKey` builds. -/
def joinDot : List Str → Str
  | [] => []
  | [s] => s
  | s :: s2 :: t => s ++ '.' :: joinDot (s2 :: t)

/-- The key of the directory with segment prefix `p`; the root for `[]`. -/
def dkey (p : List Str) : Str := if p = [] then rootKey else joinDot p

/-- The node behind a key, the empty directory node for an absent key. -/
def nodeAt {C : Type} (m : DirNodeMap C) (key : Str) : ProtoNode C :=
  (m key).getD EmptyDirNode

/-! ## The effect of placing one file -/

section

variable {C : Type} (MakeLink : ProtoNode C → Link C)

/-- The node that placing a file leaves behind the key of the prefix `pre`,
when `suf` are the segments below it: the file link is added at the deepest
directory, and every directory above gets its link to the new child. -/
def newNode (m : DirNodeMap C) (name : Str) (f : ProtoNode C) :
    List Str → List Str → ProtoNode C
  | pre, [] => AddNodeLink MakeLink (nodeAt m (dkey pre)) name f
  | pre, s :: suf =>
    UpdateNodeLink MakeLink (nodeAt m (dkey pre)) s (newNode m name f (pre ++ [s]) suf)

/-- The new node for the prefix of length `j` of `d`. -/
def newAt (m : DirNodeMap C) (d : List Str) (name : Str) (f : ProtoNode C) (j : Nat) :
    ProtoNode C :=
  newNode MakeLink m name f (d.take j) (d.drop j)

/-- What placing one file does to the map: the keys of the prefixes of
`dirList` get their new nodes, every other key keeps its node. -/
def PlaceSpec (m : DirNodeMap C) (d : List Str) (name : Str) (f : ProtoNode C)
    (m1 : DirNodeMap C) : Prop :=
  (∀ j, j ≤ d.length → m1 (dkey (d.take j)) = some (newAt MakeLink m d name f j))
    ∧ ∀ x, (∀ j, j ≤ d.length → x ≠ dkey (d.take j)) → m1 x = m x

/-- The keys along one path are pairwise distinct. -/
def ChainDistinct (d : List Str) : Prop :=
  ∀ a b, a ≤ d.length → b ≤ d.length → dkey (d.take a) = dkey (d.take b) → a = b

/-- The state of the map when the inner loop has `i` iterations left. -/
def LoopState (m : DirNodeMap C) (d : List Str) (name : Str) (f : ProtoNode C) (i : Nat)
    (m1 : DirNodeMap C) : Prop :=
  (∀ j, i ≤ j → j ≤ d.length → m1 (dkey (d.take j)) = some (newAt MakeLink m d name f j))
    ∧ ∀ x, (∀ j, i ≤ j → j ≤ d.length → x ≠ dkey (d.take j)) → m1 x = m x

end

/-! ## The invariant of the assembly loop -/

/-- One file as the assembly sees it: its segment list, its name and its
built node. -/
structure Entry (C : Type) where
  dirList : List Str
  name : Str
  node : ProtoNode C

/-- The prefix `p` is a directory of the segment lists `ds`. -/
def IsDir (ds : List (List Str)) (p : List Str) : Prop := ∃ d ∈ ds, p <+: d

/-- The prefix `p` is the root or a directory of `ds`. -/
def Known (ds : List (List Str)) (p : List Str) : Prop := p = [] ∨ IsDir ds p

/-- Distinct known directories have distinct keys. -/
def KeyInj (ds : List (List Str)) : Prop :=
  ∀ p q, Known ds p → Known ds q → dkey p = dkey q → p = q

/-- No file has the name and place of a directory. -/
def NoClash (ls : List (List Str × Str)) : Prop :=
  ∀ a ∈ ls, ∀ b ∈ ls, ¬ (a.1 ++ [a.2]) <+: b.1

section

variable {C : Type} (MakeLink : ProtoNode C → Link C)

/-- The link that `AddNodeLink` appends. -/
def mkLink (name : Str) (that : ProtoNode C) : Link C := { MakeLink that with Name := name }

/-- The segment lists of the entries. -/
def dirsOf (es : List (Entry C)) : List (List Str) := es.map Entry.dirList

/-- The places (segment list and name) of the entries. -/
def locsOf (es : List (Entry C)) : List (List Str × Str) := es.map (fun e => (e.dirList, e.name))

/-- The invariant of the assembly loop, between two files: the map holds
exactly the root and the directories of the files placed so far, and the node
of a directory has exactly the links of its files and of its subdirectories,
each subdirectory link made from the node now stored for it. -/
structure Inv (es : List (Entry C)) (m : DirNodeMap C) : Prop where
  dom1 : ∀ p, Known (dirsOf es) p → ∃ node, m (dkey p) = some node
  dom2 : ∀ x node, m x = some node → ∃ p, Known (dirsOf es) p ∧ x = dkey p
  data : ∀ x node, m x = some node → node.data = [8, 1]
  dirs : ∀ p s, IsDir (dirsOf es) (p ++ [s]) →
    mkLink MakeLink s (nodeAt m (dkey (p ++ [s]))) ∈ (nodeAt m (dkey p)).links
  only : ∀ p, Known (dirsOf es) p → ∀ l ∈ (nodeAt m (dkey p)).links,
    (∃ e ∈ es, e.dirList = p ∧ l = mkLink MakeLink e.name e.node)
      ∨ ∃ s, IsDir (dirsOf es) (p ++ [s]) ∧ l = mkLink MakeLink s (nodeAt m (dkey (p ++ [s])))
  files : NoClash (locsOf es) → ∀ e ∈ es,
    mkLink MakeLink e.name e.node ∈ (nodeAt m (dkey e.dirList)).links
  nodup : NoClash (locsOf es) → (locsOf es).Nodup → ∀ p, Known (dirsOf es) p →
    ((nodeAt m (dkey p)).links.map Link.Name).Nodup

end

/-! ## One step of the assembly loop -/

section

variable {C : Type} (MakeLink : ProtoNode C → Link C)

/-- The setting of one step of the assembly: the invariant holds for the
entries `es` and the map `m`, and `m1` is the map after placing `e`. -/
structure Step (es : List (Entry C)) (e : Entry C) (m m1 : DirNodeMap C) : Prop where
  keys : KeyInj (dirsOf es ++ [e.dirList])
  inv : Inv MakeLink es m
  spec : PlaceSpec MakeLink m e.dirList e.name e.node m1

end

/-! ## The whole loop -/

section

variable {C : Type} (MakeLink : ProtoNode C → Link C)

/-- The assembly loop over files whose segment lists and nodes are given. -/
def placeAll : DirNodeMap C → List (Entry C) → Outcome (DirNodeMap C)
  | m, [] => .ok m
  | m, e :: rest =>
    match placeFile MakeLink e.dirList e.name e.node m with
    | .ok m1 => placeAll m1 rest
    | other => other

end

/-! ## The shape of a cleaned path -/

/-- The path elements joined with slashes. -/
def joinSlash : List Str → Str
  | [] => []
  | [s] => s
  | s :: s2 :: t => s ++ '/' :: joinSlash (s2 :: t)

/-- The element `..`. -/
def dotdot : Str := ['.', '.']

/-- A path element that `path.Clean` copies: not empty, without slash, and
neither `.` nor `..`. -/
def Normal (s : Str) : Prop := s ≠ [] ∧ '/' ∉ s ∧ s ≠ ['.'] ∧ s ≠ dotdot

/-- The leading slash of a rooted path. -/
def rootOf (r : Bool) : Str := if r = true then ['/'] else []

/-- The buffer that holds the given elements. -/
def render (r : Bool) (cs : List Str) : Str := rootOf r ++ joinSlash cs

/-- The elements of the buffer: `k` leading `..` and the copied elements. -/
def stackOf (st : Nat × List Str) : List Str := List.replicate st.1 dotdot ++ st.2

/-- The effect of one path element on the element stack. -/
def astep (r : Bool) (st : Nat × List Str) (c : Str) : Nat × List Str :=
  if c = [] ∨ c = ['.'] then st
  else if c = dotdot then
    if st.2 ≠ [] then (st.1, st.2.dropLast)
    else if r = true then st
    else (st.1 + 1, [])
  else (st.1, st.2 ++ [c])

/-- A stack as `path.Clean` builds it. -/
def Good (r : Bool) (st : Nat × List Str) : Prop :=
  (r = true → st.1 = 0) ∧ ∀ s ∈ st.2, Normal s

/-- The rest of the path after an element: nothing, or a slash and more. -/
def IsTail (t : Str) : Prop := t = [] ∨ t.head? = some '/'

/-- The buffer with the separating slash that the default case adds. -/
def sepOut (r : Bool) (out : Str) : Str :=
  if (r = true ∧ out.length ≠ 1) ∨ (¬ r = true ∧ out.length ≠ 0) then out ++ ['/'] else out

/-- The buffer of a stack. -/
def buf (r : Bool) (st : Nat × List Str) : Str := render r (stackOf st)

/-- The index `dotdot` of a stack: the length of the part that may not be cut. -/
def ddv (r : Bool) (st : Nat × List Str) : Nat :=
  (render r (List.replicate st.1 dotdot)).length

/-- The stack after the path elements `cs`. -/
def afold (r : Bool) (st : Nat × List Str) (cs : List Str) : Nat × List Str :=
  cs.foldl (astep r) st

/-! ## Conditions on a file list -/

/-- The segment list that `GenerateCar` derives for a file. -/
def dirListOf (parentPath : Str) (item : Finfo) : List Str :=
  deriveDirList (pathClean parentPath) item.Path

/-- The place of a file: its segment list and its name. -/
def placeOf (parentPath : Str) (item : Finfo) : List Str × Str :=
  (dirListOf parentPath item, item.Name)

/-- The keys of the directories do not collide: no `getDirKey` result is the
root key, and equal results come from equal segment prefixes. -/
def KeysDistinct (ds : List (List Str)) : Prop :=
  ∀ d1 ∈ ds, ∀ d2 ∈ ds, ∀ i < d1.length, ∀ j < d2.length,
    getDirKey d1 i ≠ some rootKey
      ∧ (getDirKey d1 i = getDirKey d2 j → d1.take (i + 1) = d2.take (j + 1))

instance (ds : List (List Str)) : Decidable (KeysDistinct ds) := by
  unfold KeysDistinct; infer_instance

/-- No file has the place and name of a directory of the list. -/
def NoFileDirClash (ls : List (List Str × Str)) : Prop :=
  ∀ a ∈ ls, ∀ b ∈ ls, (a.1 ++ [a.2]).isPrefixOf b.1 = false

instance (ls : List (List Str × Str)) : Decidable (NoFileDirClash ls) := by
  unfold NoFileDirClash; infer_instance

section

variable {C : Type} (MakeLink : ProtoNode C → Link C)

/-- The entry of a file of the list, once its node is built. -/
def entryOf (fileNodeMap : Str → Option (ProtoNode C)) (parentPath : Str) (item : Finfo) :
    Entry C :=
  ⟨dirListOf parentPath item, item.Name, (fileNodeMap item.Path).getD EmptyDirNode⟩

end

/-! ## Links along the segments of a file -/

section

variable {C : Type} (MakeLink : ProtoNode C → Link C)

/-- Along the segments `suf`, starting at `node`, every node holds a link
made from the node that the map holds under the key of the next directory, and
the last of these nodes holds the link named `name` made from the file node;
`pre` are the segments passed so far. -/
def Follows (m : DirNodeMap C) (name : Str) (fileNode : ProtoNode C) :
    List Str → List Str → ProtoNode C → Prop
  | _, [], node => mkLink MakeLink name fileNode ∈ node.links
  | pre, s :: suf, node =>
    ∃ key child, getDirKey (pre ++ [s]) pre.length = some key ∧ m key = some child
      ∧ mkLink MakeLink s child ∈ node.links
      ∧ Follows m name fileNode (pre ++ [s]) suf child

end

/-! ## The framing of an archive -/

/-- One frame of the archive: `varint(len(CIDBytes)+len(nodeBytes)) || CIDBytes
|| nodeBytes`. -/
def frameBytes (cid data : List Nat) : List Nat :=
  putUvarint 10 (cid.length + data.length) ++ cid ++ data

/-- The frames of an archive, one after the other. -/
def framesBytes : List (List Nat × List Nat) → List Nat
  | [] => []
  | f :: rest => frameBytes f.1 f.2 ++ framesBytes rest

/-- An archive: the length-prefixed header followed by the frames. -/
def carStream (hdr : List Nat) (frames : List (List Nat × List Nat)) : List Nat :=
  putUvarint 10 hdr.length ++ hdr ++ framesBytes frames

/-! ## Sample inputs of the assembly -/

/-- Built file nodes for every path: one raw leaf holding the bytes of the path. -/
def sampleNodes (p : Str) : Option (ProtoNode SymCid) := some (leafNode (p.map Char.toNat))

/-- A `MakeLink` that does not depend on the order of the links: a checksum
over the data bytes and, for every link, its name and its CID. -/
def checksumLink (n : ProtoNode Nat) : Link Nat :=
  ⟨[], n.data.length,
    n.data.sum + (n.links.map (fun l => l.Cid + (l.Name.map Char.toNat).sum)).sum⟩

/-- Built file nodes with checksum identifiers. -/
def checksumNodes (p : Str) : Option (ProtoNode Nat) := some ⟨p.map Char.toNat, []⟩

/-- The links of the root node as (name, identifier) pairs. -/
def rootLinks (r : Outcome (DirNodeMap SymCid)) : Option (List (String × SymCid)) :=
  match r with
  | .ok m => (m rootKey).map (fun n => n.links.map (fun l => (String.mk l.Name, l.Cid)))
  | _ => none

/-! ## Sample archives -/

/-- The DAG-CBOR encoding of the header `{roots: [], version: 1}`. -/
def emptyRootsHeader : List Nat :=
  [0xa2, 0x65, 0x72, 0x6f, 0x6f, 0x74, 0x73, 0x80, 0x67, 0x76, 0x65, 0x72, 0x73, 0x69, 0x6f,
    0x6e, 0x01]

/-- A decoder that knows the header `emptyRootsHeader` and rejects every other
byte string. -/
def sampleDecode (hdrBuf : List Nat) : Option CarHeader :=
  if hdrBuf = emptyRootsHeader then some ⟨[], 1⟩ else none

/-- The bytes of a CIDv1 (dag-pb, sha2-256) with a constant digest. -/
def sampleCid : List Nat := [1, 0x70, 0x12, 0x20] ++ List.replicate 32 7

/-- The bytes of a CIDv1 (raw, identity hash) of the empty block. -/
def emptyBlockCid : List Nat := [1, 0x55, 0, 0]

/-- Node bytes of 2 MiB. -/
def largeNode : List Nat := List.replicate (2 <<< 20) 0

/-! ## The source at particular inputs, and `GenerateCar` in closed form -/

/-- C10. `getDirKey` does not identify directories uniquely: the directory
`a.b` at depth 0 and the directory `a/b` at depth 1 get the same key although
their segment prefixes differ, and the top-level directory `root` gets the key
under which the root node is stored. -/
theorem getDirKey_collides :
    getDirKey ["a.b".toList] 0 = getDirKey ["a".toList, "b".toList] 1
      ∧ ["a.b".toList].take 1 ≠ ["a".toList, "b".toList].take 2
      ∧ getDirKey ["root".toList] 0 = some rootKey := by
  decide

/-- C4. With the empty parent path of `main`, the file `.git/config` has the
one directory segment `.git`, but the derived `dirList` is `["git"]`:
`path.Clean("")` is `"."`, which the prefix test then strips from the
directory name. -/
theorem deriveDirList_strips_leading_dot :
    pathClean "".toList = ".".toList
      ∧ "".toList ++ ".git".toList ++ "/".toList ++ "config".toList = ".git/config".toList
      ∧ deriveDirList (pathClean "".toList) ".git/config".toList = ["git".toList]
      ∧ deriveDirList (pathClean "".toList) ".git/config".toList ≠ [".git".toList] := by
  decide

/-- `dirStep` returns a map or panics. -/
theorem dirStep_ok_or_panic {C : Type} (MakeLink : ProtoNode C → Link C) (dirList : List Str)
    (name : Str) (fileNode : ProtoNode C) (i : Nat) (m : DirNodeMap C) :
    (∃ m1, dirStep MakeLink dirList name fileNode i m = .ok m1)
      ∨ ∃ e, dirStep MakeLink dirList name fileNode i m = .panic e := by
  unfold dirStep
  split <;> simp

/-- `dirLoop` returns a map or panics. -/
theorem dirLoop_ok_or_panic {C : Type} (MakeLink : ProtoNode C → Link C) (dirList : List Str)
    (name : Str) (fileNode : ProtoNode C) (n : Nat) (m : DirNodeMap C) :
    (∃ m1, dirLoop MakeLink dirList name fileNode n m = .ok m1)
      ∨ ∃ e, dirLoop MakeLink dirList name fileNode n m = .panic e := by
  induction n generalizing m with
  | zero => exact Or.inl ⟨m, rfl⟩
  | succ i ih =>
    rcases dirStep_ok_or_panic MakeLink dirList name fileNode i m with ⟨m1, h⟩ | ⟨e, h⟩
    · simp only [dirLoop, h]; exact ih m1
    · exact Or.inr ⟨e, by simp only [dirLoop, h]⟩

/-- `assembleItem` returns a map or panics. -/
theorem assembleItem_ok_or_panic {C : Type} (MakeLink : ProtoNode C → Link C)
    (fileNodeMap : Str → Option (ProtoNode C)) (parentPath : Str) (m : DirNodeMap C)
    (item : Finfo) :
    (∃ m1, assembleItem MakeLink fileNodeMap parentPath m item = .ok m1)
      ∨ ∃ e, assembleItem MakeLink fileNodeMap parentPath m item = .panic e := by
  unfold assembleItem
  cases fileNodeMap item.Path with
  | none => simp
  | some fileNode =>
    simp only [placeFile]
    by_cases hlen : (deriveDirList parentPath item.Path).length = 0
    · cases m rootKey <;> simp [hlen]
    · simp only [hlen, if_false]
      exact dirLoop_ok_or_panic MakeLink _ _ _ _ _

/-- A file without a node in `fileNodeMap` makes the assembly loop panic. -/
theorem assembleLoop_missing_node {C : Type} (MakeLink : ProtoNode C → Link C)
    (fileNodeMap : Str → Option (ProtoNode C)) (fileList : List Finfo) (item : Finfo)
    (hmem : item ∈ fileList) (hnone : fileNodeMap item.Path = none) (parentPath : Str)
    (m : DirNodeMap C) :
    ∃ e, assembleLoop MakeLink fileNodeMap parentPath m fileList = .panic e := by
  induction fileList generalizing parentPath m with
  | nil => simp at hmem
  | cons x rest ih =>
    rcases assembleItem_ok_or_panic MakeLink fileNodeMap (pathClean parentPath) m x with
      ⟨m1, h⟩ | ⟨e, h⟩
    · rcases List.mem_cons.mp hmem with rfl | hin
      · simp [assembleItem, hnone] at h
      · simp only [assembleLoop, h]; exact ih hin _ _
    · exact ⟨e, by simp only [assembleLoop, h]⟩

/-- `BuildFileNode` in closed form: it panics for an entry with a byte range
and a nil `Info`, and it returns an error for every other entry, `ErrMissingFsRef`
when the file opens. It never returns a node and never reads. -/
theorem BuildFileNode_eq {C : Type} (openFile : Str → Option (List Nat))
    (Layout : List Nat → Outcome (IpldNode C)) (item : Finfo) :
    BuildFileNode openFile Layout item
      = if workerPanics openFile item = true then .panic "nil pointer dereference"
        else if (openFile item.Path).isSome = true then .error ErrMissingFsRef
        else .error "open failed" := by
  unfold BuildFileNode workerPanics
  cases hopen : openFile item.Path with
  | none => simp
  | some content =>
    by_cases hrange : item.SeekStart > 0 ∨ item.SeekEnd > 0
    · cases hinfo : item.Info with
      | none => simp [hrange]
      | some size => simp [hrange, DagBuilderParamsNew, FileReader.isFileInfo]
    · simp [hrange, DagBuilderParamsNew, FileReader.isFileInfo]

/-- The build loop in closed form: it panics when the worker of some file
panics, and otherwise it leaves `fileNodeMap` as it was: no file gets a node. -/
theorem buildFileNodes_eq {C : Type} (openFile : Str → Option (List Nat))
    (Layout : List Nat → Outcome (IpldNode C)) (fileList : List Finfo)
    (fm : Str → Option (ProtoNode C)) :
    buildFileNodes openFile Layout fileList fm
      = if fileList.any (workerPanics openFile) = true then .panic "nil pointer dereference"
        else .ok fm := by
  induction fileList with
  | nil => rfl
  | cons x rest ih =>
    rw [buildFileNodes, BuildFileNode_eq]
    by_cases hx : workerPanics openFile x = true
    · simp [hx]
    · by_cases ho : (openFile x.Path).isSome = true
      · simp only [hx, ho, if_true, if_false, ih, List.any_cons, Bool.not_eq_true] at *
        simp [hx]
      · simp only [hx, ho, if_false, ih, List.any_cons, Bool.not_eq_true] at *
        simp [hx]

/-- The assembly over the empty map of file nodes: the root alone for the
empty list, the panic of line 163 for every other list. -/
theorem assemble_no_nodes {C : Type} (MakeLink : ProtoNode C → Link C) (parentPath : Str)
    (fileList : List Finfo) :
    assemble MakeLink (fun _ => none) parentPath fileList
      = if fileList = [] then .ok initialDirNodeMap
        else .panic "unexpected, missing file node" := by
  cases fileList with
  | nil => rfl
  | cons x rest => simp [assemble, assembleLoop, assembleItem]

/-- The map `dirNodeMap` of `GenerateCar` in closed form: the loop "build dir
tree" ends only for the empty file list. -/
theorem GenerateCarDirNodeMap_eq {C : Type} (MakeLink : ProtoNode C → Link C)
    (openFile : Str → Option (List Nat)) (Layout : List Nat → Outcome (IpldNode C))
    (fileList : List Finfo) (parentPath : Str) (parallel NumCPU : Int) :
    GenerateCarDirNodeMap MakeLink openFile Layout fileList parentPath parallel NumCPU
      = if (if parallel > NumCPU then NumCPU else parallel) < 0 then
          .panic "makechan: size out of range"
        else if (if parallel > NumCPU then NumCPU else parallel) = 0 ∧ fileList ≠ [] then
          .fatal "all goroutines are asleep - deadlock!"
        else if fileList.any (workerPanics openFile) = true then
          .panic "nil pointer dereference"
        else if fileList = [] then .ok initialDirNodeMap
        else .panic "unexpected, missing file node" := by
  unfold GenerateCarDirNodeMap
  simp only [buildFileNodes_eq]
  split_ifs <;> simp_all [assemble_no_nodes]

/-- `GenerateCar` returns a root only for the empty file list. -/
theorem GenerateCar_ok_nil {C : Type} (MakeLink : ProtoNode C → Link C)
    (openFile : Str → Option (List Nat)) (Layout : List Nat → Outcome (IpldNode C))
    (fileList : List Finfo) (parentPath : Str) (parallel NumCPU : Int) (root : ProtoNode C)
    (h : GenerateCar MakeLink openFile Layout fileList parentPath parallel NumCPU = .ok root) :
    fileList = [] := by
  unfold GenerateCar at h
  rw [GenerateCarDirNodeMap_eq] at h
  by_contra hne
  split_ifs at h

/-- For a file list that is not empty and a channel capacity of at least one,
`GenerateCar` ends in a panic. -/
theorem GenerateCar_panics_of_ne_nil {C : Type} (MakeLink : ProtoNode C → Link C)
    (openFile : Str → Option (List Nat)) (Layout : List Nat → Outcome (IpldNode C))
    (fileList : List Finfo) (parentPath : Str) (parallel NumCPU : Int)
    (hne : fileList ≠ []) (hpar : 0 < parallel) (hcpu : 0 < NumCPU) :
    ∃ e, GenerateCar MakeLink openFile Layout fileList parentPath parallel NumCPU = .panic e := by
  unfold GenerateCar
  rw [GenerateCarDirNodeMap_eq]
  have h1 : ¬ (if parallel > NumCPU then NumCPU else parallel) < 0 := by
    split_ifs <;> omega
  have h2 : ¬ ((if parallel > NumCPU then NumCPU else parallel) = 0 ∧ fileList ≠ []) := by
    rintro ⟨h, _⟩
    split_ifs at h <;> omega
  simp only [h1, h2, if_false, hne]
  split_ifs <;> exact ⟨_, rfl⟩

/-- C5. A file that cannot be opened does not get skipped: its build returns
an error, and whatever the other files are, `GenerateCar` returns no root;
with a channel capacity of at least one (`main` passes 1) it ends in a panic. -/
theorem GenerateCar_unreadable_file_panics {C : Type} (MakeLink : ProtoNode C → Link C)
    (openFile : Str → Option (List Nat)) (Layout : List Nat → Outcome (IpldNode C))
    (fileList : List Finfo) (parentPath : Str) (parallel NumCPU : Int) (item : Finfo)
    (hmem : item ∈ fileList) (hopen : openFile item.Path = none) :
    BuildFileNode openFile Layout item = .error "open failed"
      ∧ (∀ root, GenerateCar MakeLink openFile Layout fileList parentPath parallel NumCPU
          ≠ .ok root)
      ∧ (0 < parallel → 0 < NumCPU →
          ∃ e, GenerateCar MakeLink openFile Layout fileList parentPath parallel NumCPU
            = .panic e) := by
  have hne : fileList ≠ [] := List.ne_nil_of_mem hmem
  refine ⟨by simp [BuildFileNode, hopen], ?_, ?_⟩
  · exact fun root h => hne (GenerateCar_ok_nil MakeLink openFile Layout fileList parentPath
      parallel NumCPU root h)
  · exact fun hpar hcpu => GenerateCar_panics_of_ne_nil MakeLink openFile Layout fileList
      parentPath parallel NumCPU hne hpar hcpu

/-- C5, at the file list of `main` (one entry with the empty path, which
cannot be opened) together with a readable file, and the `parallel` of `main`. -/
theorem GenerateCar_unreadable_file_panics_witness :
    ((⟨[], [], none, 0, 0⟩ : Finfo) ∈ [plainFile "a.txt" "a.txt", ⟨[], [], none, 0, 0⟩]
      ∧ (fun p => if p = "a.txt".toList then some [1, 2, 3] else none)
          (⟨[], [], none, 0, 0⟩ : Finfo).Path = none)
      ∧ BuildFileNode (fun p => if p = "a.txt".toList then some [1, 2, 3] else none)
          protoLayout ⟨[], [], none, 0, 0⟩ = .error "open failed"
      ∧ (∀ root, GenerateCar symMakeLink
          (fun p => if p = "a.txt".toList then some [1, 2, 3] else none) protoLayout
          [plainFile "a.txt" "a.txt", ⟨[], [], none, 0, 0⟩] "".toList 1 4 ≠ .ok root)
      ∧ ∃ e, GenerateCar symMakeLink
          (fun p => if p = "a.txt".toList then some [1, 2, 3] else none) protoLayout
          [plainFile "a.txt" "a.txt", ⟨[], [], none, 0, 0⟩] "".toList 1 4 = .panic e :=
  ⟨⟨by decide, by decide⟩,
    (GenerateCar_unreadable_file_panics symMakeLink
      (fun p => if p = "a.txt".toList then some [1, 2, 3] else none) protoLayout
      [plainFile "a.txt" "a.txt", ⟨[], [], none, 0, 0⟩] "".toList 1 4 ⟨[], [], none, 0, 0⟩
      (by decide) (by decide)).1,
    (GenerateCar_unreadable_file_panics symMakeLink
      (fun p => if p = "a.txt".toList then some [1, 2, 3] else none) protoLayout
      [plainFile "a.txt" "a.txt", ⟨[], [], none, 0, 0⟩] "".toList 1 4 ⟨[], [], none, 0, 0⟩
      (by decide) (by decide)).2.1,
    (GenerateCar_unreadable_file_panics symMakeLink
      (fun p => if p = "a.txt".toList then some [1, 2, 3] else none) protoLayout
      [plainFile "a.txt" "a.txt", ⟨[], [], none, 0, 0⟩] "".toList 1 4 ⟨[], [], none, 0, 0⟩
      (by decide) (by decide)).2.2 (by decide) (by decide)⟩

/-- C6. For an entry that carries a byte range and whose file opens,
`BuildFileNode` returns no node: the builder is made with `NoCopy: true` over a
reader that is no `files.FileInfo`, so `DagBuilderParams.New` returns
`ErrMissingFsRef` before anything is read. The method `Read` of the `fileSlice`
it has made, the only way to the bytes of the range, is the stub
`panic("implement me")`. -/
theorem BuildFileNode_range_fails {C : Type} (openFile : Str → Option (List Nat))
    (Layout : List Nat → Outcome (IpldNode C)) (item : Finfo) (content : List Nat) (size : Nat)
    (hopen : openFile item.Path = some content) (hinfo : item.Info = some size)
    (hrange : item.SeekStart > 0 ∨ item.SeekEnd > 0) :
    BuildFileNode openFile Layout item = .error ErrMissingFsRef
      ∧ ∀ len, fileSlice.Read ⟨content, 0, item.SeekStart, item.SeekEnd, size⟩ len
          = .panic "implement me" := by
  refine ⟨?_, fun _ => rfl⟩
  simp [BuildFileNode, hopen, hinfo, hrange, DagBuilderParamsNew, FileReader.isFileInfo]

/-- C6, at the first three bytes of a five-byte file. -/
theorem BuildFileNode_range_fails_witness :
    ((fun _ => some [1, 2, 3, 4, 5] : Str → Option (List Nat))
          (⟨"f".toList, "f".toList, some 5, 0, 3⟩ : Finfo).Path = some [1, 2, 3, 4, 5]
      ∧ (⟨"f".toList, "f".toList, some 5, 0, 3⟩ : Finfo).Info = some 5
      ∧ ((⟨"f".toList, "f".toList, some 5, 0, 3⟩ : Finfo).SeekStart > 0
          ∨ (⟨"f".toList, "f".toList, some 5, 0, 3⟩ : Finfo).SeekEnd > 0))
      ∧ BuildFileNode (fun _ => some [1, 2, 3, 4, 5]) protoLayout
          ⟨"f".toList, "f".toList, some 5, 0, 3⟩ = .error ErrMissingFsRef
      ∧ ∀ len, fileSlice.Read ⟨[1, 2, 3, 4, 5], 0, 0, 3, 5⟩ len = .panic "implement me" :=
  ⟨⟨rfl, rfl, Or.inr (by decide)⟩,
    BuildFileNode_range_fails (fun _ => some [1, 2, 3, 4, 5]) protoLayout
      ⟨"f".toList, "f".toList, some 5, 0, 3⟩ [1, 2, 3, 4, 5] 5 rfl rfl (Or.inr (by decide))⟩

/-- C3. The root does not represent the namespace of a file list that holds
a file: no file node is ever built (`BuildFileNode_eq`), so for files without
byte range and a channel capacity of at least one the loop "build dir tree"
ends at its first file in the panic of line 163, and `GenerateCar` has no
root from which a file could be reached. -/
theorem GenerateCar_missing_file_node {C : Type} (MakeLink : ProtoNode C → Link C)
    (openFile : Str → Option (List Nat)) (Layout : List Nat → Outcome (IpldNode C))
    (fileList : List Finfo) (parentPath : Str) (parallel NumCPU : Int)
    (hne : fileList ≠ [])
    (hplain : ∀ item ∈ fileList, item.SeekStart ≤ 0 ∧ item.SeekEnd ≤ 0)
    (hpar : 0 < parallel) (hcpu : 0 < NumCPU) :
    GenerateCarDirNodeMap MakeLink openFile Layout fileList parentPath parallel NumCPU
        = .panic "unexpected, missing file node"
      ∧ GenerateCar MakeLink openFile Layout fileList parentPath parallel NumCPU
        = .panic "unexpected, missing file node" := by
  have h1 : ¬ (if parallel > NumCPU then NumCPU else parallel) < 0 := by
    split_ifs <;> omega
  have h2 : ¬ ((if parallel > NumCPU then NumCPU else parallel) = 0 ∧ fileList ≠ []) := by
    rintro ⟨h, _⟩
    split_ifs at h <;> omega
  have h3 : ¬ fileList.any (workerPanics openFile) = true := by
    rw [List.any_eq_true]
    rintro ⟨item, hitem, hw⟩
    obtain ⟨hs, he⟩ := hplain item hitem
    have hr : ¬ (item.SeekStart > 0 ∨ item.SeekEnd > 0) := by omega
    simp [workerPanics, hr] at hw
  have hmap : GenerateCarDirNodeMap MakeLink openFile Layout fileList parentPath parallel NumCPU
      = .panic "unexpected, missing file node" := by
    rw [GenerateCarDirNodeMap_eq, if_neg h1, if_neg h2, if_neg h3, if_neg hne]
  exact ⟨hmap, by simp only [GenerateCar, hmap]⟩

/-- C3, at scenario A (`a.txt`, `dir/b.txt`, `dir/sub/c.txt`, all three
readable) with the empty parent path and the `parallel` of `main`. -/
theorem GenerateCar_missing_file_node_witness :
    (scenarioFiles ≠ []
      ∧ (∀ item ∈ scenarioFiles, item.SeekStart ≤ 0 ∧ item.SeekEnd ≤ 0)
      ∧ 0 < (1 : Int) ∧ 0 < (4 : Int))
      ∧ GenerateCarDirNodeMap symMakeLink (fun _ => some [1, 2, 3]) protoLayout scenarioFiles
          "".toList 1 4 = .panic "unexpected, missing file node"
      ∧ GenerateCar symMakeLink (fun _ => some [1, 2, 3]) protoLayout scenarioFiles
          "".toList 1 4 = .panic "unexpected, missing file node" :=
  ⟨⟨by decide, by decide, by decide, by decide⟩,
    GenerateCar_missing_file_node symMakeLink (fun _ => some [1, 2, 3]) protoLayout
      scenarioFiles "".toList 1 4 (by decide) (by decide) (by decide) (by decide)⟩

/-- C1. For every file list and every permutation of it (same parent path,
same files, same capacity), `GenerateCar` ends in the same way: the same
`dirNodeMap` after the loop "build dir tree" and the same root node, hence the
same root CID, whenever there is one; a run that fails for one order fails in
the same way for the other. (By `GenerateCar_ok_nil` there is a root only for
the empty list.) -/
theorem GenerateCar_perm_invariant {C : Type} (MakeLink : ProtoNode C → Link C)
    (openFile : Str → Option (List Nat)) (Layout : List Nat → Outcome (IpldNode C))
    (fileList fileList2 : List Finfo) (parentPath : Str) (parallel NumCPU : Int)
    (hperm : fileList.Perm fileList2) :
    GenerateCarDirNodeMap MakeLink openFile Layout fileList parentPath parallel NumCPU
        = GenerateCarDirNodeMap MakeLink openFile Layout fileList2 parentPath parallel NumCPU
      ∧ GenerateCar MakeLink openFile Layout fileList parentPath parallel NumCPU
        = GenerateCar MakeLink openFile Layout fileList2 parentPath parallel NumCPU := by
  have hnil : fileList = [] ↔ fileList2 = [] := by
    constructor
    · intro h; subst h; exact hperm.nil_eq.symm
    · intro h; subst h; exact hperm.eq_nil
  have hany : fileList.any (workerPanics openFile) = fileList2.any (workerPanics openFile) := by
    rw [Bool.eq_iff_iff, List.any_eq_true, List.any_eq_true]
    exact ⟨fun ⟨x, hx, hw⟩ => ⟨x, hperm.mem_iff.mp hx, hw⟩,
      fun ⟨x, hx, hw⟩ => ⟨x, hperm.mem_iff.mpr hx, hw⟩⟩
  have hmap : GenerateCarDirNodeMap MakeLink openFile Layout fileList parentPath parallel NumCPU
      = GenerateCarDirNodeMap MakeLink openFile Layout fileList2 parentPath parallel
          NumCPU := by
    rw [GenerateCarDirNodeMap_eq, GenerateCarDirNodeMap_eq, hany]
    simp only [hnil, ne_eq]
  exact ⟨hmap, by simp only [GenerateCar, hmap]⟩

/-- C1, at scenario A and its reverse: both orders end in the panic of line
163. -/
theorem GenerateCar_perm_invariant_witness :
    scenarioFiles.Perm scenarioFiles.reverse
      ∧ (GenerateCarDirNodeMap symMakeLink (fun _ => some [1, 2, 3]) protoLayout scenarioFiles
            "".toList 1 4
          = GenerateCarDirNodeMap symMakeLink (fun _ => some [1, 2, 3]) protoLayout
            scenarioFiles.reverse "".toList 1 4
        ∧ GenerateCar symMakeLink (fun _ => some [1, 2, 3]) protoLayout scenarioFiles
            "".toList 1 4
          = GenerateCar symMakeLink (fun _ => some [1, 2, 3]) protoLayout
            scenarioFiles.reverse "".toList 1 4) :=
  ⟨(List.reverse_perm _).symm,
    GenerateCar_perm_invariant symMakeLink (fun _ => some [1, 2, 3]) protoLayout scenarioFiles
      scenarioFiles.reverse "".toList 1 4 (List.reverse_perm _).symm⟩

/-- C2. For every file list, when the loop "build dir tree" of `GenerateCar`
has ended, every node held in `dirNodeMap` (the root included) has pairwise
distinct link names. (By `GenerateCarDirNodeMap_eq` the loop ends only for the
empty list, and the map then holds the root without links.) -/
theorem GenerateCar_link_names_distinct {C : Type} (MakeLink : ProtoNode C → Link C)
    (openFile : Str → Option (List Nat)) (Layout : List Nat → Outcome (IpldNode C))
    (fileList : List Finfo) (parentPath : Str) (parallel NumCPU : Int) (m : DirNodeMap C)
    (h : GenerateCarDirNodeMap MakeLink openFile Layout fileList parentPath parallel NumCPU
      = .ok m) :
    ∀ key node, m key = some node → (node.links.map Link.Name).Nodup := by
  rw [GenerateCarDirNodeMap_eq] at h
  have hm : m = initialDirNodeMap := by
    split_ifs at h <;> (cases h; rfl)
  subst hm
  intro key node hnode
  unfold initialDirNodeMap DirNodeMap.set at hnode
  split_ifs at hnode
  cases hnode
  simp [EmptyDirNode]

/-- C2, at the empty file list, the one list for which the loop ends. -/
theorem GenerateCar_link_names_distinct_witness :
    GenerateCarDirNodeMap symMakeLink (fun _ => some [1, 2, 3]) protoLayout [] "".toList 1 4
        = .ok initialDirNodeMap
      ∧ ∀ key node, (initialDirNodeMap : DirNodeMap SymCid) key = some node →
          (node.links.map Link.Name).Nodup :=
  ⟨rfl, GenerateCar_link_names_distinct symMakeLink (fun _ => some [1, 2, 3]) protoLayout []
    "".toList 1 4 initialDirNodeMap rfl⟩

/-- A stream that starts with the varint `2^64 - 1` makes the speculative
parse panic when it allocates the header buffer. -/
theorem speculativeParse_hugeHeaderLen (memLimit : Nat)
    (DecodeInto : List Nat → Option CarHeader) (tail : List Nat) :
    speculativeParse memLimit DecodeInto (hugeHeaderLen ++ tail)
      = some (.panic "makeslice: len out of range") := by
  have h10 : (hugeHeaderLen ++ tail).take 10 = hugeHeaderLen := by
    simp [hugeHeaderLen]
  have hU : Uvarint hugeHeaderLen = (2 ^ 64 - 1, 10) := by decide
  have hlen : ¬ (hugeHeaderLen ++ tail).length < 10 := by
    simp [hugeHeaderLen]
  unfold speculativeParse
  simp only [h10, hU, hlen, if_false]
  simp [hugeHeaderLen, makeSlice, maxAlloc]

/-- C7. On the ten-byte stream whose varint is `2^64 - 1`, `CalculateCommp`
does not consume the stream and reports no length: allocating the header
buffer panics, whatever the decoder and the commitment primitives are. -/
theorem CalculateCommp_hugeHeaderLen_panics {D K : Type} (memLimit : Nat)
    (DecodeInto : List Nat → Option CarHeader) (Digest : List Nat → Option (D × Nat))
    (DataCommitmentV1ToCID : D → Option K) :
    hugeHeaderLen.length = 10
      ∧ CalculateCommp memLimit DecodeInto Digest DataCommitmentV1ToCID hugeHeaderLen
        = some (.panic "makeslice: len out of range") := by
  have h := speculativeParse_hugeHeaderLen memLimit DecodeInto []
  rw [List.append_nil] at h
  exact ⟨rfl, by simp only [CalculateCommp, h]⟩

/-- C9. A stream that starts with the varint `2^64 - 1` is not an archive (it
declares a header of `2^64 - 1` bytes), yet the run does not complete:
whatever follows in the stream, `CalculateCommp` panics, so no digest and no
sizes are produced. -/
theorem CalculateCommp_nonarchive_panics {D K : Type} (memLimit : Nat)
    (DecodeInto : List Nat → Option CarHeader) (Digest : List Nat → Option (D × Nat))
    (DataCommitmentV1ToCID : D → Option K) (tail : List Nat) :
    (Uvarint ((hugeHeaderLen ++ tail).take 10)).1 = 2 ^ 64 - 1
      ∧ CalculateCommp memLimit DecodeInto Digest DataCommitmentV1ToCID (hugeHeaderLen ++ tail)
        = some (.panic "makeslice: len out of range") := by
  have h10 : (hugeHeaderLen ++ tail).take 10 = hugeHeaderLen := by
    simp [hugeHeaderLen]
  have hU : Uvarint hugeHeaderLen = (2 ^ 64 - 1, 10) := by decide
  refine ⟨by rw [h10, hU], ?_⟩
  simp only [CalculateCommp, speculativeParse_hugeHeaderLen memLimit DecodeInto tail]

/-! ## The loop "build dir tree" over a given map of file nodes

The theorems from here to `assemble_perm_invariant` describe the loop of lines
140-212 for an arbitrary `fileNodeMap`. In a run of `GenerateCar` that map is
empty (`buildFileNodes_eq`), so they say what the loop does with file nodes
that the workers of this source do not provide. -/

/-! ### Directory keys and one iteration of the inner loop -/

theorem joinDot_cons_ne_nil (s : Str) (t : List Str) (ht : t ≠ []) :
    joinDot (s :: t) = s ++ '.' :: joinDot t := by
  cases t with
  | nil => exact absurd rfl ht
  | cons a b => rfl

theorem getDirKeyFrom_eq (d : List Str) (i : Nat) (hi : i < d.length) :
    ∀ (n : Nat) (key : Str), n ≤ i + 1 →
      getDirKeyFrom d i n key = some (key ++ joinDot ((d.take (i + 1)).drop (i + 1 - n))) := by
  intro n
  have hnil : (d.take (i + 1)).drop (i + 1) = [] :=
    List.drop_eq_nil_of_le (by rw [List.length_take]; omega)
  induction n with
  | zero =>
    intro key _
    simp [getDirKeyFrom, joinDot, hnil]
  | succ n ih =>
    intro key hn
    have hidx : i - n < d.length := by omega
    have hT : i - n < (d.take (i + 1)).length := by
      rw [List.length_take]; omega
    have hdrop : (d.take (i + 1)).drop (i + 1 - (n + 1))
        = d[i - n] :: (d.take (i + 1)).drop (i + 1 - n) := by
      have h1 : i + 1 - (n + 1) = i - n := by omega
      have h2 : i + 1 - n = i - n + 1 := by omega
      rw [h1, h2, List.drop_eq_getElem_cons hT]
      congr 1
      simp [List.getElem_take]
    rw [hdrop]
    simp only [getDirKeyFrom, List.getElem?_eq_getElem hidx]
    rw [ih _ (by omega)]
    congr 1
    by_cases h0 : n = 0
    · subst h0
      simp [joinDot, hnil]
    · have hlt : i - n < i := by omega
      have hne : (d.take (i + 1)).drop (i + 1 - n) ≠ [] := by
        intro h
        have := congrArg List.length h
        simp [List.length_drop, List.length_take] at this
        omega
      rw [joinDot_cons_ne_nil _ _ hne]
      simp [hlt]

theorem getDirKey_eq (d : List Str) (i : Nat) (hi : i < d.length) :
    getDirKey d i = some (joinDot (d.take (i + 1))) := by
  unfold getDirKey
  rw [getDirKeyFrom_eq d i hi (i + 1) [] (le_refl _)]
  simp

section

variable {C : Type} (MakeLink : ProtoNode C → Link C)

theorem set_apply (m : DirNodeMap C) (k x : Str) (n : ProtoNode C) :
    (m.set k n) x = if x = k then some n else m x := rfl

theorem set_same (m : DirNodeMap C) (k : Str) (n : ProtoNode C) : (m.set k n) k = some n := by
  simp [set_apply]

theorem set_other (m : DirNodeMap C) (k x : Str) (n : ProtoNode C) (h : x ≠ k) :
    (m.set k n) x = m x := by
  simp [set_apply, h]

theorem set_set (m : DirNodeMap C) (k : Str) (a b : ProtoNode C) :
    (m.set k a).set k b = m.set k b := by
  funext x
  by_cases h : x = k <;> simp [set_apply, h]

theorem nodeAt_set_same (m : DirNodeMap C) (k : Str) (n : ProtoNode C) :
    nodeAt (m.set k n) k = n := by
  simp [nodeAt, set_same]

theorem nodeAt_set_other (m : DirNodeMap C) (k x : Str) (n : ProtoNode C) (h : x ≠ k) :
    nodeAt (m.set k n) x = nodeAt m x := by
  simp [nodeAt, set_other _ _ _ _ h]

theorem getOrCreate_fst (m : DirNodeMap C) (k : Str) : (getOrCreate m k).1 = nodeAt m k := by
  unfold getOrCreate nodeAt
  cases m k <;> rfl

theorem getOrCreate_snd (m : DirNodeMap C) (k : Str) :
    (getOrCreate m k).2 = m.set k (nodeAt m k) := by
  unfold getOrCreate nodeAt
  cases h : m k with
  | none => rfl
  | some n =>
    funext x
    by_cases hx : x = k
    · subst hx; simp [set_apply, h]
    · simp [set_apply, hx]

theorem isLinkedIn_iff (links : List (Link C)) (name : Str) :
    isLinkedIn links name = true ↔ name ∈ links.map Link.Name := by
  induction links with
  | nil => simp [isLinkedIn]
  | cons l rest ih =>
    by_cases h : l.Name = name
    · simp [isLinkedIn, h]
    · have h2 : ¬ name = l.Name := fun e => h e.symm
      simp [isLinkedIn, h, h2, ih]

theorem filter_of_not_linked (links : List (Link C)) (name : Str)
    (h : isLinkedIn links name = false) :
    links.filter (fun l => decide (l.Name ≠ name)) = links := by
  rw [List.filter_eq_self]
  intro l hl
  have : ¬ name ∈ links.map Link.Name := by
    rw [← isLinkedIn_iff]; simp [h]
  simp only [decide_eq_true_eq]
  intro e
  exact this (List.mem_map.mpr ⟨l, hl, e⟩)

/-- The branch on `isLinked` makes no difference to the value: updating a
link that is not there is adding it. -/
theorem linkChild_eq (parent : ProtoNode C) (dir : Str) (child : ProtoNode C) :
    (if isLinked parent dir = true then UpdateNodeLink MakeLink parent dir child
      else AddNodeLink MakeLink parent dir child) = UpdateNodeLink MakeLink parent dir child := by
  split_ifs with h
  · rfl
  · have h2 : isLinkedIn parent.links dir = false := by
      simpa [isLinked] using h
    unfold UpdateNodeLink RemoveNodeLink
    rw [filter_of_not_linked _ _ h2]

theorem dirStepCore_eq (dir dirKey parentKey : Str) (isLast : Bool) (name : Str)
    (fileNode : ProtoNode C) (m : DirNodeMap C) :
    dirStepCore MakeLink dir dirKey parentKey isLast name fileNode m
      = ((m.set dirKey
          (if isLast = true then AddNodeLink MakeLink (nodeAt m dirKey) name fileNode
            else nodeAt m dirKey)).set parentKey
          (UpdateNodeLink MakeLink
            (nodeAt (m.set dirKey
              (if isLast = true then AddNodeLink MakeLink (nodeAt m dirKey) name fileNode
                else nodeAt m dirKey)) parentKey) dir
            (if isLast = true then AddNodeLink MakeLink (nodeAt m dirKey) name fileNode
              else nodeAt m dirKey))) := by
  unfold dirStepCore
  cases isLast <;>
    simp only [getOrCreate_fst, getOrCreate_snd, set_set, if_true, if_false,
      Bool.false_eq_true, nodeAt_set_same] <;>
    split_ifs with h <;>
    first
      | rfl
      | rw [← linkChild_eq MakeLink _ dir, if_neg h]

theorem take_ne_nil (d : List Str) (i : Nat) (hi : i < d.length) : d.take (i + 1) ≠ [] := by
  intro h
  have h1 : (d.take (i + 1)).length = 0 := by rw [h]; rfl
  rw [List.length_take] at h1
  omega

theorem dirStep_eq (d : List Str) (name : Str) (f : ProtoNode C) (i : Nat)
    (m : DirNodeMap C) (hi : i < d.length) :
    dirStep MakeLink d name f i m
      = .ok (dirStepCore MakeLink d[i] (dkey (d.take (i + 1))) (dkey (d.take i))
          (decide (i = d.length - 1)) name f m) := by
  unfold dirStep
  have h1 : getDirKey d i = some (dkey (d.take (i + 1))) := by
    rw [getDirKey_eq d i hi, dkey, if_neg (take_ne_nil d i hi)]
  have h2 : (if i = 0 then some rootKey else getDirKey d (i - 1)) = some (dkey (d.take i)) := by
    by_cases h0 : i = 0
    · subst h0; simp [dkey]
    · have hi1 : i - 1 < d.length := by omega
      have e : i - 1 + 1 = i := by omega
      rw [if_neg h0, getDirKey_eq d (i - 1) hi1, e, dkey]
      have := take_ne_nil d (i - 1) hi1
      rw [e] at this
      rw [if_neg this]
  rw [h1, h2, List.getElem?_eq_getElem hi]

end

/-! ## Placing one file -/

section

variable {C : Type} (MakeLink : ProtoNode C → Link C)

theorem newAt_last (m : DirNodeMap C) (d : List Str) (name : Str) (f : ProtoNode C) :
    newAt MakeLink m d name f d.length
      = AddNodeLink MakeLink (nodeAt m (dkey d)) name f := by
  simp [newAt, newNode]

theorem newAt_step (m : DirNodeMap C) (d : List Str) (name : Str) (f : ProtoNode C)
    (j : Nat) (hj : j < d.length) :
    newAt MakeLink m d name f j
      = UpdateNodeLink MakeLink (nodeAt m (dkey (d.take j))) d[j]
          (newAt MakeLink m d name f (j + 1)) := by
  unfold newAt
  rw [List.drop_eq_getElem_cons hj]
  simp only [newNode]
  rw [List.take_succ, List.getElem?_eq_getElem hj]
  rfl

theorem loopState_first (m : DirNodeMap C) (d : List Str) (name : Str) (f : ProtoNode C)
    (hd : ChainDistinct d) (i : Nat) (hi : i + 1 = d.length) :
    LoopState MakeLink m d name f i
      (dirStepCore MakeLink d[i] (dkey (d.take (i + 1))) (dkey (d.take i)) true name f m) := by
  have hne : dkey (d.take i) ≠ dkey (d.take (i + 1)) := by
    intro h
    have := hd i (i + 1) (by omega) (by omega) h
    omega
  have hfull : d.take (i + 1) = d := by
    rw [hi]; exact List.take_length d
  have hlast : newAt MakeLink m d name f (i + 1)
      = AddNodeLink MakeLink (nodeAt m (dkey (d.take (i + 1)))) name f := by
    rw [hi, newAt_last, List.take_length]
  have hprev : newAt MakeLink m d name f i
      = UpdateNodeLink MakeLink (nodeAt m (dkey (d.take i))) d[i]
          (AddNodeLink MakeLink (nodeAt m (dkey (d.take (i + 1)))) name f) := by
    rw [newAt_step MakeLink m d name f i (by omega), hlast]
  rw [dirStepCore_eq]
  simp only [if_true, nodeAt_set_other _ _ _ _ hne]
  constructor
  · intro j hij hj
    have hcases : j = i ∨ j = i + 1 := by omega
    rcases hcases with rfl | rfl
    · rw [set_same, hprev]
    · rw [set_other _ _ _ _ (Ne.symm hne), set_same, hlast]
  · intro x hx
    have h1 := hx i (le_refl _) (by omega)
    have h2 := hx (i + 1) (by omega) (by omega)
    rw [set_other _ _ _ _ h1, set_other _ _ _ _ h2]

theorem loopState_next (m : DirNodeMap C) (d : List Str) (name : Str) (f : ProtoNode C)
    (hd : ChainDistinct d) (i : Nat) (hi : i + 1 < d.length) (m1 : DirNodeMap C)
    (hs : LoopState MakeLink m d name f (i + 1) m1) :
    LoopState MakeLink m d name f i
      (dirStepCore MakeLink d[i] (dkey (d.take (i + 1))) (dkey (d.take i)) false name f m1) := by
  obtain ⟨hs1, hs2⟩ := hs
  have hne : dkey (d.take i) ≠ dkey (d.take (i + 1)) := by
    intro h
    have := hd i (i + 1) (by omega) (by omega) h
    omega
  have hdir : nodeAt m1 (dkey (d.take (i + 1))) = newAt MakeLink m d name f (i + 1) := by
    simp [nodeAt, hs1 (i + 1) (le_refl _) (by omega)]
  have hpar : nodeAt m1 (dkey (d.take i)) = nodeAt m (dkey (d.take i)) := by
    have : m1 (dkey (d.take i)) = m (dkey (d.take i)) := by
      apply hs2
      intro j hij hj h
      have := hd i j (by omega) hj h
      omega
    simp [nodeAt, this]
  rw [dirStepCore_eq]
  simp only [Bool.false_eq_true, if_false, nodeAt_set_other _ _ _ _ hne, hdir, hpar]
  rw [← newAt_step MakeLink m d name f i (by omega)]
  constructor
  · intro j hij hj
    by_cases hji : j = i
    · subst hji; rw [set_same]
    · have hne2 : dkey (d.take j) ≠ dkey (d.take i) := by
        intro h
        exact hji (hd j i hj (by omega) h)
      rw [set_other _ _ _ _ hne2]
      by_cases hj1 : j = i + 1
      · subst hj1; rw [set_same]
      · have hne3 : dkey (d.take j) ≠ dkey (d.take (i + 1)) := by
          intro h
          exact hj1 (hd j (i + 1) hj (by omega) h)
        rw [set_other _ _ _ _ hne3]
        exact hs1 j (by omega) hj
  · intro x hx
    have h1 := hx i (le_refl _) (by omega)
    have h2 := hx (i + 1) (by omega) (by omega)
    rw [set_other _ _ _ _ h1, set_other _ _ _ _ h2]
    apply hs2
    intro j hij hj
    exact hx j (by omega) hj

theorem dirLoop_rest (m : DirNodeMap C) (d : List Str) (name : Str) (f : ProtoNode C)
    (hd : ChainDistinct d) (i : Nat) (hi : i < d.length) (m1 : DirNodeMap C)
    (hs : LoopState MakeLink m d name f i m1) :
    ∃ m2, dirLoop MakeLink d name f i m1 = .ok m2 ∧ LoopState MakeLink m d name f 0 m2 := by
  induction i generalizing m1 with
  | zero => exact ⟨m1, rfl, hs⟩
  | succ i ih =>
    have h := loopState_next MakeLink m d name f hd i hi m1 hs
    have hdec : decide (i = d.length - 1) = false := by
      simp; omega
    obtain ⟨m2, h2, h3⟩ := ih (by omega) _ h
    refine ⟨m2, ?_, h3⟩
    simp only [dirLoop, dirStep_eq MakeLink d name f i m1 (by omega), hdec]
    exact h2

theorem placeFile_spec (m : DirNodeMap C) (d : List Str) (name : Str) (f : ProtoNode C)
    (hd : ChainDistinct d) (root : ProtoNode C) (hroot : m rootKey = some root) :
    ∃ m1, placeFile MakeLink d name f m = .ok m1 ∧ PlaceSpec MakeLink m d name f m1 := by
  unfold placeFile
  by_cases hlen : d.length = 0
  · have hnil : d = [] := List.length_eq_zero.mp hlen
    subst hnil
    refine ⟨m.set rootKey (AddNodeLink MakeLink root name f), by simp [hroot], ?_, ?_⟩
    · intro j hj
      have : j = 0 := by simpa using hj
      subst this
      simp [newAt, newNode, dkey, set_same, nodeAt, hroot]
    · intro x hx
      have := hx 0 (le_refl _)
      simp [dkey] at this
      rw [set_other _ _ _ _ this]
  · rw [if_neg hlen]
    obtain ⟨i, hi⟩ : ∃ i, i + 1 = d.length := ⟨d.length - 1, by omega⟩
    have h1 := loopState_first MakeLink m d name f hd i hi
    obtain ⟨m2, h2, h3⟩ := dirLoop_rest MakeLink m d name f hd i (by omega) _ h1
    refine ⟨m2, ?_, ?_⟩
    · rw [← hi]
      have hdec : decide (i = d.length - 1) = true := by
        simp; omega
      simp only [dirLoop, dirStep_eq MakeLink d name f i m (by omega), hdec]
      exact h2
    · exact ⟨fun j hj => h3.1 j (Nat.zero_le _) hj, fun x hx => h3.2 x (fun j _ hj => hx j hj)⟩

end

/-! ## Prefixes, links and the initial map -/

theorem isDir_mono {ds ds2 : List (List Str)} (h : ∀ d ∈ ds, d ∈ ds2) {p : List Str}
    (hp : IsDir ds p) : IsDir ds2 p := by
  obtain ⟨d, hd, hpd⟩ := hp
  exact ⟨d, h d hd, hpd⟩

theorem known_mono {ds ds2 : List (List Str)} (h : ∀ d ∈ ds, d ∈ ds2) {p : List Str}
    (hp : Known ds p) : Known ds2 p := by
  rcases hp with h0 | h1
  · exact Or.inl h0
  · exact Or.inr (isDir_mono h h1)

theorem keyInj_mono {ds ds2 : List (List Str)} (h : ∀ d ∈ ds, d ∈ ds2) (hk : KeyInj ds2) :
    KeyInj ds := fun p q hp hq e => hk p q (known_mono h hp) (known_mono h hq) e

theorem noClash_mono {ls ls2 : List (List Str × Str)} (h : ∀ a ∈ ls, a ∈ ls2)
    (hc : NoClash ls2) : NoClash ls := fun a ha b hb => hc a (h a ha) b (h b hb)

theorem isDir_initial {ds : List (List Str)} {p q : List Str} (hq : IsDir ds q) (hpq : p <+: q) :
    IsDir ds p := by
  obtain ⟨d, hd, hqd⟩ := hq
  exact ⟨d, hd, hpq.trans hqd⟩

theorem known_take (ds : List (List Str)) (d : List Str) (hd : d ∈ ds) (j : Nat) :
    Known ds (d.take j) := Or.inr ⟨d, hd, List.take_prefix j d⟩

theorem isDir_append_singleton (ds : List (List Str)) (d p : List Str) :
    IsDir (ds ++ [d]) p ↔ IsDir ds p ∨ p <+: d := by
  constructor
  · rintro ⟨x, hx, hp⟩
    rcases List.mem_append.mp hx with h | h
    · exact Or.inl ⟨x, h, hp⟩
    · simp at h; subst h; exact Or.inr hp
  · rintro (⟨x, hx, hp⟩ | hp)
    · exact ⟨x, List.mem_append_left _ hx, hp⟩
    · exact ⟨d, by simp, hp⟩

theorem known_append_singleton (ds : List (List Str)) (d p : List Str) :
    Known (ds ++ [d]) p ↔ Known ds p ∨ p <+: d := by
  unfold Known
  rw [isDir_append_singleton]
  tauto

theorem prefix_eq_take {p d : List Str} (h : p <+: d) : p = d.take p.length :=
  List.prefix_iff_eq_take.mp h

theorem prefix_snoc {p d : List Str} {s : Str} (h : p ++ [s] <+: d) :
    ∃ hj : p.length < d.length, d.take (p.length + 1) = p ++ [s] ∧ d[p.length] = s
      ∧ d.take p.length = p := by
  have hlen : (p ++ [s]).length ≤ d.length := h.length_le
  simp at hlen
  have hj : p.length < d.length := by omega
  have e := prefix_eq_take h
  simp only [List.length_append, List.length_singleton] at e
  have e2 : d.take (p.length + 1) = d.take p.length ++ [d[p.length]] := by
    rw [List.take_succ, List.getElem?_eq_getElem hj]; rfl
  rw [e2] at e
  have hl : p.length = (d.take p.length).length := by
    rw [List.length_take]; omega
  have := List.append_inj e hl
  obtain ⟨h1, h2⟩ := this
  refine ⟨hj, ?_, ?_, h1.symm⟩
  · rw [e2, ← h1, ← h2]
  · simpa using h2.symm

theorem take_succ_snoc (d : List Str) (j : Nat) (hj : j < d.length) :
    d.take (j + 1) = d.take j ++ [d[j]] := by
  rw [List.take_succ, List.getElem?_eq_getElem hj]; rfl

theorem length_take_le (d : List Str) (j : Nat) (hj : j ≤ d.length) : (d.take j).length = j := by
  rw [List.length_take]; omega

section

variable {C : Type} (MakeLink : ProtoNode C → Link C)

@[simp]
theorem mkLink_name (name : Str) (that : ProtoNode C) :
    (mkLink MakeLink name that).Name = name := rfl

theorem links_add (n : ProtoNode C) (name : Str) (that : ProtoNode C) :
    (AddNodeLink MakeLink n name that).links = n.links ++ [mkLink MakeLink name that] := rfl

theorem links_update (n : ProtoNode C) (s : Str) (c : ProtoNode C) :
    (UpdateNodeLink MakeLink n s c).links
      = n.links.filter (fun l => decide (l.Name ≠ s)) ++ [mkLink MakeLink s c] := rfl

theorem data_add (n : ProtoNode C) (name : Str) (that : ProtoNode C) :
    (AddNodeLink MakeLink n name that).data = n.data := rfl

theorem data_update (n : ProtoNode C) (s : Str) (c : ProtoNode C) :
    (UpdateNodeLink MakeLink n s c).data = n.data := rfl

theorem newAt_links_last (m : DirNodeMap C) (d : List Str) (name : Str) (f : ProtoNode C) :
    (newAt MakeLink m d name f d.length).links
      = (nodeAt m (dkey d)).links ++ [mkLink MakeLink name f] := by
  rw [newAt_last, links_add]

theorem newAt_links_step (m : DirNodeMap C) (d : List Str) (name : Str) (f : ProtoNode C)
    (j : Nat) (hj : j < d.length) :
    (newAt MakeLink m d name f j).links
      = (nodeAt m (dkey (d.take j))).links.filter (fun l => decide (l.Name ≠ d[j]))
          ++ [mkLink MakeLink d[j] (newAt MakeLink m d name f (j + 1))] := by
  rw [newAt_step MakeLink m d name f j hj, links_update]

theorem newAt_data (m : DirNodeMap C) (d : List Str) (name : Str) (f : ProtoNode C)
    (j : Nat) (hj : j ≤ d.length) :
    (newAt MakeLink m d name f j).data = (nodeAt m (dkey (d.take j))).data := by
  rcases Nat.lt_or_eq_of_le hj with h | h
  · rw [newAt_step MakeLink m d name f j h, data_update]
  · subst h
    rw [newAt_last, data_add, List.take_length]

theorem dirsOf_append (es : List (Entry C)) (e : Entry C) :
    dirsOf (es ++ [e]) = dirsOf es ++ [e.dirList] := by
  simp [dirsOf]

theorem locsOf_append (es : List (Entry C)) (e : Entry C) :
    locsOf (es ++ [e]) = locsOf es ++ [(e.dirList, e.name)] := by
  simp [locsOf]

theorem nodeAt_data (es : List (Entry C)) (m : DirNodeMap C) (h : Inv MakeLink es m) (x : Str) :
    (nodeAt m x).data = [8, 1] := by
  unfold nodeAt
  cases hx : m x with
  | none => rfl
  | some n => exact h.data x n hx

theorem inv_init : Inv MakeLink ([] : List (Entry C)) initialDirNodeMap := by
  have hk : ∀ p, Known (dirsOf ([] : List (Entry C))) p → p = [] := by
    intro p hp
    rcases hp with h | ⟨d, hd, _⟩
    · exact h
    · simp [dirsOf] at hd
  have hroot : nodeAt (initialDirNodeMap : DirNodeMap C) (dkey []) = EmptyDirNode := by
    simp [nodeAt, initialDirNodeMap, dkey, set_same]
  refine ⟨?_, ?_, ?_, ?_, ?_, ?_, ?_⟩
  · intro p hp
    rw [hk p hp]
    exact ⟨EmptyDirNode, by simp [initialDirNodeMap, dkey, set_same]⟩
  · intro x node hx
    refine ⟨[], Or.inl rfl, ?_⟩
    by_contra hne
    have hne2 : ¬ x = rootKey := by simpa [dkey] using hne
    simp [initialDirNodeMap, set_apply, hne2] at hx
  · intro x node hx
    by_cases hxr : x = rootKey
    · simp [initialDirNodeMap, set_apply, hxr] at hx
      rw [← hx]; rfl
    · simp [initialDirNodeMap, set_apply, hxr] at hx
  · rintro p s ⟨d, hd, _⟩
    simp [dirsOf] at hd
  · intro p hp l hl
    rw [hk p hp, hroot] at hl
    simp [EmptyDirNode] at hl
  · intro _ e he
    simp at he
  · intro _ _ p hp
    rw [hk p hp, hroot]
    simp [EmptyDirNode]

end

/-! ## The invariant is kept by one file -/

section

variable {C : Type} (MakeLink : ProtoNode C → Link C)

theorem chainDistinct_of_keyInj (ds : List (List Str)) (hk : KeyInj ds) (d : List Str)
    (hd : d ∈ ds) : ChainDistinct d := by
  intro a b ha hb h
  have := hk _ _ (known_take ds d hd a) (known_take ds d hd b) h
  have h2 := congrArg List.length this
  rw [length_take_le d a ha, length_take_le d b hb] at h2
  exact h2

variable {MakeLink}

variable {es : List (Entry C)} {e : Entry C} {m m1 : DirNodeMap C}

theorem Step.known_old (_h : Step MakeLink es e m m1) {p : List Str}
    (hp : Known (dirsOf es) p) : Known (dirsOf es ++ [e.dirList]) p :=
  (known_append_singleton _ _ _).mpr (Or.inl hp)

theorem Step.known_chain (_h : Step MakeLink es e m m1) {p : List Str}
    (hp : p <+: e.dirList) : Known (dirsOf es ++ [e.dirList]) p :=
  (known_append_singleton _ _ _).mpr (Or.inr hp)

theorem Step.chain_map (h : Step MakeLink es e m m1) {p : List Str} (hp : p <+: e.dirList) :
    m1 (dkey p) = some (newAt MakeLink m e.dirList e.name e.node p.length) := by
  have := h.spec.1 p.length hp.length_le
  rwa [← prefix_eq_take hp] at this

theorem Step.chain_node (h : Step MakeLink es e m m1) {p : List Str} (hp : p <+: e.dirList) :
    nodeAt m1 (dkey p) = newAt MakeLink m e.dirList e.name e.node p.length := by
  simp [nodeAt, h.chain_map hp]

theorem Step.off_map (h : Step MakeLink es e m m1) {p : List Str}
    (hp : Known (dirsOf es ++ [e.dirList]) p) (hn : ¬ p <+: e.dirList) :
    m1 (dkey p) = m (dkey p) := by
  apply h.spec.2
  intro j _ heq
  have := h.keys p _ hp (h.known_chain (List.take_prefix j e.dirList)) heq
  exact hn (this ▸ List.take_prefix j e.dirList)

theorem Step.off_node (h : Step MakeLink es e m m1) {p : List Str}
    (hp : Known (dirsOf es ++ [e.dirList]) p) (hn : ¬ p <+: e.dirList) :
    nodeAt m1 (dkey p) = nodeAt m (dkey p) := by
  simp [nodeAt, h.off_map hp hn]

theorem Step.old_none (h : Step MakeLink es e m m1) {p : List Str}
    (hp : Known (dirsOf es ++ [e.dirList]) p) (hn : ¬ Known (dirsOf es) p) :
    m (dkey p) = none := by
  cases hm : m (dkey p) with
  | none => rfl
  | some node =>
    exfalso
    obtain ⟨q, hq, heq⟩ := h.inv.dom2 _ _ hm
    have := h.keys p q hp (h.known_old hq) heq
    exact hn (this ▸ hq)

theorem Step.old_links_known (h : Step MakeLink es e m m1) {p : List Str}
    (hp : Known (dirsOf es ++ [e.dirList]) p) {l : Link C}
    (hl : l ∈ (nodeAt m (dkey p)).links) : Known (dirsOf es) p := by
  by_contra hn
  have := h.old_none hp hn
  simp [nodeAt, this, EmptyDirNode] at hl

/-- The links of a node on the path of the new file. -/
theorem Step.chain_links (h : Step MakeLink es e m m1) {p : List Str} (hp : p <+: e.dirList) :
    (nodeAt m1 (dkey p)).links
      = if hj : p.length < e.dirList.length then
          (nodeAt m (dkey p)).links.filter (fun l => decide (l.Name ≠ e.dirList[p.length]))
            ++ [mkLink MakeLink e.dirList[p.length]
                (nodeAt m1 (dkey (p ++ [e.dirList[p.length]])))]
        else (nodeAt m (dkey p)).links ++ [mkLink MakeLink e.name e.node] := by
  rw [h.chain_node hp]
  split_ifs with hj
  · rw [newAt_links_step MakeLink m e.dirList e.name e.node p.length hj]
    have hp2 : p ++ [e.dirList[p.length]] <+: e.dirList := by
      have := List.take_prefix (p.length + 1) e.dirList
      rwa [take_succ_snoc _ _ hj, ← prefix_eq_take hp] at this
    rw [h.chain_node hp2, ← prefix_eq_take hp]
    simp
  · have hlen : p.length = e.dirList.length := by
      have := hp.length_le
      omega
    have hpe : p = e.dirList := by
      have := prefix_eq_take hp
      rw [hlen, List.take_length] at this
      exact this
    rw [hlen, newAt_links_last, ← hpe]

theorem Step.dom1 (h : Step MakeLink es e m m1) (p : List Str)
    (hp : Known (dirsOf es ++ [e.dirList]) p) : ∃ node, m1 (dkey p) = some node := by
  by_cases hc : p <+: e.dirList
  · exact ⟨_, h.chain_map hc⟩
  · rw [h.off_map hp hc]
    rcases (known_append_singleton _ _ _).mp hp with h1 | h1
    · exact h.inv.dom1 p h1
    · exact absurd h1 hc

theorem Step.dom2 (h : Step MakeLink es e m m1) (x : Str) (node : ProtoNode C)
    (hx : m1 x = some node) : ∃ p, Known (dirsOf es ++ [e.dirList]) p ∧ x = dkey p := by
  by_cases hc : ∃ j, j ≤ e.dirList.length ∧ x = dkey (e.dirList.take j)
  · obtain ⟨j, _, hj⟩ := hc
    exact ⟨_, h.known_chain (List.take_prefix j _), hj⟩
  · have : m1 x = m x := by
      apply h.spec.2
      intro j hj heq
      exact hc ⟨j, hj, heq⟩
    rw [this] at hx
    obtain ⟨p, hp, hxp⟩ := h.inv.dom2 x node hx
    exact ⟨p, h.known_old hp, hxp⟩

theorem Step.data (h : Step MakeLink es e m m1) (x : Str) (node : ProtoNode C)
    (hx : m1 x = some node) : node.data = [8, 1] := by
  by_cases hc : ∃ j, j ≤ e.dirList.length ∧ x = dkey (e.dirList.take j)
  · obtain ⟨j, hj, rfl⟩ := hc
    have := h.spec.1 j hj
    rw [this] at hx
    injection hx with hx
    rw [← hx, newAt_data MakeLink m _ _ _ j hj]
    exact nodeAt_data MakeLink es m h.inv _
  · have : m1 x = m x := by
      apply h.spec.2
      intro j hj heq
      exact hc ⟨j, hj, heq⟩
    rw [this] at hx
    exact h.inv.data x node hx

theorem snoc_prefix_of_index {p d : List Str} (hp : p <+: d) (hj : p.length < d.length) :
    p ++ [d[p.length]] <+: d := by
  have := List.take_prefix (p.length + 1) d
  rwa [take_succ_snoc _ _ hj, ← prefix_eq_take hp] at this

/-- A link of the old node stays, unless it is the link to the next segment
of the new path. -/
theorem Step.retained (h : Step MakeLink es e m m1) {p : List Str}
    (hp : Known (dirsOf es ++ [e.dirList]) p) {l : Link C}
    (hl : l ∈ (nodeAt m (dkey p)).links)
    (hname : ∀ hj : p.length < e.dirList.length, p <+: e.dirList →
      l.Name ≠ e.dirList[p.length]) :
    l ∈ (nodeAt m1 (dkey p)).links := by
  by_cases hc : p <+: e.dirList
  · rw [h.chain_links hc]
    split_ifs with hj
    · apply List.mem_append_left
      rw [List.mem_filter]
      exact ⟨hl, by simpa using hname hj hc⟩
    · exact List.mem_append_left _ hl
  · rw [h.off_node hp hc]
    exact hl

theorem Step.dirs (h : Step MakeLink es e m m1) (p : List Str) (s : Str)
    (hdir : IsDir (dirsOf es ++ [e.dirList]) (p ++ [s])) :
    mkLink MakeLink s (nodeAt m1 (dkey (p ++ [s]))) ∈ (nodeAt m1 (dkey p)).links := by
  have hps : Known (dirsOf es ++ [e.dirList]) (p ++ [s]) := Or.inr hdir
  have hpk : Known (dirsOf es ++ [e.dirList]) p :=
    Or.inr (isDir_initial hdir (List.prefix_append p [s]))
  by_cases hc : p ++ [s] <+: e.dirList
  · obtain ⟨hj, _, hs, htake⟩ := prefix_snoc hc
    have hp : p <+: e.dirList := (List.prefix_append p [s]).trans hc
    rw [h.chain_links hp, dif_pos hj, hs]
    simp
  · have hold : IsDir (dirsOf es) (p ++ [s]) := by
      rcases (isDir_append_singleton _ _ _).mp hdir with h1 | h1
      · exact h1
      · exact absurd h1 hc
    rw [h.off_node hps hc]
    apply h.retained hpk (h.inv.dirs p s hold)
    intro hj hp hname
    apply hc
    have := snoc_prefix_of_index hp hj
    simp only [mkLink_name] at hname
    rwa [← hname] at this

theorem Step.only (h : Step MakeLink es e m m1) (p : List Str)
    (hp : Known (dirsOf es ++ [e.dirList]) p) (l : Link C)
    (hl : l ∈ (nodeAt m1 (dkey p)).links) :
    (∃ x ∈ es ++ [e], x.dirList = p ∧ l = mkLink MakeLink x.name x.node)
      ∨ ∃ s, IsDir (dirsOf es ++ [e.dirList]) (p ++ [s])
          ∧ l = mkLink MakeLink s (nodeAt m1 (dkey (p ++ [s]))) := by
  -- a link of the old node, not the one to the next segment of the new path
  have hold : l ∈ (nodeAt m (dkey p)).links →
      (∀ hj : p.length < e.dirList.length, p <+: e.dirList → l.Name ≠ e.dirList[p.length]) →
      (∃ x ∈ es ++ [e], x.dirList = p ∧ l = mkLink MakeLink x.name x.node)
        ∨ ∃ s, IsDir (dirsOf es ++ [e.dirList]) (p ++ [s])
            ∧ l = mkLink MakeLink s (nodeAt m1 (dkey (p ++ [s]))) := by
    intro hlo hname
    have hpo := h.old_links_known hp hlo
    rcases h.inv.only p hpo l hlo with ⟨x, hx, hxp, hxl⟩ | ⟨s, hs, hsl⟩
    · exact Or.inl ⟨x, List.mem_append_left _ hx, hxp, hxl⟩
    · right
      refine ⟨s, (isDir_append_singleton _ _ _).mpr (Or.inl hs), ?_⟩
      have hnc : ¬ p ++ [s] <+: e.dirList := by
        intro hc
        obtain ⟨hj, _, hsd, _⟩ := prefix_snoc hc
        apply hname hj ((List.prefix_append p [s]).trans hc)
        rw [hsl, mkLink_name, hsd]
      rw [h.off_node (Or.inr ((isDir_append_singleton _ _ _).mpr (Or.inl hs))) hnc]
      exact hsl
  by_cases hc : p <+: e.dirList
  · rw [h.chain_links hc] at hl
    split_ifs at hl with hj
    · rcases List.mem_append.mp hl with h1 | h1
      · rw [List.mem_filter] at h1
        exact hold h1.1 (fun _ _ => by simpa using h1.2)
      · right
        simp only [List.mem_singleton] at h1
        exact ⟨_, (isDir_append_singleton _ _ _).mpr (Or.inr (snoc_prefix_of_index hc hj)), h1⟩
    · rcases List.mem_append.mp hl with h1 | h1
      · exact hold h1 (fun hj' _ => absurd hj' hj)
      · left
        simp only [List.mem_singleton] at h1
        have hlen : p.length = e.dirList.length := by
          have := hc.length_le
          omega
        have hpe : p = e.dirList := by
          have := prefix_eq_take hc
          rw [hlen, List.take_length] at this
          exact this
        exact ⟨e, by simp, hpe.symm, h1⟩
  · rw [h.off_node hp hc] at hl
    exact hold hl (fun _ hc' => absurd hc' hc)

theorem Step.files (h : Step MakeLink es e m m1) (hc : NoClash (locsOf es ++ [(e.dirList, e.name)]))
    (x : Entry C) (hx : x ∈ es ++ [e]) :
    mkLink MakeLink x.name x.node ∈ (nodeAt m1 (dkey x.dirList)).links := by
  rcases List.mem_append.mp hx with h1 | h1
  · have hco : NoClash (locsOf es) := noClash_mono (fun a ha => List.mem_append_left _ ha) hc
    have hold := h.inv.files hco x h1
    have hxk : Known (dirsOf es ++ [e.dirList]) x.dirList :=
      h.known_old (Or.inr ⟨x.dirList, by simp [dirsOf]; exact ⟨x, h1, rfl⟩, List.prefix_refl _⟩)
    apply h.retained hxk hold
    intro hj hp hname
    simp only [mkLink_name] at hname
    have := snoc_prefix_of_index hp hj
    rw [← hname] at this
    exact hc (x.dirList, x.name)
      (List.mem_append_left _ (by simp [locsOf]; exact ⟨x, h1, rfl, rfl⟩))
      (e.dirList, e.name) (by simp) this
  · simp only [List.mem_singleton] at h1
    subst h1
    rw [h.chain_links (List.prefix_refl _)]
    simp

theorem Step.nodup (h : Step MakeLink es e m m1) (hc : NoClash (locsOf es ++ [(e.dirList, e.name)]))
    (hn : (locsOf es ++ [(e.dirList, e.name)]).Nodup) (p : List Str)
    (hp : Known (dirsOf es ++ [e.dirList]) p) :
    ((nodeAt m1 (dkey p)).links.map Link.Name).Nodup := by
  have hco : NoClash (locsOf es) := noClash_mono (fun a ha => List.mem_append_left _ ha) hc
  have hno : (locsOf es).Nodup := (List.nodup_append.mp hn).1
  have hold : ((nodeAt m (dkey p)).links.map Link.Name).Nodup := by
    by_cases hpo : Known (dirsOf es) p
    · exact h.inv.nodup hco hno p hpo
    · simp [nodeAt, h.old_none hp hpo, EmptyDirNode]
  by_cases hch : p <+: e.dirList
  · rw [h.chain_links hch]
    split_ifs with hj
    · rw [List.map_append, List.nodup_append]
      refine ⟨(hold.sublist ((List.filter_sublist _).map _)), by simp, ?_⟩
      intro a ha hb
      simp only [List.map_cons, List.map_nil, List.mem_singleton, mkLink_name] at hb
      obtain ⟨l, hl, rfl⟩ := List.mem_map.mp ha
      rw [List.mem_filter] at hl
      simpa [hb] using hl.2
    · have hlen : p.length = e.dirList.length := by
        have := hch.length_le
        omega
      have hpe : p = e.dirList := by
        have := prefix_eq_take hch
        rw [hlen, List.take_length] at this
        exact this
      rw [List.map_append, List.nodup_append]
      refine ⟨hold, by simp, ?_⟩
      intro a ha hb
      simp only [List.map_cons, List.map_nil, List.mem_singleton, mkLink_name] at hb
      obtain ⟨l, hl, rfl⟩ := List.mem_map.mp ha
      have hpo := h.old_links_known hp hl
      rcases h.inv.only p hpo l hl with ⟨x, hx, hxp, hxl⟩ | ⟨s, hs, hsl⟩
      · -- an earlier file at the same place
        have hxe : (x.dirList, x.name) = (e.dirList, e.name) := by
          rw [hxp, hpe, ← hb, hxl, mkLink_name]
        have hmem : (e.dirList, e.name) ∈ locsOf es := by
          rw [← hxe]; simp [locsOf]; exact ⟨x, hx, rfl, rfl⟩
        exact (List.nodup_append.mp hn).2.2 hmem (by simp)
      · -- a directory with the name of the file
        obtain ⟨d2, hd2, hpre⟩ := hs
        simp only [dirsOf, List.mem_map] at hd2
        obtain ⟨y, hy, rfl⟩ := hd2
        have hs_eq : s = e.name := by rw [← hb, hsl, mkLink_name]
        rw [hpe, hs_eq] at hpre
        exact hc (e.dirList, e.name) (by simp) (y.dirList, y.name)
          (List.mem_append_left _ (by simp [locsOf]; exact ⟨y, hy, rfl, rfl⟩)) hpre
  · rw [h.off_node hp hch]
    exact hold

/-- Placing one more file keeps the invariant. -/
theorem Step.inv_next (h : Step MakeLink es e m m1) : Inv MakeLink (es ++ [e]) m1 where
  dom1 := by rw [dirsOf_append]; exact h.dom1
  dom2 := by rw [dirsOf_append]; exact h.dom2
  data := h.data
  dirs := by rw [dirsOf_append]; exact h.dirs
  only := by rw [dirsOf_append]; exact h.only
  files := by rw [locsOf_append]; exact h.files
  nodup := by rw [locsOf_append, dirsOf_append]; exact h.nodup

end

/-! ## The invariant over the whole list, and what it gives -/

section

variable {C : Type} (MakeLink : ProtoNode C → Link C)

theorem placeAll_inv (rest : List (Entry C)) :
    ∀ (es : List (Entry C)) (m : DirNodeMap C), KeyInj (dirsOf (es ++ rest)) →
      Inv MakeLink es m →
      ∃ m1, placeAll MakeLink m rest = .ok m1 ∧ Inv MakeLink (es ++ rest) m1 := by
  induction rest with
  | nil =>
    intro es m _ hinv
    exact ⟨m, rfl, by simpa using hinv⟩
  | cons e rest ih =>
    intro es m hk hinv
    have hk1 : KeyInj (dirsOf es ++ [e.dirList]) := by
      refine keyInj_mono ?_ hk
      intro d hd
      simp only [dirsOf, List.map_append, List.map_cons, List.mem_append, List.mem_cons,
        List.mem_map, List.mem_singleton, List.not_mem_nil, or_false] at hd ⊢
      rcases hd with h | h
      · exact Or.inl h
      · exact Or.inr (Or.inl h)
    have hcd : ChainDistinct e.dirList :=
      chainDistinct_of_keyInj _ hk1 e.dirList (by simp)
    obtain ⟨root, hroot⟩ := hinv.dom1 [] (Or.inl rfl)
    have hroot2 : m rootKey = some root := by simpa [dkey] using hroot
    obtain ⟨m1, hm1, hspec⟩ := placeFile_spec MakeLink m e.dirList e.name e.node hcd root hroot2
    have hstep : Step MakeLink es e m m1 := ⟨hk1, hinv, hspec⟩
    have hk2 : KeyInj (dirsOf ((es ++ [e]) ++ rest)) := by
      simpa [List.append_assoc] using hk
    obtain ⟨m2, hm2, hinv2⟩ := ih (es ++ [e]) m1 hk2 hstep.inv_next
    refine ⟨m2, ?_, ?_⟩
    · simp only [placeAll, hm1]
      exact hm2
    · simpa [List.append_assoc] using hinv2

/-- The assembly over all entries returns a map for which the invariant holds. -/
theorem placeAll_final (es : List (Entry C)) (hk : KeyInj (dirsOf es)) :
    ∃ m, placeAll MakeLink initialDirNodeMap es = .ok m ∧ Inv MakeLink es m := by
  have := placeAll_inv MakeLink es [] initialDirNodeMap (by simpa using hk) (inv_init MakeLink)
  simpa using this

/-- In a map with the invariant, link names are distinct within every node. -/
theorem inv_names_nodup (es : List (Entry C)) (m : DirNodeMap C) (h : Inv MakeLink es m)
    (hc : NoClash (locsOf es)) (hn : (locsOf es).Nodup) (x : Str) (node : ProtoNode C)
    (hx : m x = some node) : (node.links.map Link.Name).Nodup := by
  obtain ⟨p, hp, rfl⟩ := h.dom2 x node hx
  have := h.nodup hc hn p hp
  simpa [nodeAt, hx] using this

/-- Two maps with the invariant for the same files have, under every known
directory, nodes with the same links up to order, when the link of a node
does not depend on the order of its links. -/
theorem inv_links_perm (es1 es2 : List (Entry C)) (hperm : es1.Perm es2)
    (m1 m2 : DirNodeMap C) (h1 : Inv MakeLink es1 m1) (h2 : Inv MakeLink es2 m2)
    (hc : NoClash (locsOf es1)) (hn : (locsOf es1).Nodup)
    (hML : ∀ (data : List Nat) (l1 l2 : List (Link C)), l1.Perm l2 →
      (l1.map Link.Name).Nodup → MakeLink ⟨data, l1⟩ = MakeLink ⟨data, l2⟩)
    (bound : Nat) (hb : ∀ p, Known (dirsOf es1) p → p.length ≤ bound) :
    ∀ (n : Nat) (p : List Str), Known (dirsOf es1) p → bound - p.length ≤ n →
      ((nodeAt m1 (dkey p)).links).Perm ((nodeAt m2 (dkey p)).links) := by
  have hmem : ∀ x, x ∈ es1 ↔ x ∈ es2 := fun x => hperm.mem_iff
  have hdirs : ∀ d, d ∈ dirsOf es1 ↔ d ∈ dirsOf es2 := by
    intro d
    simp only [dirsOf, List.mem_map]
    constructor
    · rintro ⟨x, hx, rfl⟩; exact ⟨x, (hmem x).mp hx, rfl⟩
    · rintro ⟨x, hx, rfl⟩; exact ⟨x, (hmem x).mpr hx, rfl⟩
  have hlocs : (locsOf es1).Perm (locsOf es2) := hperm.map _
  have hc2 : NoClash (locsOf es2) := noClash_mono (fun a ha => hlocs.mem_iff.mpr ha) hc
  have hn2 : (locsOf es2).Nodup := hlocs.nodup_iff.mp hn
  have hk12 : ∀ p, Known (dirsOf es1) p → Known (dirsOf es2) p :=
    fun p hp => known_mono (fun d hd => (hdirs d).mp hd) hp
  have hd12 : ∀ p, IsDir (dirsOf es1) p → IsDir (dirsOf es2) p :=
    fun p hp => isDir_mono (fun d hd => (hdirs d).mp hd) hp
  have hd21 : ∀ p, IsDir (dirsOf es2) p → IsDir (dirsOf es1) p :=
    fun p hp => isDir_mono (fun d hd => (hdirs d).mpr hd) hp
  have hnode : ∀ (a b : ProtoNode C), a.data = b.data → a.links.Perm b.links →
      (a.links.map Link.Name).Nodup → MakeLink a = MakeLink b := by
    intro a b hd hl hnd
    cases a with
    | mk da la =>
      cases b with
      | mk db lb =>
        simp only at hd hl hnd
        subst hd
        exact hML da la lb hl hnd
  intro n
  induction n with
  | zero =>
    intro p hp hle
    have hchild : ∀ s, ¬ IsDir (dirsOf es1) (p ++ [s]) := by
      intro s hs
      have := hb (p ++ [s]) (Or.inr hs)
      simp at this
      omega
    have hnd1 := (h1.nodup hc hn p hp).of_map
    have hnd2 := (h2.nodup hc2 hn2 p (hk12 p hp)).of_map
    rw [List.perm_ext_iff_of_nodup hnd1 hnd2]
    intro l
    constructor
    · intro hl
      rcases h1.only p hp l hl with ⟨x, hx, hxp, hxl⟩ | ⟨s, hs, _⟩
      · rw [hxl, ← hxp]
        exact h2.files hc2 x ((hmem x).mp hx)
      · exact absurd hs (hchild s)
    · intro hl
      rcases h2.only p (hk12 p hp) l hl with ⟨x, hx, hxp, hxl⟩ | ⟨s, hs, _⟩
      · rw [hxl, ← hxp]
        exact h1.files hc x ((hmem x).mpr hx)
      · exact absurd (hd21 _ hs) (hchild s)
  | succ n ih =>
    intro p hp hle
    have hchild : ∀ s, IsDir (dirsOf es1) (p ++ [s]) →
        mkLink MakeLink s (nodeAt m1 (dkey (p ++ [s])))
          = mkLink MakeLink s (nodeAt m2 (dkey (p ++ [s]))) := by
      intro s hs
      have hlen := hb (p ++ [s]) (Or.inr hs)
      have hperm2 := ih (p ++ [s]) (Or.inr hs) (by simp; omega)
      have hdata : (nodeAt m1 (dkey (p ++ [s]))).data = (nodeAt m2 (dkey (p ++ [s]))).data := by
        rw [nodeAt_data MakeLink es1 m1 h1, nodeAt_data MakeLink es2 m2 h2]
      unfold mkLink
      rw [hnode _ _ hdata hperm2 (h1.nodup hc hn (p ++ [s]) (Or.inr hs))]
    have hnd1 := (h1.nodup hc hn p hp).of_map
    have hnd2 := (h2.nodup hc2 hn2 p (hk12 p hp)).of_map
    rw [List.perm_ext_iff_of_nodup hnd1 hnd2]
    intro l
    constructor
    · intro hl
      rcases h1.only p hp l hl with ⟨x, hx, hxp, hxl⟩ | ⟨s, hs, hsl⟩
      · rw [hxl, ← hxp]
        exact h2.files hc2 x ((hmem x).mp hx)
      · rw [hsl, hchild s hs]
        exact h2.dirs p s (hd12 _ hs)
    · intro hl
      rcases h2.only p (hk12 p hp) l hl with ⟨x, hx, hxp, hxl⟩ | ⟨s, hs, hsl⟩
      · rw [hxl, ← hxp]
        exact h1.files hc x ((hmem x).mpr hx)
      · rw [hsl, ← hchild s (hd21 _ hs)]
        exact h1.dirs p s (hd21 _ hs)

end

/-! ## `path.Clean` is idempotent -/

theorem joinSlash_cons (s : Str) (t : List Str) (ht : t ≠ []) :
    joinSlash (s :: t) = s ++ '/' :: joinSlash t := by
  cases t with
  | nil => exact absurd rfl ht
  | cons a b => rfl

theorem joinSlash_append (a b : List Str) (ha : a ≠ []) (hb : b ≠ []) :
    joinSlash (a ++ b) = joinSlash a ++ '/' :: joinSlash b := by
  induction a with
  | nil => exact absurd rfl ha
  | cons x a ih =>
    cases a with
    | nil => simp [joinSlash_cons x b hb, joinSlash]
    | cons y a2 =>
      have h1 : (y :: a2) ++ b ≠ [] := by simp
      rw [List.cons_append, joinSlash_cons x _ h1, ih (by simp),
        joinSlash_cons x (y :: a2) (by simp)]
      simp

theorem joinSlash_snoc (cs : List Str) (s : Str) :
    joinSlash (cs ++ [s]) = if cs = [] then s else joinSlash cs ++ '/' :: s := by
  by_cases h : cs = []
  · subst h; simp [joinSlash]
  · rw [if_neg h, joinSlash_append cs [s] h (by simp)]
    simp [joinSlash]

theorem stringsSplit_ne_nil (sep : Char) (s : Str) : stringsSplit sep s ≠ [] := by
  induction s with
  | nil => simp [stringsSplit]
  | cons c t ih =>
    unfold stringsSplit
    split_ifs
    · simp
    · split <;> simp

theorem joinSlash_cons_cons (c : Char) (h : Str) (r : List Str) :
    joinSlash ((c :: h) :: r) = c :: joinSlash (h :: r) := by
  cases r with
  | nil => rfl
  | cons a b => rfl

theorem joinSlash_split (s : Str) : joinSlash (stringsSplit '/' s) = s := by
  induction s with
  | nil => rfl
  | cons c t ih =>
    unfold stringsSplit
    split_ifs with hc
    · rw [joinSlash_cons _ _ (stringsSplit_ne_nil _ _), ih, hc]; rfl
    · split
      · rename_i heq
        exact absurd heq (stringsSplit_ne_nil _ _)
      · rename_i h r heq
        rw [joinSlash_cons_cons, ← heq, ih]

theorem split_no_sep (s : Str) : ∀ c ∈ stringsSplit '/' s, '/' ∉ c := by
  induction s with
  | nil => simp [stringsSplit]
  | cons c t ih =>
    unfold stringsSplit
    split_ifs with hc
    · intro x hx
      rcases List.mem_cons.mp hx with h | h
      · subst h; simp
      · exact ih x h
    · split
      · rename_i heq
        exact absurd heq (stringsSplit_ne_nil _ _)
      · rename_i h r heq
        intro x hx
        rw [heq] at ih
        rcases List.mem_cons.mp hx with h1 | h1
        · subst h1
          have := ih h (by simp)
          intro hmem
          rcases List.mem_cons.mp hmem with h2 | h2
          · exact hc h2.symm
          · exact this h2
        · exact ih x (List.mem_cons_of_mem _ h1)

theorem cl_nil (r b : Bool) (out : Str) (dd : Nat) : cleanLoop r b [] out dd = out := by
  cases b <;> rfl

theorem cl_slash (r : Bool) (t out : Str) (dd : Nat) :
    cleanLoop r false ('/' :: t) out dd = cleanLoop r false t out dd := by
  cases t <;> simp [cleanLoop]

theorem cl_copy_end (r : Bool) (t out : Str) (dd : Nat) :
    cleanLoop r true ('/' :: t) out dd = cleanLoop r false t out dd := by
  simp [cleanLoop]

theorem cl_copy (r : Bool) (w tail out : Str) (dd : Nat) (hw : '/' ∉ w) :
    cleanLoop r true (w ++ tail) out dd = cleanLoop r true tail (out ++ w) dd := by
  induction w generalizing out with
  | nil => simp
  | cons c w ih =>
    have hc : c ≠ '/' := fun h => hw (by simp [h])
    have hw2 : '/' ∉ w := fun h => hw (List.mem_cons_of_mem _ h)
    rw [List.cons_append]
    simp only [cleanLoop, hc, if_false]
    rw [ih _ hw2]
    simp

theorem cl_tail (r : Bool) (tail out : Str) (dd : Nat) (ht : IsTail tail) :
    cleanLoop r false tail out dd = cleanLoop r false (tail.drop 1) out dd := by
  rcases ht with h | h
  · subst h; rfl
  · cases tail with
    | nil => simp at h
    | cons c t =>
      simp at h
      subst h
      simp [cl_slash]

theorem cl_tail_copy (r : Bool) (tail out : Str) (dd : Nat) (ht : IsTail tail) :
    cleanLoop r true tail out dd = cleanLoop r false (tail.drop 1) out dd := by
  rcases ht with h | h
  · subst h; simp [cl_nil]
  · cases tail with
    | nil => simp at h
    | cons c t =>
      simp at h
      subst h
      simp [cl_copy_end]

theorem cl_dot (r : Bool) (tail out : Str) (dd : Nat) (ht : IsTail tail) :
    cleanLoop r false ('.' :: tail) out dd = cleanLoop r false (tail.drop 1) out dd := by
  have h1 : cleanLoop r false ('.' :: tail) out dd = cleanLoop r false tail out dd := by
    rcases ht with h | h
    · subst h; simp [cleanLoop]
    · cases tail with
      | nil => simp at h
      | cons c t =>
        simp at h
        subst h
        simp [cleanLoop]
  rw [h1, cl_tail r tail out dd ht]

theorem cl_dotdot (r : Bool) (t2 out : Str) (dd : Nat) (ht : IsTail t2) :
    cleanLoop r false ('.' :: '.' :: t2) out dd
      = if dd < out.length then
          cleanLoop r false t2 (out.take (cleanBacktrack out dd (out.length - 1))) dd
        else if r = true then cleanLoop r false t2 out dd
        else
          cleanLoop r false t2 ((if 0 < out.length then out ++ ['/'] else out) ++ ['.', '.'])
            ((if 0 < out.length then out ++ ['/'] else out).length + 2) := by
  have ht2 : t2 = [] ∨ t2.head? = some '/' := ht
  rw [cleanLoop.eq_3]
  simp [ht2]

theorem cl_default (r : Bool) (c : Char) (w tail out : Str) (dd : Nat)
    (hn : Normal (c :: w)) (ht : IsTail tail) :
    cleanLoop r false (c :: (w ++ tail)) out dd
      = cleanLoop r true (w ++ tail) (sepOut r out ++ [c]) dd := by
  obtain ⟨_, hslash, hdot, hdd⟩ := hn
  have hc : c ≠ '/' := fun h => hslash (by simp [h])
  have hw : '/' ∉ w := fun h => hslash (List.mem_cons_of_mem _ h)
  cases hwt : w ++ tail with
  | nil =>
    have hw0 : w = [] := (List.append_eq_nil.mp hwt).1
    subst hw0
    have hcd : c ≠ '.' := fun h => hdot (by simp [h])
    rw [cleanLoop.eq_4]
    simp [hc, hcd, sepOut]
  | cons d t2 =>
    rw [cleanLoop.eq_3]
    have h2 : ¬ (c = '.' ∧ (d :: t2 = [] ∨ (d :: t2).head? = some '/')) := by
      rintro ⟨hcd, h⟩
      have hd : d = '/' := by simpa using h
      cases w with
      | nil => exact hdot (by simp [hcd])
      | cons a w2 =>
        simp at hwt
        exact hw (by simp [hwt.1, hd])
    have h3 : ¬ (c = '.' ∧ d = '.' ∧ (t2 = [] ∨ t2.head? = some '/')) := by
      rintro ⟨hcd, hd, h⟩
      cases w with
      | nil =>
        simp at hwt
        rcases ht with h0 | h0
        · rw [h0] at hwt; simp at hwt
        · rw [hwt] at h0; simp at h0; rw [hd] at h0; exact absurd h0 (by decide)
      | cons a w2 =>
        simp at hwt
        obtain ⟨ha, hw2⟩ := hwt
        have hw2nil : w2 = [] := by
          cases w2 with
          | nil => rfl
          | cons b w3 =>
            exfalso
            rw [← hw2] at h
            simp at h
            exact hw (by simp [h])
        apply hdd
        rw [hcd, ha, hd, hw2nil]
        rfl
    simp only [hc, h2, h3, if_false, sepOut]

theorem cl_normal (r : Bool) (c : Str) (tail out : Str) (dd : Nat)
    (hn : Normal c) (ht : IsTail tail) :
    cleanLoop r false (c ++ tail) out dd
      = cleanLoop r false (tail.drop 1) (sepOut r out ++ c) dd := by
  cases c with
  | nil => exact absurd rfl hn.1
  | cons a w =>
    have hw : '/' ∉ w := fun h => hn.2.1 (List.mem_cons_of_mem _ h)
    rw [List.cons_append, cl_default r a w tail out dd hn ht, cl_copy r w tail _ dd hw,
      cl_tail_copy r tail _ dd ht]
    simp

theorem backtrack_aux (P X : Str) (dd : Nat) (hdd : dd ≤ P.length)
    (hstop : P.length = dd ∨ (P ++ X).getD P.length '/' = '/')
    (hchars : ∀ w, P.length < w → w < (P ++ X).length → (P ++ X).getD w '/' ≠ '/') :
    ∀ n w, w = P.length + n → w < (P ++ X).length →
      cleanBacktrack (P ++ X) dd w = P.length := by
  intro n
  induction n with
  | zero =>
    intro w hw _
    simp at hw
    cases w with
    | zero => rw [← hw]; rfl
    | succ w2 =>
      unfold cleanBacktrack
      have : ¬ (dd < w2 + 1 ∧ (P ++ X).getD (w2 + 1) '/' ≠ '/') := by
        rintro ⟨h1, h2⟩
        rcases hstop with h | h
        · omega
        · rw [← hw] at h; exact h2 h
      rw [if_neg this, hw]
  | succ n ih =>
    intro w hw hlt
    subst hw
    have e : P.length + (n + 1) = (P.length + n) + 1 := by omega
    rw [e]
    unfold cleanBacktrack
    have : dd < P.length + n + 1 ∧ (P ++ X).getD (P.length + n + 1) '/' ≠ '/' :=
      ⟨by omega, hchars _ (by omega) (by omega)⟩
    rw [if_pos this]
    exact ih _ rfl (by omega)

theorem backtrack_eq (P X : Str) (dd : Nat) (hX : X ≠ []) (hdd : dd ≤ P.length)
    (hstop : P.length = dd ∨ (P ++ X).getD P.length '/' = '/')
    (hchars : ∀ w, P.length < w → w < (P ++ X).length → (P ++ X).getD w '/' ≠ '/') :
    (P ++ X).take (cleanBacktrack (P ++ X) dd ((P ++ X).length - 1)) = P := by
  have hXl : 0 < X.length := List.length_pos.mpr hX
  have := backtrack_aux P X dd hdd hstop hchars (X.length - 1) ((P ++ X).length - 1)
    (by simp; omega) (by simp; omega)
  rw [this]
  simp

theorem joinSlash_eq_nil (cs : List Str) (h : ∀ s ∈ cs, s ≠ []) :
    joinSlash cs = [] ↔ cs = [] := by
  constructor
  · intro hj
    cases cs with
    | nil => rfl
    | cons a t =>
      exfalso
      have ha := h a (by simp)
      cases t with
      | nil => exact ha (by simpa [joinSlash] using hj)
      | cons b t2 =>
        rw [joinSlash_cons a (b :: t2) (by simp)] at hj
        simp at hj
  · intro hc; subst hc; rfl

theorem stack_nonempty (r : Bool) (st : Nat × List Str) (hg : Good r st) :
    ∀ s ∈ stackOf st, s ≠ [] := by
  intro s hs
  rcases List.mem_append.mp hs with h | h
  · rw [List.eq_of_mem_replicate h]; simp [dotdot]
  · exact (hg.2 s h).1

theorem sepOut_render (r : Bool) (cs : List Str) (h : ∀ s ∈ cs, s ≠ []) (c : Str) :
    sepOut r (render r cs) ++ c = render r (cs ++ [c]) := by
  have hnil := joinSlash_eq_nil cs h
  unfold sepOut render
  rw [joinSlash_snoc]
  by_cases hc : cs = []
  · subst hc
    cases r <;> simp [rootOf, joinSlash]
  · have hj : joinSlash cs ≠ [] := fun e => hc (hnil.mp e)
    have hl : 0 < (joinSlash cs).length := List.length_pos.mpr hj
    rw [if_neg hc]
    cases r
    · have : ¬ (rootOf false ++ joinSlash cs).length = 0 := by
        simp [rootOf]; exact hj
      simp [rootOf, hj]
    · have : (rootOf true ++ joinSlash cs).length ≠ 1 := by
        simp [rootOf]; exact hj
      simp [rootOf, hj]

theorem joinSlash_length_le (a b : List Str) :
    (joinSlash a).length ≤ (joinSlash (a ++ b)).length := by
  by_cases ha : a = []
  · subst ha; simp [joinSlash]
  · by_cases hb : b = []
    · subst hb; simp
    · rw [joinSlash_append a b ha hb]; simp

theorem joinSlash_length_lt (a b : List Str) (hb : b ≠ []) (hne : ∀ s ∈ b, s ≠ []) :
    (joinSlash a).length < (joinSlash (a ++ b)).length := by
  by_cases ha : a = []
  · subst ha
    have : joinSlash b ≠ [] := fun e => hb ((joinSlash_eq_nil b hne).mp e)
    simpa [joinSlash] using List.length_pos.mpr this
  · rw [joinSlash_append a b ha hb]; simp

theorem dd_lt_iff (r : Bool) (st : Nat × List Str) (hg : Good r st) :
    ddv r st < (buf r st).length ↔ st.2 ≠ [] := by
  unfold ddv buf render stackOf
  constructor
  · intro h hnil
    rw [hnil] at h
    simp at h
  · intro h
    have := joinSlash_length_lt (List.replicate st.1 dotdot) st.2 h (fun s hs => (hg.2 s hs).1)
    simp only [List.length_append]
    omega

theorem pop_buf (r : Bool) (st : Nat × List Str) (hg : Good r st) (h : st.2 ≠ []) :
    (buf r st).take (cleanBacktrack (buf r st) (ddv r st) ((buf r st).length - 1))
      = buf r (st.1, st.2.dropLast) := by
  obtain ⟨k, ns⟩ := st
  simp only at h hg ⊢
  have hsplit : ns = ns.dropLast ++ [ns.getLast h] := (List.dropLast_append_getLast h).symm
  have hlast : Normal (ns.getLast h) := hg.2 _ (List.getLast_mem h)
  set last := ns.getLast h with hlastdef
  set cs := List.replicate k dotdot ++ ns.dropLast with hcs
  have hcsne : ∀ s ∈ cs, s ≠ [] := by
    apply stack_nonempty r (k, ns.dropLast)
    exact ⟨hg.1, fun s hs => hg.2 s (List.dropLast_subset ns hs)⟩
  have hbuf : buf r (k, ns) = render r cs ++ (if cs = [] then last else '/' :: last) := by
    unfold buf stackOf
    simp only
    rw [hsplit, ← List.append_assoc, ← hcs]
    unfold render
    rw [joinSlash_snoc]
    by_cases hc : cs = []
    · simp [hc, joinSlash]
    · simp [hc]
  have hbuf2 : buf r (k, ns.dropLast) = render r cs := rfl
  rw [hbuf2, hbuf]
  apply backtrack_eq
  · split_ifs
    · exact hlast.1
    · simp
  · unfold ddv render
    simp only [List.length_append]
    have := joinSlash_length_le (List.replicate k dotdot) ns.dropLast
    rw [← hcs] at this
    omega
  · by_cases hc : cs = []
    · left
      have hk : List.replicate k dotdot = [] := (List.append_eq_nil.mp hc).1
      unfold ddv
      simp only
      rw [hk, hc]
    · right
      rw [if_neg hc]
      simp only [List.getD_eq_getElem?_getD]
      rw [List.getElem?_append_right (le_refl _)]
      simp
  · intro w hw1 hw2
    have hX : ∀ x ∈ (if cs = [] then last else '/' :: last).tail, x ≠ '/' := by
      intro x hx hxe
      subst hxe
      split_ifs at hx
      · exact hlast.2.1 (List.mem_of_mem_tail hx)
      · exact hlast.2.1 (by simpa using hx)
    set X := (if cs = [] then last else '/' :: last) with hXdef
    rw [List.getD_eq_getElem?_getD, List.getElem?_eq_getElem hw2]
    simp only [Option.getD_some]
    rw [List.getElem_append_right (by omega)]
    apply hX
    have hi : w - (render r cs).length - 1 < X.tail.length := by
      simp only [List.length_tail]
      simp only [List.length_append] at hw2
      omega
    have hb : w - (render r cs).length < X.length := by
      simp only [List.length_append] at hw2
      omega
    have : X[w - (render r cs).length] = X.tail[w - (render r cs).length - 1] := by
      rw [List.getElem_tail]
      congr 1
      omega
    rw [this]
    exact List.getElem_mem _

theorem push_dotdot (k : Nat) :
    (if 0 < (buf false (k, [])).length then buf false (k, []) ++ ['/'] else buf false (k, []))
        ++ ['.', '.'] = buf false (k + 1, []) := by
  have hne : ∀ s ∈ List.replicate k dotdot, s ≠ [] := by
    intro s hs
    rw [List.eq_of_mem_replicate hs]; simp [dotdot]
  have hnil := joinSlash_eq_nil _ hne
  unfold buf render stackOf rootOf
  simp only [List.append_nil, Bool.false_eq_true, if_false, List.nil_append]
  rw [List.replicate_succ', joinSlash_snoc]
  by_cases hk : List.replicate k dotdot = []
  · rw [hk]; simp [joinSlash, dotdot]
  · have hj : joinSlash (List.replicate k dotdot) ≠ [] := fun e => hk (hnil.mp e)
    rw [if_neg hk, if_pos (List.length_pos.mpr hj)]
    simp [dotdot]

theorem ddv_eq_buf (r : Bool) (k : Nat) : ddv r (k, []) = (buf r (k, [])).length := by
  simp [ddv, buf, stackOf]

/-- One path element, followed by the end of the path or by a slash, takes
the scanning loop from the buffer of a stack to the buffer of the next stack. -/
theorem step_comp (r : Bool) (st : Nat × List Str) (hg : Good r st) (c : Str) (hc : '/' ∉ c)
    (tail : Str) (ht : IsTail tail) :
    cleanLoop r false (c ++ tail) (buf r st) (ddv r st)
        = cleanLoop r false (tail.drop 1) (buf r (astep r st c)) (ddv r (astep r st c))
      ∧ Good r (astep r st c) := by
  by_cases h1 : c = [] ∨ c = ['.']
  · have ha : astep r st c = st := by simp [astep, h1]
    rw [ha]
    refine ⟨?_, hg⟩
    rcases h1 with h | h
    · subst h; exact cl_tail r tail _ _ ht
    · subst h; exact cl_dot r tail _ _ ht
  · by_cases h2 : c = dotdot
    · subst h2
      have hcl := cl_dotdot r tail (buf r st) (ddv r st) ht
      have e : dotdot ++ tail = '.' :: '.' :: tail := rfl
      rw [e, hcl]
      by_cases h3 : st.2 ≠ []
      · have ha : astep r st dotdot = (st.1, st.2.dropLast) := by
          simp [astep, h1, h3, dotdot]
        rw [ha, if_pos ((dd_lt_iff r st hg).mpr h3), pop_buf r st hg h3]
        refine ⟨?_, hg.1, fun s hs => hg.2 s (List.dropLast_subset _ hs)⟩
        exact cl_tail r tail _ _ ht
      · have h3' : st.2 = [] := by simpa using h3
        have hnlt : ¬ ddv r st < (buf r st).length := fun h => h3 ((dd_lt_iff r st hg).mp h)
        rw [if_neg hnlt]
        by_cases hr : r = true
        · have ha : astep r st dotdot = st := by
            simp [astep, h3', hr, dotdot]
          rw [ha, if_pos hr]
          exact ⟨cl_tail r tail _ _ ht, hg⟩
        · have hrf : r = false := by simpa using hr
          subst hrf
          obtain ⟨k, ns⟩ := st
          simp only at h3'
          subst h3'
          have ha : astep false (k, []) dotdot = (k + 1, []) := by
            simp [astep, dotdot]
          rw [ha, if_neg hr, push_dotdot k]
          have hdd : (if 0 < (buf false (k, [])).length then buf false (k, []) ++ ['/']
              else buf false (k, [])).length + 2 = ddv false (k + 1, []) := by
            rw [ddv_eq_buf, ← push_dotdot k]
            simp
          rw [hdd]
          exact ⟨cl_tail false tail _ _ ht, by simp, by simp⟩
    · have hn : Normal c := by
        refine ⟨fun h => h1 (Or.inl h), hc, fun h => h1 (Or.inr h), h2⟩
      have ha : astep r st c = (st.1, st.2 ++ [c]) := by
        simp [astep, h1, h2]
      rw [ha, cl_normal r c tail _ _ hn ht]
      have hb : sepOut r (buf r st) ++ c = buf r (st.1, st.2 ++ [c]) := by
        unfold buf
        rw [sepOut_render r _ (stack_nonempty r st hg) c]
        simp [stackOf]
      rw [hb]
      refine ⟨rfl, hg.1, ?_⟩
      intro s hs
      rcases List.mem_append.mp hs with h | h
      · exact hg.2 s h
      · simp at h; subst h; exact hn

theorem joinSlash_cons_tail (c : Str) (cs : List Str) :
    ∃ tail, joinSlash (c :: cs) = c ++ tail ∧ IsTail tail ∧ tail.drop 1 = joinSlash cs := by
  cases cs with
  | nil => exact ⟨[], by simp [joinSlash], Or.inl rfl, rfl⟩
  | cons a t =>
    refine ⟨'/' :: joinSlash (a :: t), rfl, Or.inr rfl, rfl⟩

theorem clean_fold (r : Bool) (cs : List Str) (hcs : ∀ c ∈ cs, '/' ∉ c) :
    ∀ st, Good r st →
      cleanLoop r false (joinSlash cs) (buf r st) (ddv r st) = buf r (afold r st cs)
        ∧ Good r (afold r st cs) := by
  induction cs with
  | nil =>
    intro st hg
    exact ⟨cl_nil _ _ _ _, hg⟩
  | cons c cs ih =>
    intro st hg
    obtain ⟨tail, h1, h2, h3⟩ := joinSlash_cons_tail c cs
    obtain ⟨h4, h5⟩ := step_comp r st hg c (hcs c (by simp)) tail h2
    rw [h1, h4, h3]
    exact ih (fun x hx => hcs x (List.mem_cons_of_mem _ hx)) _ h5

theorem afold_normals (r : Bool) (ns : List Str) (hns : ∀ s ∈ ns, Normal s) :
    ∀ st : Nat × List Str, afold r st ns = (st.1, st.2 ++ ns) := by
  induction ns with
  | nil => intro st; simp [afold]
  | cons c ns ih =>
    intro st
    have hn := hns c (by simp)
    have ha : astep r st c = (st.1, st.2 ++ [c]) := by
      have h1 : ¬ (c = [] ∨ c = ['.']) := by
        rintro (h | h)
        · exact hn.1 h
        · exact hn.2.2.1 h
      simp [astep, h1, hn.2.2.2]
    have := ih (fun x hx => hns x (List.mem_cons_of_mem _ hx)) (astep r st c)
    unfold afold at this ⊢
    rw [List.foldl_cons, this, ha]
    simp

theorem afold_dotdots (k : Nat) : ∀ j : Nat,
    afold false (j, []) (List.replicate k dotdot) = (j + k, []) := by
  induction k with
  | zero => intro j; simp [afold]
  | succ k ih =>
    intro j
    have ha : astep false (j, []) dotdot = (j + 1, []) := by
      simp [astep, dotdot]
    have := ih (j + 1)
    unfold afold at this ⊢
    rw [List.replicate_succ, List.foldl_cons, ha, this]
    congr 1
    omega

theorem afold_stack (r : Bool) (st : Nat × List Str) (hg : Good r st) :
    afold r (0, []) (stackOf st) = st := by
  obtain ⟨k, ns⟩ := st
  unfold stackOf
  simp only
  have hsplit : afold r (0, []) (List.replicate k dotdot ++ ns)
      = afold r (afold r (0, []) (List.replicate k dotdot)) ns := by
    simp [afold, List.foldl_append]
  rw [hsplit]
  have hd : afold r (0, []) (List.replicate k dotdot) = (k, []) := by
    cases r
    · simpa using afold_dotdots k 0
    · have hk : k = 0 := hg.1 rfl
      subst hk
      simp [afold]
  rw [hd, afold_normals r ns hg.2]
  simp

theorem stack_no_slash (r : Bool) (st : Nat × List Str) (hg : Good r st) :
    ∀ s ∈ stackOf st, '/' ∉ s := by
  intro s hs
  rcases List.mem_append.mp hs with h | h
  · rw [List.eq_of_mem_replicate h]; simp [dotdot]
  · exact (hg.2 s h).2.1

/-- The result of `path.Clean`, as the buffer of a stack. -/
theorem pathClean_form (p : Str) :
    pathClean p = ['.'] ∨ ∃ r st, Good r st ∧ pathClean p = buf r st ∧ buf r st ≠ []
      ∧ (r = true ↔ (buf r st).head? = some '/') := by
  cases p with
  | nil => left; rfl
  | cons c t =>
    unfold pathClean
    simp only
    by_cases hc : c = '/'
    · right
      subst hc
      have h0 : Good true (0, []) := ⟨fun _ => rfl, by simp⟩
      have := clean_fold true (stringsSplit '/' t) (split_no_sep t) (0, []) h0
      rw [joinSlash_split] at this
      have hb : buf true (0, []) = ['/'] := rfl
      have hd : ddv true (0, []) = 1 := rfl
      rw [hb, hd] at this
      have hne : buf true (afold true (0, []) (stringsSplit '/' t)) ≠ [] := by
        simp [buf, render, rootOf]
      refine ⟨true, _, this.2, ?_, hne, ?_⟩
      · rw [if_pos rfl, this.1, if_neg hne]
      · simp [buf, render, rootOf]
    · have h0 : Good false (0, []) := ⟨fun h => by simp at h, by simp⟩
      have := clean_fold false (stringsSplit '/' (c :: t)) (split_no_sep _) (0, []) h0
      rw [joinSlash_split] at this
      have hb : buf false (0, []) = [] := rfl
      have hd : ddv false (0, []) = 0 := rfl
      rw [hb, hd] at this
      rw [if_neg hc, this.1]
      by_cases hne : buf false (afold false (0, []) (stringsSplit '/' (c :: t))) = []
      · left; rw [if_pos hne]
      · right
        refine ⟨false, _, this.2, by rw [if_neg hne], hne, ?_⟩
        simp only [Bool.false_eq_true, false_iff]
        set st := afold false (0, []) (stringsSplit '/' (c :: t)) with hst
        have hns := stack_no_slash false st this.2
        have hnn := stack_nonempty false st this.2
        unfold buf render rootOf at hne ⊢
        simp only [Bool.false_eq_true, if_false, List.nil_append] at hne ⊢
        cases hs : stackOf st with
        | nil => rw [hs] at hne; exact absurd rfl hne
        | cons x rest =>
          rw [hs] at hns hnn
          have hx1 := hnn x (by simp)
          have hx2 := hns x (by simp)
          obtain ⟨tail, h1, _, _⟩ := joinSlash_cons_tail x rest
          rw [h1]
          cases x with
          | nil => exact absurd rfl hx1
          | cons a w =>
            simp only [List.cons_append, List.head?_cons, Option.some.injEq]
            intro ha
            exact hx2 (by simp [ha])

/-- Cleaning a cleaned path changes nothing. -/
theorem pathClean_idem (p : Str) : pathClean (pathClean p) = pathClean p := by
  rcases pathClean_form p with h | ⟨r, st, hg, hp, hne, hroot⟩
  · rw [h]; decide
  · rw [hp]
    have hfold := clean_fold r (stackOf st) (stack_no_slash r st hg) (0, [])
      (by cases r <;> exact ⟨by simp, by simp⟩)
    rw [afold_stack r st hg] at hfold
    cases r
    · -- not rooted
      have hb : buf false (0, []) = [] := rfl
      have hd : ddv false (0, []) = 0 := rfl
      rw [hb, hd] at hfold
      have hj : joinSlash (stackOf st) = buf false st := by
        simp [buf, render, rootOf]
      rw [hj] at hfold
      cases hbuf : buf false st with
      | nil => exact absurd hbuf hne
      | cons c t =>
        have hc : c ≠ '/' := by
          intro hc
          have := hroot.mpr (by rw [hbuf, hc]; rfl)
          simp at this
        rw [hbuf] at hfold
        unfold pathClean
        simp only [hc, if_false, hfold.1]
        simp
    · -- rooted
      have hb : buf true (0, []) = ['/'] := rfl
      have hd : ddv true (0, []) = 1 := rfl
      rw [hb, hd] at hfold
      have hj : buf true st = '/' :: joinSlash (stackOf st) := by
        simp [buf, render, rootOf]
      rw [hj]
      unfold pathClean
      simp only [if_true, hfold.1]
      rw [hj]
      simp

/-! ## From the file list to the invariant -/

theorem noClash_of_noFileDirClash (ls : List (List Str × Str)) (h : NoFileDirClash ls) :
    NoClash ls := by
  intro a ha b hb hp
  have := h a ha b hb
  rw [← List.isPrefixOf_iff_prefix] at hp
  rw [hp] at this
  exact absurd this (by decide)

theorem dkey_of_ne_nil (p : List Str) (hp : p ≠ []) : dkey p = joinDot p := by
  simp [dkey, hp]

theorem getDirKey_initial (d p : List Str) (hp : p <+: d) (hne : p ≠ []) :
    ∃ i, i < d.length ∧ d.take (i + 1) = p ∧ getDirKey d i = some (dkey p) := by
  have hlen : 0 < p.length := List.length_pos.mpr hne
  have hle := hp.length_le
  refine ⟨p.length - 1, by omega, ?_, ?_⟩
  · have e : p.length - 1 + 1 = p.length := by omega
    rw [e]; exact (prefix_eq_take hp).symm
  · rw [getDirKey_eq d (p.length - 1) (by omega)]
    have e : p.length - 1 + 1 = p.length := by omega
    rw [e, ← prefix_eq_take hp, dkey_of_ne_nil p hne]

theorem keyInj_of_keysDistinct (ds : List (List Str)) (h : KeysDistinct ds) : KeyInj ds := by
  intro p q hp hq heq
  by_cases hp0 : p = []
  · by_cases hq0 : q = []
    · rw [hp0, hq0]
    · exfalso
      rcases hq with h0 | ⟨d2, hd2, hpre⟩
      · exact hq0 h0
      · obtain ⟨j, hj, _, hkey⟩ := getDirKey_initial d2 q hpre hq0
        have := (h d2 hd2 d2 hd2 j hj j hj).1
        apply this
        rw [hkey, ← heq, hp0]
        rfl
  · rcases hp with h0 | ⟨d1, hd1, hpre1⟩
    · exact absurd h0 hp0
    · obtain ⟨i, hi, hti, hkeyi⟩ := getDirKey_initial d1 p hpre1 hp0
      by_cases hq0 : q = []
      · exfalso
        have := (h d1 hd1 d1 hd1 i hi i hi).1
        apply this
        rw [hkeyi, heq, hq0]
        rfl
      · rcases hq with h0 | ⟨d2, hd2, hpre2⟩
        · exact absurd h0 hq0
        · obtain ⟨j, hj, htj, hkeyj⟩ := getDirKey_initial d2 q hpre2 hq0
          have := (h d1 hd1 d2 hd2 i hi j hj).2 (by rw [hkeyi, hkeyj, heq])
          rw [← hti, ← htj, this]

section

variable {C : Type} (MakeLink : ProtoNode C → Link C)

theorem assembleLoop_eq (fileNodeMap : Str → Option (ProtoNode C)) (fileList : List Finfo)
    (hnodes : ∀ item ∈ fileList, (fileNodeMap item.Path).isSome = true) :
    ∀ (parentPath : Str) (m : DirNodeMap C),
      assembleLoop MakeLink fileNodeMap parentPath m fileList
        = placeAll MakeLink m (fileList.map (entryOf fileNodeMap parentPath)) := by
  induction fileList with
  | nil => intro _ _; rfl
  | cons item rest ih =>
    intro parentPath m
    obtain ⟨fileNode, hf⟩ := Option.isSome_iff_exists.mp (hnodes item (by simp))
    have ih2 := ih (fun x hx => hnodes x (List.mem_cons_of_mem _ hx)) (pathClean parentPath)
    have hidem : ∀ x, entryOf fileNodeMap (pathClean parentPath) x
        = entryOf fileNodeMap parentPath x := by
      intro x
      simp [entryOf, dirListOf, pathClean_idem]
    simp only [assembleLoop, assembleItem, hf, List.map_cons, placeAll, entryOf, dirListOf,
      Option.getD_some]
    cases hpl : placeFile MakeLink (deriveDirList (pathClean parentPath) item.Path) item.Name
        fileNode m with
    | ok m1 =>
      simp only []
      rw [ih2 m1]
      congr 1
      apply List.map_congr_left
      intro x _
      exact hidem x
    | error e => rfl
    | panic e => rfl
    | fatal e => rfl

theorem dirsOf_map_entryOf (fileNodeMap : Str → Option (ProtoNode C)) (parentPath : Str)
    (fileList : List Finfo) :
    dirsOf (fileList.map (entryOf fileNodeMap parentPath))
      = fileList.map (dirListOf parentPath) := by
  simp [dirsOf, entryOf, Function.comp_def]

theorem locsOf_map_entryOf (fileNodeMap : Str → Option (ProtoNode C)) (parentPath : Str)
    (fileList : List Finfo) :
    locsOf (fileList.map (entryOf fileNodeMap parentPath))
      = fileList.map (placeOf parentPath) := by
  simp [locsOf, entryOf, placeOf, Function.comp_def]

/-- The assembly of a file list with collision-free keys returns a map for
which the invariant holds. -/
theorem assemble_inv (fileNodeMap : Str → Option (ProtoNode C)) (parentPath : Str)
    (fileList : List Finfo)
    (hnodes : ∀ item ∈ fileList, (fileNodeMap item.Path).isSome = true)
    (hkeys : KeysDistinct (fileList.map (dirListOf parentPath))) :
    ∃ m, assemble MakeLink fileNodeMap parentPath fileList = .ok m
      ∧ Inv MakeLink (fileList.map (entryOf fileNodeMap parentPath)) m := by
  unfold assemble
  rw [assembleLoop_eq MakeLink fileNodeMap fileList hnodes]
  apply placeAll_final
  rw [dirsOf_map_entryOf]
  exact keyInj_of_keysDistinct _ hkeys

end

/-! ## The loop over given file nodes: distinct names, links to every file, order -/

section

variable {C : Type} (MakeLink : ProtoNode C → Link C)

theorem follows_of_inv (es : List (Entry C)) (m : DirNodeMap C) (h : Inv MakeLink es m)
    (hc : NoClash (locsOf es)) (e : Entry C) (he : e ∈ es) :
    ∀ (suf pre : List Str) (node : ProtoNode C), pre ++ suf = e.dirList →
      m (dkey pre) = some node → Follows MakeLink m e.name e.node pre suf node := by
  intro suf
  induction suf with
  | nil =>
    intro pre node hpre hnode
    simp only [List.append_nil] at hpre
    have := h.files hc e he
    rw [← hpre] at this
    simpa [Follows, nodeAt, hnode] using this
  | cons s suf ih =>
    intro pre node hpre hnode
    have hdir : IsDir (dirsOf es) (pre ++ [s]) := by
      refine ⟨e.dirList, by simp [dirsOf]; exact ⟨e, he, rfl⟩, ?_⟩
      rw [← hpre]
      exact ⟨suf, by simp⟩
    obtain ⟨child, hchild⟩ := h.dom1 (pre ++ [s]) (Or.inr hdir)
    have hlink := h.dirs pre s hdir
    simp only [nodeAt, hnode, hchild, Option.getD_some] at hlink
    have hkey : getDirKey (pre ++ [s]) pre.length = some (dkey (pre ++ [s])) := by
      rw [getDirKey_eq _ _ (by simp)]
      have : (pre ++ [s]).take (pre.length + 1) = pre ++ [s] := by
        apply List.take_of_length_le; simp
      rw [this, dkey_of_ne_nil _ (by simp)]
    refine ⟨dkey (pre ++ [s]), child, hkey, hchild, hlink, ?_⟩
    exact ih (pre ++ [s]) child (by simp [← hpre]) hchild

theorem exists_length_bound (ds : List (List Str)) : ∃ B, ∀ d ∈ ds, d.length ≤ B := by
  induction ds with
  | nil => exact ⟨0, by simp⟩
  | cons d ds ih =>
    obtain ⟨B, hB⟩ := ih
    refine ⟨max B d.length, ?_⟩
    intro x hx
    rcases List.mem_cons.mp hx with h | h
    · subst h; exact le_max_right _ _
    · exact le_trans (hB x h) (le_max_left _ _)

/-- The loop over a given map of file nodes. When every file of the list has a
node, the keys of the directories do not collide, all files have distinct
places and no file has the place and name of a directory, the assembly returns
a map in which every node (the root included) has pairwise distinct link
names. -/
theorem assemble_link_names_distinct (fileNodeMap : Str → Option (ProtoNode C))
    (parentPath : Str) (fileList : List Finfo)
    (hnodes : ∀ item ∈ fileList, (fileNodeMap item.Path).isSome = true)
    (hkeys : KeysDistinct (fileList.map (dirListOf parentPath)))
    (hclash : NoFileDirClash (fileList.map (placeOf parentPath)))
    (hplaces : (fileList.map (placeOf parentPath)).Nodup) :
    ∃ m, assemble MakeLink fileNodeMap parentPath fileList = .ok m
      ∧ ∀ key node, m key = some node → (node.links.map Link.Name).Nodup := by
  obtain ⟨m, hm, hinv⟩ := assemble_inv MakeLink fileNodeMap parentPath fileList hnodes hkeys
  refine ⟨m, hm, ?_⟩
  intro key node hnode
  apply inv_names_nodup MakeLink _ m hinv _ _ key node hnode
  · rw [locsOf_map_entryOf]; exact noClash_of_noFileDirClash _ hclash
  · rw [locsOf_map_entryOf]; exact hplaces

/-- The loop over a given map of file nodes. When every file of the list has a
node, the keys of the directories do not collide and no file has the place and
name of a directory, the assembly returns a map with a root node in which
every file of the list is linked: along its derived segments every node holds
a link made from the node finally stored under the key of the next directory,
and the last of these nodes holds the link of the file. -/
theorem assemble_reaches_every_file (fileNodeMap : Str → Option (ProtoNode C))
    (parentPath : Str) (fileList : List Finfo)
    (hnodes : ∀ item ∈ fileList, (fileNodeMap item.Path).isSome = true)
    (hkeys : KeysDistinct (fileList.map (dirListOf parentPath)))
    (hclash : NoFileDirClash (fileList.map (placeOf parentPath))) :
    ∃ m root, assemble MakeLink fileNodeMap parentPath fileList = .ok m
      ∧ m rootKey = some root
      ∧ ∀ item ∈ fileList, ∀ fileNode, fileNodeMap item.Path = some fileNode →
          Follows MakeLink m item.Name fileNode [] (dirListOf parentPath item) root := by
  obtain ⟨m, hm, hinv⟩ := assemble_inv MakeLink fileNodeMap parentPath fileList hnodes hkeys
  obtain ⟨root, hroot⟩ := hinv.dom1 [] (Or.inl rfl)
  refine ⟨m, root, hm, by simpa [dkey] using hroot, ?_⟩
  intro item hitem fileNode hfile
  have hc : NoClash (locsOf (fileList.map (entryOf fileNodeMap parentPath))) := by
    rw [locsOf_map_entryOf]; exact noClash_of_noFileDirClash _ hclash
  have he : entryOf fileNodeMap parentPath item ∈ fileList.map (entryOf fileNodeMap parentPath) :=
    List.mem_map_of_mem _ hitem
  have := follows_of_inv MakeLink _ m hinv hc _ he (dirListOf parentPath item) [] root
    (by simp [entryOf]) hroot
  simpa [entryOf, hfile] using this

/-- The loop over a given map of file nodes. When every file of the list has a
node, the link of a node with distinct link names does not depend on the order
of its links, the keys of the directories do not collide, all files have
distinct places and no file has the place and name of a directory, the
assembly of a file list and of any permutation of it return maps with the same
keys, under every key nodes with the same data and the same links up to order,
and root nodes with the same link (size and CID). -/
theorem assemble_perm_invariant (fileNodeMap : Str → Option (ProtoNode C))
    (parentPath : Str) (fileList fileList2 : List Finfo)
    (hML : ∀ (data : List Nat) (l1 l2 : List (Link C)), l1.Perm l2 →
      (l1.map Link.Name).Nodup → MakeLink ⟨data, l1⟩ = MakeLink ⟨data, l2⟩)
    (hperm : fileList.Perm fileList2)
    (hnodes : ∀ item ∈ fileList, (fileNodeMap item.Path).isSome = true)
    (hkeys : KeysDistinct (fileList.map (dirListOf parentPath)))
    (hclash : NoFileDirClash (fileList.map (placeOf parentPath)))
    (hplaces : (fileList.map (placeOf parentPath)).Nodup) :
    ∃ m1 m2 root1 root2,
      assemble MakeLink fileNodeMap parentPath fileList = .ok m1
        ∧ assemble MakeLink fileNodeMap parentPath fileList2 = .ok m2
        ∧ m1 rootKey = some root1 ∧ m2 rootKey = some root2
        ∧ MakeLink root1 = MakeLink root2
        ∧ ∀ key, (m1 key).isSome = (m2 key).isSome
            ∧ ∀ n1 n2, m1 key = some n1 → m2 key = some n2 →
                n1.data = n2.data ∧ n1.links.Perm n2.links := by
  have hperm2 : (fileList.map (entryOf fileNodeMap parentPath)).Perm
      (fileList2.map (entryOf fileNodeMap parentPath)) := hperm.map _
  have hnodes2 : ∀ item ∈ fileList2, (fileNodeMap item.Path).isSome = true :=
    fun item hi => hnodes item (hperm.mem_iff.mpr hi)
  have hkeys2 : KeysDistinct (fileList2.map (dirListOf parentPath)) := by
    intro d1 hd1 d2 hd2
    exact hkeys d1 ((hperm.map _).mem_iff.mpr hd1) d2 ((hperm.map _).mem_iff.mpr hd2)
  obtain ⟨m1, hm1, hinv1⟩ := assemble_inv MakeLink fileNodeMap parentPath fileList hnodes hkeys
  obtain ⟨m2, hm2, hinv2⟩ :=
    assemble_inv MakeLink fileNodeMap parentPath fileList2 hnodes2 hkeys2
  have hc : NoClash (locsOf (fileList.map (entryOf fileNodeMap parentPath))) := by
    rw [locsOf_map_entryOf]; exact noClash_of_noFileDirClash _ hclash
  have hn : (locsOf (fileList.map (entryOf fileNodeMap parentPath))).Nodup := by
    rw [locsOf_map_entryOf]; exact hplaces
  obtain ⟨B, hB⟩ := exists_length_bound (dirsOf (fileList.map (entryOf fileNodeMap parentPath)))
  have hbound : ∀ p, Known (dirsOf (fileList.map (entryOf fileNodeMap parentPath))) p →
      p.length ≤ B := by
    intro p hp
    rcases hp with h0 | ⟨d, hd, hpre⟩
    · rw [h0]; exact Nat.zero_le _
    · exact le_trans hpre.length_le (hB d hd)
  have hlinks := fun p hp => inv_links_perm MakeLink _ _ hperm2 m1 m2 hinv1 hinv2 hc hn hML B
    hbound B p hp (Nat.sub_le _ _)
  have hk12 : ∀ p, Known (dirsOf (fileList.map (entryOf fileNodeMap parentPath))) p ↔
      Known (dirsOf (fileList2.map (entryOf fileNodeMap parentPath))) p := by
    intro p
    have hmem : ∀ d, d ∈ dirsOf (fileList.map (entryOf fileNodeMap parentPath)) ↔
        d ∈ dirsOf (fileList2.map (entryOf fileNodeMap parentPath)) :=
      fun d => (hperm2.map _).mem_iff
    exact ⟨fun h => known_mono (fun d hd => (hmem d).mp hd) h,
      fun h => known_mono (fun d hd => (hmem d).mpr hd) h⟩
  obtain ⟨root1, hroot1⟩ := hinv1.dom1 [] (Or.inl rfl)
  obtain ⟨root2, hroot2⟩ := hinv2.dom1 [] (Or.inl rfl)
  have hnodeeq : ∀ p, Known (dirsOf (fileList.map (entryOf fileNodeMap parentPath))) p →
      ∀ n1 n2, m1 (dkey p) = some n1 → m2 (dkey p) = some n2 →
        n1.data = n2.data ∧ n1.links.Perm n2.links := by
    intro p hp n1 n2 h1 h2
    have := hlinks p hp
    simp only [nodeAt, h1, h2, Option.getD_some] at this
    exact ⟨by rw [hinv1.data _ _ h1, hinv2.data _ _ h2], this⟩
  refine ⟨m1, m2, root1, root2, hm1, hm2, by simpa [dkey] using hroot1,
    by simpa [dkey] using hroot2, ?_, ?_⟩
  · obtain ⟨hd, hl⟩ := hnodeeq [] (Or.inl rfl) root1 root2 hroot1 hroot2
    have hnd := hinv1.nodup hc hn [] (Or.inl rfl)
    simp only [nodeAt, hroot1, Option.getD_some] at hnd
    cases root1 with
    | mk d1 l1 =>
      cases root2 with
      | mk d2 l2 =>
        simp only at hd hl hnd
        subst hd
        exact hML d1 l1 l2 hl hnd
  · intro key
    constructor
    · cases h1 : m1 key with
      | none =>
        cases h2 : m2 key with
        | none => rfl
        | some n2 =>
          exfalso
          obtain ⟨p, hp, hkey⟩ := hinv2.dom2 key n2 h2
          obtain ⟨n1, hn1⟩ := hinv1.dom1 p ((hk12 p).mpr hp)
          rw [hkey, hn1] at h1
          exact absurd h1 (by simp)
      | some n1 =>
        obtain ⟨p, hp, hkey⟩ := hinv1.dom2 key n1 h1
        obtain ⟨n2, hn2⟩ := hinv2.dom1 p ((hk12 p).mp hp)
        rw [hkey, hn2]
        rfl
    · intro n1 n2 h1 h2
      obtain ⟨p, hp, hkey⟩ := hinv1.dom2 key n1 h1
      rw [hkey] at h1 h2
      exact hnodeeq p hp n1 n2 h1 h2

end

/-! ## Varints and the frame loop -/

theorem lor_shift (acc y s : Nat) (hacc : acc < 2 ^ s) : acc ||| (y * 2 ^ s) = acc + y * 2 ^ s := by
  rw [Nat.or_comm, Nat.mul_comm y, ← Nat.mul_add_lt_is_or hacc y, Nat.add_comm]

theorem pow_split (i : Nat) (hi : i ≤ 9) : 2 ^ (64 - 7 * i) * 2 ^ (7 * i) = 2 ^ 64 := by
  rw [← Nat.pow_add]
  congr 1
  omega

theorem uvarintLoop_put (fuel : Nat) :
    ∀ (x i acc : Nat) (rest : List Nat), x < 128 ^ (fuel + 1) → i ≤ 9 → acc < 2 ^ (7 * i) →
      x < 2 ^ (64 - 7 * i) →
      uvarintLoop (putUvarint (fuel + 1) x ++ rest) i acc (7 * i)
        = (acc + x * 2 ^ (7 * i), (i : Int) + (putUvarint (fuel + 1) x).length) := by
  induction fuel with
  | zero =>
    intro x i acc rest hx hi hacc hfit
    have hx128 : x < 128 := by simpa using hx
    have hlt : x * 2 ^ (7 * i) < 2 ^ 64 := by
      rw [← pow_split i hi]
      exact Nat.mul_lt_mul_of_pos_right hfit (Nat.two_pow_pos _)
    have hi10 : i ≠ 10 := by omega
    have h9 : ¬ (i = 9 ∧ x > 1) := by
      rintro ⟨h, hx1⟩
      subst h
      have : x < 2 := by simpa using hfit
      omega
    simp only [putUvarint, hx128, if_true, List.singleton_append, List.cons_append,
      List.nil_append, uvarintLoop, hi10, if_false, h9, List.length_singleton]
    rw [Nat.shiftLeft_eq, Nat.mod_eq_of_lt hlt, lor_shift _ _ _ hacc]
    simp
  | succ fuel ih =>
    intro x i acc rest hx hi hacc hfit
    by_cases hx128 : x < 128
    · have hlt : x * 2 ^ (7 * i) < 2 ^ 64 := by
        rw [← pow_split i hi]
        exact Nat.mul_lt_mul_of_pos_right hfit (Nat.two_pow_pos _)
      have hi10 : i ≠ 10 := by omega
      have h9 : ¬ (i = 9 ∧ x > 1) := by
        rintro ⟨h, hx1⟩
        subst h
        have : x < 2 := by simpa using hfit
        omega
      simp only [putUvarint, hx128, if_true, List.singleton_append, List.cons_append,
        List.nil_append, uvarintLoop, hi10, if_false, h9, List.length_singleton]
      rw [Nat.shiftLeft_eq, Nat.mod_eq_of_lt hlt, lor_shift _ _ _ hacc]
      simp
    · have hge : 128 ≤ x := by omega
      -- a further byte follows, so the index is at most 8
      have hi8 : i ≤ 8 := by
        by_contra h
        have hi9 : i = 9 := by omega
        subst hi9
        have : x < 2 := by simpa using hfit
        omega
      have hi10 : i ≠ 10 := by omega
      have hb : ¬ (x % 128 + 128 < 128) := by omega
      have hand : (x % 128 + 128) &&& 127 = x % 128 := by
        have h127 : (127 : Nat) = 2 ^ 7 - 1 := by norm_num
        rw [h127, Nat.and_pow_two_sub_one_eq_mod]
        omega
      have hlow : x % 128 * 2 ^ (7 * i) < 2 ^ 64 := by
        have h1 : x % 128 < 2 ^ 7 := by
          have : x % 128 < 128 := Nat.mod_lt _ (by norm_num)
          simpa using this
        have h2 : 2 ^ 7 * 2 ^ (7 * i) ≤ 2 ^ 64 := by
          rw [← Nat.pow_add]
          exact Nat.pow_le_pow_right (by norm_num) (by omega)
        calc x % 128 * 2 ^ (7 * i) < 2 ^ 7 * 2 ^ (7 * i) :=
              Nat.mul_lt_mul_of_pos_right h1 (Nat.two_pow_pos _)
          _ ≤ 2 ^ 64 := h2
      have hacc2 : acc + x % 128 * 2 ^ (7 * i) < 2 ^ (7 * (i + 1)) := by
        have h1 : x % 128 + 1 ≤ 128 := Nat.mod_lt _ (by norm_num)
        have e : 2 ^ (7 * (i + 1)) = 128 * 2 ^ (7 * i) := by
          rw [Nat.mul_add, Nat.pow_add]; ring
        rw [e]
        calc acc + x % 128 * 2 ^ (7 * i) < 2 ^ (7 * i) + x % 128 * 2 ^ (7 * i) := by omega
          _ = (x % 128 + 1) * 2 ^ (7 * i) := by ring
          _ ≤ 128 * 2 ^ (7 * i) := Nat.mul_le_mul_right _ h1
      have hx2 : x / 128 < 128 ^ (fuel + 1) := by
        rw [Nat.div_lt_iff_lt_mul (by norm_num)]
        calc x < 128 ^ (fuel + 1 + 1) := hx
          _ = 128 ^ (fuel + 1) * 128 := by ring
      have hfit2 : x / 128 < 2 ^ (64 - 7 * (i + 1)) := by
        rw [Nat.div_lt_iff_lt_mul (by norm_num)]
        have e : 2 ^ (64 - 7 * (i + 1)) * 128 = 2 ^ (64 - 7 * i) := by
          have : (128 : Nat) = 2 ^ 7 := by norm_num
          rw [this, ← Nat.pow_add]
          congr 1
          omega
        rw [e]; exact hfit
      have hstep := ih (x / 128) (i + 1) (acc + x % 128 * 2 ^ (7 * i)) rest hx2 (by omega)
        hacc2 hfit2
      have e7 : 7 * i + 7 = 7 * (i + 1) := by ring
      rw [putUvarint]
      simp only [hx128, if_false, List.cons_append, uvarintLoop, hi10, hb, hand]
      rw [Nat.shiftLeft_eq, Nat.mod_eq_of_lt hlow, lor_shift _ _ _ hacc, e7, hstep]
      refine Prod.ext ?_ ?_
      · simp only
        have e : 2 ^ (7 * (i + 1)) = 128 * 2 ^ (7 * i) := by
          rw [Nat.mul_add, Nat.pow_add]; ring
        rw [e]
        have hdm := Nat.div_add_mod x 128
        calc acc + x % 128 * 2 ^ (7 * i) + x / 128 * (128 * 2 ^ (7 * i))
            = acc + (128 * (x / 128) + x % 128) * 2 ^ (7 * i) := by ring
          _ = acc + x * 2 ^ (7 * i) := by rw [hdm]
      · simp only [List.length_cons]
        push_cast
        ring

/-- Decoding an encoded value gives the value and the length of the encoding. -/
theorem Uvarint_putUvarint (x : Nat) (hx : x < 2 ^ 64) (rest : List Nat) :
    Uvarint (putUvarint 10 x ++ rest) = (x, ((putUvarint 10 x).length : Int)) := by
  have h := uvarintLoop_put 9 x 0 0 rest
    (lt_of_lt_of_le hx (by norm_num)) (by norm_num) (by norm_num) (by simpa using hx)
  unfold Uvarint
  simpa using h

theorem putUvarint_length (fuel x : Nat) :
    1 ≤ (putUvarint (fuel + 1) x).length ∧ (putUvarint (fuel + 1) x).length ≤ fuel + 1 := by
  induction fuel generalizing x with
  | zero =>
    unfold putUvarint
    split_ifs <;> simp [putUvarint]
  | succ fuel ih =>
    rw [putUvarint]
    split_ifs
    · simp
    · have := ih (x / 128)
      simp only [List.length_cons]
      omega

theorem putUvarint_ten_length (x : Nat) :
    1 ≤ (putUvarint 10 x).length ∧ (putUvarint 10 x).length ≤ 10 :=
  putUvarint_length 9 x

theorem Uvarint_take_put (x : Nat) (hx : x < 2 ^ 64) (rest : List Nat) :
    Uvarint ((putUvarint 10 x ++ rest).take 10) = (x, ((putUvarint 10 x).length : Int)) := by
  have hlen := (putUvarint_ten_length x).2
  rw [List.take_append_eq_append_take, List.take_of_length_le hlen]
  exact Uvarint_putUvarint x hx _

/-- The bytes of the frames hold the bytes of the last frame. -/
theorem framesBytes_length_ge_last (frames : List (List Nat × List Nat)) :
    ∀ f, frames.getLast? = some f → (frameBytes f.1 f.2).length ≤ (framesBytes frames).length := by
  induction frames with
  | nil => intro f h; simp at h
  | cons g rest ih =>
    intro f h
    cases rest with
    | nil =>
      simp only [List.getLast?_singleton, Option.some.injEq] at h
      subst h
      simp [framesBytes]
    | cons g2 rest2 =>
      rw [List.getLast?_cons_cons] at h
      have := ih f h
      rw [framesBytes, List.length_append]
      omega

/-- Every frame has at least the byte of its varint. -/
theorem framesBytes_length_ge (frames : List (List Nat × List Nat)) :
    frames.length ≤ (framesBytes frames).length := by
  induction frames with
  | nil => simp [framesBytes]
  | cons f fs ih =>
    have hv := putUvarint_ten_length (f.1.length + f.2.length)
    simp only [framesBytes, List.length_append, List.length_cons, frameBytes]
    omega

/-- The frame loop over the frames of an archive: when no frame is larger
than 2 MiB and the last frame has at least ten bytes, every frame is consumed
and counted. -/
theorem frameLoop_frames (frames : List (List Nat × List Nat)) :
    ∀ (sc : Scan) (fuel : Nat), sc.rest = framesBytes frames → frames.length < fuel →
      (∀ f ∈ frames, f.1.length + f.2.length ≤ 2 <<< 20) →
      (∀ f, frames.getLast? = some f → 10 ≤ (frameBytes f.1 f.2).length) →
      frameLoop fuel sc = some ⟨[], sc.streamLen + (framesBytes frames).length,
        sc.blockCount + frames.length, sc.brokenCar⟩ := by
  induction frames with
  | nil =>
    intro sc fuel hrest hfuel _ _
    obtain ⟨fuel, rfl⟩ : ∃ k, fuel = k + 1 := ⟨fuel - 1, by omega⟩
    obtain ⟨rest, sl, bc, br⟩ := sc
    simp only [framesBytes] at hrest
    subst hrest
    simp [frameLoop, framesBytes]
  | cons f fs ih =>
    intro sc fuel hrest hfuel hall hlast
    obtain ⟨fuel, rfl⟩ : ∃ k, fuel = k + 1 := ⟨fuel - 1, by omega⟩
    obtain ⟨rest, sl, bc, br⟩ := sc
    simp only [framesBytes] at hrest
    subst hrest
    have hsize := hall f (by simp)
    have hsize2 : f.1.length + f.2.length ≤ 2097152 := by simpa using hsize
    have hx : f.1.length + f.2.length < 2 ^ 64 := by
      have : (2097152 : Nat) < 2 ^ 64 := by norm_num
      omega
    have hv := putUvarint_ten_length (f.1.length + f.2.length)
    have hflen : (frameBytes f.1 f.2).length
        = (putUvarint 10 (f.1.length + f.2.length)).length + (f.1.length + f.2.length) := by
      simp [frameBytes]
    have hU : Uvarint ((frameBytes f.1 f.2 ++ framesBytes fs).take 10)
        = (f.1.length + f.2.length, ((putUvarint 10 (f.1.length + f.2.length)).length : Int)) := by
      unfold frameBytes
      rw [List.append_assoc, List.append_assoc]
      exact Uvarint_take_put _ hx _
    -- ten bytes are left: the last frame alone has ten
    have hlast2 : ∀ g, fs.getLast? = some g → 10 ≤ (frameBytes g.1 g.2).length := by
      intro g hg
      apply hlast g
      cases fs with
      | nil => simp at hg
      | cons g2 rest2 => rw [List.getLast?_cons_cons]; exact hg
    have hge : ¬ (frameBytes f.1 f.2 ++ framesBytes fs).length < 10 := by
      rw [List.length_append]
      cases hfs : fs.getLast? with
      | none =>
        have hnil : fs = [] := by
          cases fs with
          | nil => rfl
          | cons g2 rest2 => simp [List.getLast?_cons] at hfs
        subst hnil
        have := hlast f (by simp)
        omega
      | some g =>
        have h1 := hlast2 g hfs
        have h2 := framesBytes_length_ge_last fs g hfs
        omega
    have hih := ih ⟨framesBytes fs, sl + (frameBytes f.1 f.2).length, bc + 1, br⟩ fuel rfl
      (by simpa using hfuel) (fun g hg => hall g (List.mem_cons_of_mem _ hg)) hlast2
    have hpos : ¬ ((putUvarint 10 (f.1.length + f.2.length)).length : Int) ≤ 0 := by
      have : (1 : Int) ≤ ((putUvarint 10 (f.1.length + f.2.length)).length : Int) := by
        exact_mod_cast hv.1
      omega
    have hbig : ¬ f.1.length + f.2.length > 2 <<< 20 := by omega
    have hwant : ((putUvarint 10 (f.1.length + f.2.length)).length : Int).toNat
        + (f.1.length + f.2.length) = (frameBytes f.1 f.2).length := by
      rw [hflen]; simp
    rw [frameLoop]
    simp only [hge, if_false, hU, hpos, hbig, hwant]
    have hmin : min (frameBytes f.1 f.2).length (frameBytes f.1 f.2 ++ framesBytes fs).length
        = (frameBytes f.1 f.2).length := by
      rw [List.length_append]; omega
    rw [hmin]
    simp only [lt_irrefl, if_false, List.drop_left]
    rw [hih]
    simp only [framesBytes, List.length_append, List.length_cons]
    congr 2 <;> omega

/-- C8 (amended). For an archive whose header decodes with version 1, is not
empty and can be allocated, whose stream has at least ten bytes, whose frames
each carry at most 2 MiB of CID and node bytes, and whose last frame has at
least ten bytes (varint included), the speculative parse reads the whole
stream, recovers the header, counts exactly the frames of the archive and does
not mark the stream broken. -/
theorem speculativeParse_archive (memLimit : Nat) (DecodeInto : List Nat → Option CarHeader)
    (hdr : List Nat) (carHdr : CarHeader) (frames : List (List Nat × List Nat))
    (hdecode : DecodeInto hdr = some carHdr) (hversion : carHdr.Version = 1)
    (hhdr : 0 < hdr.length ∧ hdr.length ≤ maxAlloc ∧ hdr.length ≤ memLimit)
    (hpeek : 10 ≤ (carStream hdr frames).length)
    (hframes : ∀ f ∈ frames, f.1.length + f.2.length ≤ 2 <<< 20)
    (hlast : ∀ f, frames.getLast? = some f → 10 ≤ (frameBytes f.1 f.2).length) :
    speculativeParse memLimit DecodeInto (carStream hdr frames)
      = some (.ok (⟨[], (carStream hdr frames).length, frames.length, false⟩, some carHdr)) := by
  obtain ⟨h0, hmax, hmem⟩ := hhdr
  have hx : hdr.length < 2 ^ 64 := by
    have : maxAlloc < 2 ^ 64 := by unfold maxAlloc; norm_num
    omega
  have hv := putUvarint_ten_length hdr.length
  have hU : Uvarint ((carStream hdr frames).take 10)
      = (hdr.length, ((putUvarint 10 hdr.length).length : Int)) := by
    unfold carStream
    rw [List.append_assoc]
    exact Uvarint_take_put _ hx _
  have hlen : (carStream hdr frames).length
      = (putUvarint 10 hdr.length).length + hdr.length + (framesBytes frames).length := by
    simp [carStream]; omega
  have hge : ¬ (carStream hdr frames).length < 10 := by omega
  have hpos : ((putUvarint 10 hdr.length).length : Int) > 0 ∧ hdr.length > 0 := by
    constructor
    · have : (1 : Int) ≤ ((putUvarint 10 hdr.length).length : Int) := by exact_mod_cast hv.1
      omega
    · omega
  have hdrop1 : (carStream hdr frames).drop (putUvarint 10 hdr.length).length
      = hdr ++ framesBytes frames := by
    unfold carStream
    rw [List.append_assoc, List.drop_left]
  have hframesLen := framesBytes_length_ge frames
  have hloop := frameLoop_frames frames
    ⟨framesBytes frames, (putUvarint 10 hdr.length).length + hdr.length, 0, false⟩
    ((framesBytes frames).length + 1) rfl (by omega) hframes hlast
  have hmake : makeSlice memLimit hdr.length = .ok () := by
    unfold makeSlice
    rw [if_neg (by omega), if_neg (by omega)]
  unfold speculativeParse
  simp only [hge, if_false, hU, hpos, and_self, if_true, Int.toNat_ofNat, hdrop1, hmake]
  have hmin1 : min (putUvarint 10 hdr.length).length (carStream hdr frames).length
      = (putUvarint 10 hdr.length).length := by
    rw [hlen]; omega
  have hmin2 : min hdr.length (hdr ++ framesBytes frames).length = hdr.length := by
    rw [List.length_append]; omega
  simp only [hmin1, lt_irrefl, if_false, hmin2, List.take_left, List.drop_left, hdecode,
    hversion, if_true, hloop]
  simp only [zero_add, hlen]

/-! ## The loop over given file nodes at particular file lists -/

theorem checksumLink_perm (data : List Nat) (l1 l2 : List (Link Nat)) (h : l1.Perm l2)
    (_hn : (l1.map Link.Name).Nodup) : checksumLink ⟨data, l1⟩ = checksumLink ⟨data, l2⟩ := by
  unfold checksumLink
  simp only
  rw [(h.map _).sum_eq]

/-- The loop over a given map of file nodes depends on the order of the list:
with nodes for a file named `dir` under the root and for a file in the
directory `dir`, the root ends with one link in one order and with two in the
other. -/
theorem assemble_order_changes_root :
    [plainFile "dir" "dir", plainFile "dir/x" "x"].Perm
        [plainFile "dir/x" "x", plainFile "dir" "dir"]
      ∧ linkNamesAt (assemble symMakeLink sampleNodes "".toList
          [plainFile "dir" "dir", plainFile "dir/x" "x"]) "root" = some ["dir"]
      ∧ linkNamesAt (assemble symMakeLink sampleNodes "".toList
          [plainFile "dir/x" "x", plainFile "dir" "dir"]) "root" = some ["dir", "dir"] :=
  ⟨List.Perm.swap _ _ _, by decide, by decide⟩

/-- The loop over a given map of file nodes does not look up file names: a
file that is listed twice gets two links of the same name under the root. -/
theorem assemble_duplicate_link_names :
    linkNamesAt (assemble symMakeLink sampleNodes "".toList
        [plainFile "a.txt" "a.txt", plainFile "a.txt" "a.txt"]) "root" = some ["a.txt", "a.txt"]
      ∧ ¬ (["a.txt", "a.txt"] : List String).Nodup := by
  decide

/-- The loop over a given map of file nodes replaces a file link by a
directory link of the same name: after a file named `dir` under the root and a
file in the directory `dir`, the only link of the root is the one to the
directory node. -/
theorem assemble_file_replaced_by_directory :
    rootLinks (assemble symMakeLink sampleNodes "".toList
        [plainFile "dir" "dir", plainFile "dir/x" "x"])
        = some [("dir", SymCid.mk [8, 1] [("x".toList, SymCid.mk [100, 105, 114, 47, 120] [])])]
      ∧ (symMakeLink (leafNode ("dir".toList.map Char.toNat))).Cid
        ≠ SymCid.mk [8, 1] [("x".toList, SymCid.mk [100, 105, 114, 47, 120] [])] := by
  constructor
  · rfl
  · simp [symMakeLink, leafNode, symLinks]

/-- The loop over given file nodes, at scenario A and its reverse. -/
theorem assemble_perm_invariant_scenarioA :
    (scenarioFiles.Perm scenarioFiles.reverse
      ∧ KeysDistinct (scenarioFiles.map (dirListOf "".toList))
      ∧ NoFileDirClash (scenarioFiles.map (placeOf "".toList))
      ∧ (scenarioFiles.map (placeOf "".toList)).Nodup)
    ∧ ∃ m1 m2 root1 root2,
      assemble checksumLink checksumNodes "".toList scenarioFiles = .ok m1
        ∧ assemble checksumLink checksumNodes "".toList scenarioFiles.reverse = .ok m2
        ∧ m1 rootKey = some root1 ∧ m2 rootKey = some root2
        ∧ checksumLink root1 = checksumLink root2
        ∧ ∀ key, (m1 key).isSome = (m2 key).isSome
            ∧ ∀ n1 n2, m1 key = some n1 → m2 key = some n2 →
                n1.data = n2.data ∧ n1.links.Perm n2.links :=
  ⟨⟨(List.reverse_perm _).symm, by decide, by decide, by decide⟩,
    assemble_perm_invariant checksumLink checksumNodes "".toList scenarioFiles
      scenarioFiles.reverse checksumLink_perm (List.reverse_perm _).symm
      (fun _ _ => rfl) (by decide) (by decide) (by decide)⟩

/-- The loop over given file nodes, at scenario A. -/
theorem assemble_link_names_distinct_scenarioA :
    (KeysDistinct (scenarioFiles.map (dirListOf "".toList))
      ∧ NoFileDirClash (scenarioFiles.map (placeOf "".toList))
      ∧ (scenarioFiles.map (placeOf "".toList)).Nodup)
    ∧ ∃ m, assemble symMakeLink sampleNodes "".toList scenarioFiles = .ok m
      ∧ ∀ key node, m key = some node → (node.links.map Link.Name).Nodup :=
  ⟨⟨by decide, by decide, by decide⟩,
    assemble_link_names_distinct symMakeLink sampleNodes "".toList scenarioFiles
      (fun _ _ => rfl) (by decide) (by decide) (by decide)⟩

/-- The loop over given file nodes, at scenario A: the root has the links
`a.txt` and `dir`, `dir` has `b.txt` and `sub`, `sub` has `c.txt`, and every
file is linked. -/
theorem assemble_reaches_every_file_scenarioA :
    (KeysDistinct (scenarioFiles.map (dirListOf "".toList))
      ∧ NoFileDirClash (scenarioFiles.map (placeOf "".toList)))
    ∧ (linkNamesAt (assemble symMakeLink sampleNodes "".toList scenarioFiles) "root"
          = some ["a.txt", "dir"]
        ∧ linkNamesAt (assemble symMakeLink sampleNodes "".toList scenarioFiles) "dir"
          = some ["b.txt", "sub"]
        ∧ linkNamesAt (assemble symMakeLink sampleNodes "".toList scenarioFiles) "dir.sub"
          = some ["c.txt"])
    ∧ ∃ m root, assemble symMakeLink sampleNodes "".toList scenarioFiles = .ok m
      ∧ m rootKey = some root
      ∧ ∀ item ∈ scenarioFiles, ∀ fileNode, sampleNodes item.Path = some fileNode →
          Follows symMakeLink m item.Name fileNode [] (dirListOf "".toList item) root :=
  ⟨⟨by decide, by decide⟩, ⟨by decide, by decide, by decide⟩,
    assemble_reaches_every_file symMakeLink sampleNodes "".toList scenarioFiles
      (fun _ _ => rfl) (by decide) (by decide)⟩

/-! ## The speculative parse at particular archives -/

theorem largeNode_length : largeNode.length = 2 <<< 20 := by
  unfold largeNode
  exact List.length_replicate _ _

/-- The frame loop stops at a frame that declares more than 2 MiB: nothing is
consumed, nothing counted, the stream is marked broken. -/
theorem frameLoop_oversize (cid data : List Nat) (fs : List (List Nat × List Nat))
    (hbig : 2 <<< 20 < cid.length + data.length) (hfit : cid.length + data.length < 2 ^ 64)
    (streamLen : Nat) (fuel : Nat) :
    frameLoop (fuel + 1) ⟨framesBytes ((cid, data) :: fs), streamLen, 0, false⟩
      = some ⟨framesBytes ((cid, data) :: fs), streamLen, 0, true⟩ := by
  have hv := putUvarint_ten_length (cid.length + data.length)
  have hU : Uvarint ((framesBytes ((cid, data) :: fs)).take 10)
      = (cid.length + data.length, ((putUvarint 10 (cid.length + data.length)).length : Int)) := by
    unfold framesBytes frameBytes
    rw [List.append_assoc, List.append_assoc]
    exact Uvarint_take_put _ hfit _
  have hbig2 : 2097152 < cid.length + data.length := by simpa using hbig
  have hge : ¬ (framesBytes ((cid, data) :: fs)).length < 10 := by
    simp only [framesBytes, frameBytes, List.length_append]
    omega
  have hpos : ¬ ((putUvarint 10 (cid.length + data.length)).length : Int) ≤ 0 := by
    have : (1 : Int) ≤ ((putUvarint 10 (cid.length + data.length)).length : Int) := by
      exact_mod_cast hv.1
    omega
  rw [frameLoop]
  simp only [hge, if_false, hU, hpos, hbig, gt_iff_lt, if_true]

/-- An archive whose first frame is larger than 2 MiB: the header is
recovered, no frame is counted and the stream is marked broken. -/
theorem speculativeParse_oversize (memLimit : Nat) (DecodeInto : List Nat → Option CarHeader)
    (hdr : List Nat) (carHdr : CarHeader) (cid data : List Nat)
    (fs : List (List Nat × List Nat))
    (hdecode : DecodeInto hdr = some carHdr) (hversion : carHdr.Version = 1)
    (hhdr : 0 < hdr.length ∧ hdr.length ≤ maxAlloc ∧ hdr.length ≤ memLimit)
    (hbig : 2 <<< 20 < cid.length + data.length) (hfit : cid.length + data.length < 2 ^ 64) :
    speculativeParse memLimit DecodeInto (carStream hdr ((cid, data) :: fs))
      = some (.ok (⟨framesBytes ((cid, data) :: fs),
          (putUvarint 10 hdr.length).length + hdr.length, 0, true⟩, some carHdr)) := by
  obtain ⟨h0, hmax, hmem⟩ := hhdr
  have hx : hdr.length < 2 ^ 64 := by
    have : maxAlloc < 2 ^ 64 := by unfold maxAlloc; norm_num
    omega
  have hv := putUvarint_ten_length hdr.length
  have hfirst : 10 ≤ (framesBytes ((cid, data) :: fs)).length := by
    have hbig2 : 2097152 < cid.length + data.length := by simpa using hbig
    simp only [framesBytes, frameBytes, List.length_append]
    omega
  generalize hfr : (cid, data) :: fs = frames at *
  have hU : Uvarint ((carStream hdr frames).take 10)
      = (hdr.length, ((putUvarint 10 hdr.length).length : Int)) := by
    unfold carStream
    rw [List.append_assoc]
    exact Uvarint_take_put _ hx _
  have hlen : (carStream hdr frames).length
      = (putUvarint 10 hdr.length).length + hdr.length + (framesBytes frames).length := by
    simp [carStream]; omega
  have hge : ¬ (carStream hdr frames).length < 10 := by omega
  have hpos : ((putUvarint 10 hdr.length).length : Int) > 0 ∧ hdr.length > 0 := by
    constructor
    · have : (1 : Int) ≤ ((putUvarint 10 hdr.length).length : Int) := by exact_mod_cast hv.1
      omega
    · omega
  have hdrop1 : (carStream hdr frames).drop (putUvarint 10 hdr.length).length
      = hdr ++ framesBytes frames := by
    unfold carStream
    rw [List.append_assoc, List.drop_left]
  have hloop := frameLoop_oversize cid data fs hbig hfit
    ((putUvarint 10 hdr.length).length + hdr.length) (framesBytes frames).length
  rw [hfr] at hloop
  have hmake : makeSlice memLimit hdr.length = .ok () := by
    unfold makeSlice
    rw [if_neg (by omega), if_neg (by omega)]
  unfold speculativeParse
  simp only [hge, if_false, hU, hpos, and_self, if_true, Int.toNat_ofNat, hdrop1, hmake]
  have hmin1 : min (putUvarint 10 hdr.length).length (carStream hdr frames).length
      = (putUvarint 10 hdr.length).length := by
    rw [hlen]; omega
  have hmin2 : min hdr.length (hdr ++ framesBytes frames).length = hdr.length := by
    rw [List.length_append]; omega
  simp only [hmin1, lt_irrefl, if_false, hmin2, List.take_left, List.drop_left, hdecode,
    hversion, if_true, hloop]

theorem largeFrame_bounds :
    2 <<< 20 < sampleCid.length + largeNode.length
      ∧ sampleCid.length + largeNode.length < 2 ^ 64 := by
  have hcid : sampleCid.length = 36 := by decide
  rw [hcid, largeNode_length]
  decide

/-- C8, refuted as stated: a version-1 header followed by one frame in the
stated framing whose node has 2 MiB of bytes. The parse recovers the header
but counts no frame and marks the stream broken. -/
theorem speculativeParse_rejects_large_frame :
    ∃ sc, speculativeParse (2 ^ 30) sampleDecode
          (carStream emptyRootsHeader [(sampleCid, largeNode)])
        = some (.ok (sc, some ⟨[], 1⟩))
      ∧ sc.blockCount = 0 ∧ sc.brokenCar = true :=
  ⟨_, speculativeParse_oversize (2 ^ 30) sampleDecode emptyRootsHeader ⟨[], 1⟩ sampleCid
      largeNode [] rfl rfl (by decide) largeFrame_bounds.1 largeFrame_bounds.2, rfl, rfl⟩

/-- An archive whose only frame is shorter than ten bytes: the peek of ten
bytes ends in `io.EOF`, the frame is not counted, and the stream is not marked
broken. -/
theorem speculativeParse_drops_short_frame :
    speculativeParse (2 ^ 30) sampleDecode (carStream emptyRootsHeader [(emptyBlockCid, [])])
      = some (.ok (⟨[4, 1, 0x55, 0, 0], 18, 0, false⟩, some ⟨[], 1⟩)) := by
  decide

/-- A frame shorter than ten bytes that is not the last one is counted: here
the short frame is followed by a frame of 37 bytes. -/
theorem speculativeParse_counts_short_inner_frame :
    speculativeParse (2 ^ 30) sampleDecode
        (carStream emptyRootsHeader [(emptyBlockCid, []), (sampleCid, [])])
      = some (.ok (⟨[], 60, 2, false⟩, some ⟨[], 1⟩)) := by
  decide

/-- C8 (amended), at an archive of three frames: a frame with a CID of four
bytes and 100 node bytes, a frame of five bytes, and a last frame of 37
bytes. -/
theorem speculativeParse_archive_witness :
    (sampleDecode emptyRootsHeader = some ⟨[], 1⟩
      ∧ (⟨[], 1⟩ : CarHeader).Version = 1
      ∧ (0 < emptyRootsHeader.length ∧ emptyRootsHeader.length ≤ maxAlloc
          ∧ emptyRootsHeader.length ≤ 2 ^ 30)
      ∧ 10 ≤ (carStream emptyRootsHeader
          [(emptyBlockCid, List.replicate 100 7), (emptyBlockCid, []), (sampleCid, [])]).length
      ∧ (∀ f ∈ [(emptyBlockCid, List.replicate 100 7), (emptyBlockCid, []), (sampleCid, [])],
          f.1.length + f.2.length ≤ 2 <<< 20)
      ∧ ∀ f, [(emptyBlockCid, List.replicate 100 7), (emptyBlockCid, []),
            (sampleCid, ([] : List Nat))].getLast? = some f →
          10 ≤ (frameBytes f.1 f.2).length)
    ∧ speculativeParse (2 ^ 30) sampleDecode
        (carStream emptyRootsHeader
          [(emptyBlockCid, List.replicate 100 7), (emptyBlockCid, []), (sampleCid, [])])
      = some (.ok (⟨[], (carStream emptyRootsHeader
          [(emptyBlockCid, List.replicate 100 7), (emptyBlockCid, []), (sampleCid, [])]).length,
          3, false⟩, some ⟨[], 1⟩)) :=
  ⟨⟨rfl, rfl, by decide,
      by
        have h17 : emptyRootsHeader.length = 17 := rfl
        simp only [carStream, List.length_append]
        omega,
      by decide,
      fun f hf => by
        simp only [List.getLast?_cons_cons, List.getLast?_singleton, Option.some.injEq] at hf
        subst hf
        decide⟩,
    speculativeParse_archive (2 ^ 30) sampleDecode emptyRootsHeader ⟨[], 1⟩
      [(emptyBlockCid, List.replicate 100 7), (emptyBlockCid, []), (sampleCid, [])] rfl rfl
      (by decide)
      (by
        have h17 : emptyRootsHeader.length = 17 := rfl
        simp only [carStream, List.length_append]
        omega)
      (by decide)
      (fun f hf => by
        simp only [List.getLast?_cons_cons, List.getLast?_singleton, Option.some.injEq] at hf
        subst hf
        decide)⟩

/-! ## The commitment run ends and accounts for every byte it reports -/

/-- The frame loop keeps the sum of the bytes counted and the bytes left. -/
theorem frameLoop_length (fuel : Nat) :
    ∀ (sc sc3 : Scan), frameLoop fuel sc = some sc3 →
      sc3.streamLen + sc3.rest.length = sc.streamLen + sc.rest.length := by
  induction fuel with
  | zero => intro sc sc3 h; simp [frameLoop] at h
  | succ fuel ih =>
    intro sc sc3 h
    rw [frameLoop] at h
    dsimp only at h
    split_ifs at h with h10 hvi hbig htrunc
    · cases h; rfl
    · cases h; rfl
    · cases h; rfl
    · cases h
      simp only [List.length_drop]
      omega
    · have := ih _ _ h
      simp only [List.length_drop] at this
      omega

/-- The frame loop ends within the fuel of one step per byte left. -/
theorem frameLoop_total (fuel : Nat) :
    ∀ (sc : Scan), sc.rest.length < fuel → ∃ sc3, frameLoop fuel sc = some sc3 := by
  induction fuel with
  | zero => intro sc h; omega
  | succ fuel ih =>
    intro sc hfuel
    rw [frameLoop]
    dsimp only
    split_ifs with h10 hvi hbig htrunc
    · exact ⟨_, rfl⟩
    · exact ⟨_, rfl⟩
    · exact ⟨_, rfl⟩
    · exact ⟨_, rfl⟩
    · apply ih
      simp only [List.length_drop]
      omega

/-- The allocation of the header buffer succeeds, panics or ends the process. -/
theorem makeSlice_cases (memLimit n : Nat) :
    (makeSlice memLimit n = .ok () ∧ n ≤ maxAlloc ∧ n ≤ memLimit)
      ∨ (makeSlice memLimit n = .panic "makeslice: len out of range" ∧ n > maxAlloc)
      ∨ (makeSlice memLimit n = .fatal "runtime: out of memory" ∧ n > memLimit) := by
  unfold makeSlice
  split_ifs with h1 h2
  · exact Or.inr (Or.inl ⟨rfl, h1⟩)
  · exact Or.inr (Or.inr ⟨rfl, h2⟩)
  · exact Or.inl ⟨rfl, by omega, by omega⟩

/-- The speculative parse always ends: the fuel of the frame loop suffices. -/
theorem speculativeParse_total (memLimit : Nat) (DecodeInto : List Nat → Option CarHeader)
    (stream : List Nat) : ∃ r, speculativeParse memLimit DecodeInto stream = some r := by
  rcases makeSlice_cases memLimit (Uvarint (stream.take 10)).1 with ⟨hm, _⟩ | ⟨hm, _⟩ | ⟨hm, _⟩
  · unfold speculativeParse
    simp only [hm]
    split_ifs
    all_goals first
      | exact ⟨_, rfl⟩
      | skip
    split
    · exact ⟨_, rfl⟩
    · split_ifs
      · obtain ⟨sc3, h3⟩ := frameLoop_total
          (((stream.drop (Uvarint (stream.take 10)).2.toNat).drop
            (Uvarint (stream.take 10)).1).length + 1)
          ⟨(stream.drop (Uvarint (stream.take 10)).2.toNat).drop (Uvarint (stream.take 10)).1,
            min (Uvarint (stream.take 10)).2.toNat stream.length
              + min (Uvarint (stream.take 10)).1
                (stream.drop (Uvarint (stream.take 10)).2.toNat).length, 0, false⟩
          (Nat.lt_succ_self _)
        rw [h3]
        exact ⟨_, rfl⟩
      · exact ⟨_, rfl⟩
  · unfold speculativeParse
    simp only [hm]
    split_ifs <;> exact ⟨_, rfl⟩
  · unfold speculativeParse
    simp only [hm]
    split_ifs <;> exact ⟨_, rfl⟩

/-- When the speculative parse returns, the bytes it counted and the bytes it
left add up to the stream. -/
theorem speculativeParse_length (memLimit : Nat) (DecodeInto : List Nat → Option CarHeader)
    (stream : List Nat) (sc : Scan) (carHdr : Option CarHeader)
    (h : speculativeParse memLimit DecodeInto stream = some (.ok (sc, carHdr))) :
    sc.streamLen + sc.rest.length = stream.length := by
  rcases makeSlice_cases memLimit (Uvarint (stream.take 10)).1 with ⟨hm, _⟩ | ⟨hm, _⟩ | ⟨hm, _⟩
  · unfold speculativeParse at h
    simp only [hm] at h
    split_ifs at h
    all_goals first
      | (cases h; done)
      | (cases h; simp only [List.length_drop]; omega)
      | skip
    split at h
    · cases h
      simp only [List.length_drop]
      omega
    · split_ifs at h
      · split at h
        · rename_i sc3 h3
          cases h
          have := frameLoop_length _ _ _ h3
          simp only [List.length_drop] at this
          omega
        · cases h
      · cases h
        simp only [List.length_drop]
        omega
  · unfold speculativeParse at h
    simp only [hm] at h
    split_ifs at h
    all_goals first
      | (cases h; done)
      | (cases h; simp only [List.length_drop]; omega)
  · unfold speculativeParse at h
    simp only [hm] at h
    split_ifs at h
    all_goals first
      | (cases h; done)
      | (cases h; simp only [List.length_drop]; omega)

/-- `CalculateCommp` always ends: with a report, a panic or a fatal error. -/
theorem CalculateCommp_total {D K : Type} (memLimit : Nat)
    (DecodeInto : List Nat → Option CarHeader)
    (Digest : List Nat → Option (D × Nat)) (DataCommitmentV1ToCID : D → Option K)
    (stream : List Nat) :
    ∃ r, CalculateCommp memLimit DecodeInto Digest DataCommitmentV1ToCID stream = some r := by
  obtain ⟨r, hr⟩ := speculativeParse_total memLimit DecodeInto stream
  unfold CalculateCommp
  rw [hr]
  cases r with
  | ok p =>
    obtain ⟨sc, carHdr⟩ := p
    simp only
    cases Digest stream with
    | none => exact ⟨_, rfl⟩
    | some d =>
      obtain ⟨rawCommP, paddedSize⟩ := d
      simp only
      cases DataCommitmentV1ToCID rawCommP with
      | none => exact ⟨_, rfl⟩
      | some c => exact ⟨_, rfl⟩
  | error e => exact ⟨_, rfl⟩
  | panic e => exact ⟨_, rfl⟩
  | fatal e => exact ⟨_, rfl⟩

/-- Whenever `CalculateCommp` ends with a report, the payload byte count of
the report is the length of the stream. -/
theorem CalculateCommp_streamLen {D K : Type} (memLimit : Nat)
    (DecodeInto : List Nat → Option CarHeader)
    (Digest : List Nat → Option (D × Nat)) (DataCommitmentV1ToCID : D → Option K)
    (stream : List Nat) (report : Report K)
    (h : CalculateCommp memLimit DecodeInto Digest DataCommitmentV1ToCID stream
      = some (.ok report)) :
    report.streamLen = stream.length := by
  unfold CalculateCommp at h
  split at h
  · cases h
  · rename_i sc carHdr hsp
    have hlen := speculativeParse_length memLimit DecodeInto stream sc carHdr hsp
    simp only at h
    split at h
    · cases h
    · split at h
      · cases h
      · cases h
        exact hlen
  · cases h
  · cases h
  · cases h

/-- The speculative parse ends without a result only when the header buffer
cannot be allocated. -/
theorem speculativeParse_not_ok (memLimit : Nat) (DecodeInto : List Nat → Option CarHeader)
    (stream : List Nat) (r : Outcome (Scan × Option CarHeader))
    (h : speculativeParse memLimit DecodeInto stream = some r) (hr : ∀ p, r ≠ .ok p) :
    (Uvarint (stream.take 10)).1 > maxAlloc ∨ (Uvarint (stream.take 10)).1 > memLimit := by
  rcases makeSlice_cases memLimit (Uvarint (stream.take 10)).1 with
    ⟨hm, _⟩ | ⟨_, hm⟩ | ⟨_, hm⟩
  · unfold speculativeParse at h
    simp only [hm] at h
    split_ifs at h
    all_goals first
      | (cases h; exact absurd rfl (hr _))
      | skip
    split at h
    · cases h; exact absurd rfl (hr _)
    · split_ifs at h
      · split at h
        · cases h; exact absurd rfl (hr _)
        · cases h
      · cases h; exact absurd rfl (hr _)
  · exact Or.inl hm
  · exact Or.inr hm

/-- A stream whose header buffer can be allocated does not make
`CalculateCommp` panic: it ends with a report or, when the commitment
primitives fail, with `log.Fatal`. -/
theorem CalculateCommp_no_panic {D K : Type} (memLimit : Nat)
    (DecodeInto : List Nat → Option CarHeader)
    (Digest : List Nat → Option (D × Nat)) (DataCommitmentV1ToCID : D → Option K)
    (stream : List Nat)
    (hfit : (Uvarint (stream.take 10)).1 ≤ maxAlloc ∧ (Uvarint (stream.take 10)).1 ≤ memLimit) :
    (∃ report, CalculateCommp memLimit DecodeInto Digest DataCommitmentV1ToCID stream
        = some (.ok report))
      ∨ ∃ e, CalculateCommp memLimit DecodeInto Digest DataCommitmentV1ToCID stream
          = some (.fatal e) := by
  have hsp : ∃ sc carHdr, speculativeParse memLimit DecodeInto stream
      = some (.ok (sc, carHdr)) := by
    obtain ⟨r, hr⟩ := speculativeParse_total memLimit DecodeInto stream
    cases r with
    | ok p => exact ⟨p.1, p.2, hr⟩
    | error e =>
      have := speculativeParse_not_ok memLimit DecodeInto stream _ hr (fun p hp => by cases hp)
      omega
    | panic e =>
      have := speculativeParse_not_ok memLimit DecodeInto stream _ hr (fun p hp => by cases hp)
      omega
    | fatal e =>
      have := speculativeParse_not_ok memLimit DecodeInto stream _ hr (fun p hp => by cases hp)
      omega
  obtain ⟨sc, carHdr, h⟩ := hsp
  unfold CalculateCommp
  rw [h]
  simp only
  cases Digest stream with
  | none => exact Or.inr ⟨_, rfl⟩
  | some d =>
    obtain ⟨rawCommP, paddedSize⟩ := d
    simp only
    cases DataCommitmentV1ToCID rawCommP with
    | none => exact Or.inr ⟨_, rfl⟩
    | some c => exact Or.inl ⟨_, rfl⟩

end Bodyshop
